import Mathlib

/-! Manchester encoder (`manchester/encoder/encoder.go`).

A shallow embedding of the encoder of `womat/golib`.

* Bytes (`byte`) are natural numbers; the values that can occur are `< 256`.
  Right shifts and the mask `& 1` never overflow, so no reduction is needed.
* The output pin is driven through the caller's `setValue func(int) error`.
  The closure may have hidden state, so it is embedded as a function on an
  explicit state `σ` that returns the next state and the error (`none` is
  Go's `nil`).
* Everything the worker goroutine does to the outside world is recorded in a
  log of events: a `setLevel v` for every call `e.setValue(v)` and a `tick`
  for every completed receive `<-e.bitTicker.C`.
* The buffered channel `e.buffer` (capacity 1024) is a list of frames plus a
  `closed` flag; a send either succeeds, would block, or panics.
-/

namespace Manchester

/-! ## Data model -/

/-- Constant `Low = 0` of the source. -/
def Low : Nat := 0

/-- Constant `High = 1` of the source. -/
def High : Nat := 1

/-- Transmission unit `type frame struct { b byte; framing bool }`. -/
structure frame where
  b : Nat
  framing : Bool
deriving DecidableEq, Repr

/-- What the worker does to the outside world, in order. -/
inductive Event where
  | setLevel (level : Int)
  | tick
deriving DecidableEq, Repr

/-- Embedding of `type SetValue func(int) error` with closure state `σ`. -/
abbrev SetValue (σ : Type) := Int → σ → σ × Option String

/-- State of the output side: the closure state behind `setValue` and the log
of the calls and tick waits performed so far. -/
structure Line (σ : Type) where
  pin : σ
  log : List Event

/-- One call `_ = e.setValue(v)`: the closure runs, its error is dropped. -/
def callSetValue {σ : Type} (setValue : SetValue σ) (v : Int) (l : Line σ) : Line σ :=
  { pin := (setValue v l.pin).1, log := l.log ++ [Event.setLevel v] }

/-- One receive `<-e.bitTicker.C`. -/
def waitTick {σ : Type} (l : Line σ) : Line σ :=
  { l with log := l.log ++ [Event.tick] }

/-- Embedding of `func (e *Encoder) encodeBit(bit byte)`. -/
def encodeBit {σ : Type} (setValue : SetValue σ) (bit : Nat) (l : Line σ) : Line σ :=
  if bit = Low then
    waitTick (callSetValue setValue 1 (waitTick (callSetValue setValue 0 l)))
  else
    waitTick (callSetValue setValue 0 (waitTick (callSetValue setValue 1 l)))

/-- Embedding of `func (e *Encoder) encodeFrame(f frame)`; the `slog.Debug`
calls have no effect on the line and are left out. -/
def encodeFrame {σ : Type} (setValue : SetValue σ) (f : frame) (l : Line σ) : Line σ :=
  let l1 := if f.framing then encodeBit setValue Low l else l
  let l2 := (List.range 8).foldl (fun acc i => encodeBit setValue ((f.b >>> i) &&& 1) acc) l1
  if f.framing then encodeBit setValue High l2 else l2

/-- The worker's treatment of a run of units received in this order: each
unit is passed to `encodeFrame` before the next is received. -/
def encodeFrames {σ : Type} (setValue : SetValue σ) (fs : List frame) (l : Line σ) : Line σ :=
  fs.foldl (fun acc f => encodeFrame setValue f acc) l

/-! ## The frame queue -/

/-- Capacity of `make(chan frame, 1024)`. -/
def bufferCap : Nat := 1024

/-- Embedding of the buffered channel `e.buffer`. -/
structure Chan where
  buf : List frame
  closed : Bool
deriving DecidableEq, Repr

/-- Outcome of an operation that may block or panic. -/
inductive Outcome (α : Type) where
  | done (a : α)
  | blocked
  | panicked (msg : String)
deriving DecidableEq, Repr

/-- A send `e.buffer <- f` with no receiver running. -/
def send (ch : Chan) (f : frame) : Outcome Chan :=
  if ch.closed then Outcome.panicked "send on closed channel"
  else if ch.buf.length < bufferCap then Outcome.done { ch with buf := ch.buf ++ [f] }
  else Outcome.blocked

/-- The loop `for _, b := range data { e.buffer <- frame{b: b, framing: true} }`. -/
def sendData : List Nat → Chan → Outcome Chan
  | [], ch => Outcome.done ch
  | b :: rest, ch =>
    match send ch { b := b, framing := true } with
    | Outcome.done ch1 => sendData rest ch1
    | Outcome.blocked => Outcome.blocked
    | Outcome.panicked m => Outcome.panicked m

/-- Embedding of `func (e *Encoder) Write(data []byte) (int, error)` run with
no other goroutine taking a step: the result is the queue after the call and
the returned pair (`none` is the `nil` error). -/
def Write (data : List Nat) (ch : Chan) : Outcome (Chan × Nat × Option String) :=
  match send ch { b := 0xff, framing := false } with
  | Outcome.done ch1 =>
    match send ch1 { b := 0xff, framing := false } with
    | Outcome.done ch2 =>
      match sendData data ch2 with
      | Outcome.done ch3 => Outcome.done (ch3, data.length, none)
      | Outcome.blocked => Outcome.blocked
      | Outcome.panicked m => Outcome.panicked m
    | Outcome.blocked => Outcome.blocked
    | Outcome.panicked m => Outcome.panicked m
  | Outcome.blocked => Outcome.blocked
  | Outcome.panicked m => Outcome.panicked m

/-- The units one `Write(data)` sends, in program order. -/
def writeFrames (data : List Nat) : List frame :=
  [{ b := 0xff, framing := false }, { b := 0xff, framing := false }] ++
    data.map (fun b => { b := b, framing := true })

/-- The levels passed to `setValue`, in call order, read off a log. -/
def levels : List Event → List Int
  | [] => []
  | Event.setLevel v :: rest => v :: levels rest
  | Event.tick :: rest => levels rest

/-- Manchester level pair of one logical bit, as the spec words it:
`0` is (Low, High), `1` is (High, Low). -/
def bitLevels (bit : Nat) : List Int :=
  if bit = 0 then [0, 1] else [1, 0]

/-- Bit `i` of a byte. -/
def bitOf (b i : Nat) : Nat := (b / 2 ^ i) % 2

/-- The log entries one logical bit produces: set the first level, wait one
tick, set the second level, wait one tick. -/
def bitEvents (bit : Nat) : List Event :=
  if bit = 0 then [Event.setLevel 0, Event.tick, Event.setLevel 1, Event.tick]
  else [Event.setLevel 1, Event.tick, Event.setLevel 0, Event.tick]

/-- The logical bits of one unit in emission order, as the spec words the
frame layout: start bit `0`, data bits least significant first, stop bit `1`
for a framed unit; the eight data bits alone for an unframed one. -/
def frameBits (f : frame) : List Nat :=
  if f.framing then 0 :: (List.range 8).map (bitOf f.b) ++ [1]
  else (List.range 8).map (bitOf f.b)

/-- What a run of units adds to the log. -/
def emitted {σ : Type} (setValue : SetValue σ) (fs : List frame) (l : Line σ) : List Event :=
  (encodeFrames setValue fs l).log.drop l.log.length

/-! ## The encoder as a system of goroutines

`New` starts one worker goroutine (`listenForFrames`); client goroutines call
`Write` and `Close`. A state of the system holds the shared variables of the
`Encoder`, the program counter of the worker, and for every client the atomic
steps it still has to take. One step of the system is one atomic step of one
goroutine; a schedule is the list of the steps taken. The worker's
`encodeFrame` touches nothing but the line and the ticker, which no other
goroutine uses, so it is taken as a single step. -/

/-- Program counter of the worker goroutine `listenForFrames`. -/
inductive WorkerPc where
  /-- at the `select` of the `for` loop -/
  | selecting
  /-- `case <-e.stop` was taken; next is `close(e.buffer)` -/
  | stopping
  /-- in `for f := range e.buffer` -/
  | draining
  /-- `e.bitTicker.Stop()`, `return` and the deferred `e.wg.Done()` have run -/
  | exited
deriving DecidableEq, Repr

/-- Atomic steps of a client goroutine. -/
inductive Instr where
  /-- `e.writeMutex.Lock()` -/
  | lock
  /-- `e.buffer <- f` -/
  | send (f : frame)
  /-- `return n, nil` of `Write`, with the deferred `e.writeMutex.Unlock()` -/
  | unlockReturn (n : Nat)
  /-- `close(e.stop)` -/
  | closeStop
  /-- `e.wg.Wait()` followed by `return nil` of `Close` -/
  | waitReturn
deriving DecidableEq, Repr

/-- A value returned to a client: `(n, err)` of `Write` or `err` of `Close`. -/
inductive Ret where
  | write (n : Nat) (err : Option String)
  | close (err : Option String)
deriving DecidableEq, Repr

/-- The body of `Write(data)` as atomic steps, in program order. -/
def WriteSteps (data : List Nat) : List Instr :=
  Instr.lock :: Instr.send { b := 0xff, framing := false }
    :: Instr.send { b := 0xff, framing := false }
    :: (data.map (fun b => Instr.send { b := b, framing := true })
        ++ [Instr.unlockReturn data.length])

/-- The body of `Close()` as atomic steps, in program order. -/
def CloseSteps : List Instr :=
  [Instr.closeStop, Instr.waitReturn]

/-- A call a client makes. -/
inductive Op where
  | write (data : List Nat)
  | close
deriving DecidableEq, Repr

/-- The atomic steps of one call. -/
def Op.steps : Op → List Instr
  | Op.write data => WriteSteps data
  | Op.close => CloseSteps

/-- The atomic steps of a client that makes the calls of `ops` one after the
other, each after the previous one returned. -/
def scriptSteps (ops : List Op) : List Instr :=
  ops.flatMap Op.steps

/-- State of the encoder together with its goroutines. `sent` (every unit put
on the queue so far, in order) and `returns` (client index and value of every
call that returned, in order) are history variables; `crashed` holds the
message of a Go runtime panic, which ends the program. -/
structure Sys (σ : Type) where
  buffer : Chan
  stopClosed : Bool
  mutex : Bool
  worker : WorkerPc
  line : Line σ
  clients : List (List Instr)
  sent : List frame
  returns : List (Nat × Ret)
  crashed : Option String

/-- The state `New` leaves behind, with the given client goroutines about to
run: both channels open, the mutex free, the worker at its `select`. -/
def Sys.start {σ : Type} (pin : σ) (clients : List (List Instr)) : Sys σ :=
  { buffer := { buf := [], closed := false }, stopClosed := false, mutex := false,
    worker := WorkerPc.selecting, line := { pin := pin, log := [] }, clients := clients,
    sent := [], returns := [], crashed := none }

/-- One step of the system. -/
inductive Action where
  /-- client `i` takes its next atomic step -/
  | client (i : Nat)
  /-- the worker receives a unit from `e.buffer` and runs `encodeFrame` on it -/
  | recv
  /-- the worker's `select` takes `case <-e.stop` -/
  | stop
  /-- the worker runs `close(e.buffer)` -/
  | closeBuffer
  /-- the worker leaves the `range` loop, stops the ticker and returns -/
  | exit
deriving DecidableEq, Repr

/-- Step of client `i`; `none` when the client does not exist, has finished
or is blocked. -/
def clientStep {σ : Type} (i : Nat) (s : Sys σ) : Option (Sys σ) :=
  match s.clients[i]? with
  | none => none
  | some [] => none
  | some (Instr.lock :: rest) =>
    if s.mutex then none
    else some { s with mutex := true, clients := s.clients.set i rest }
  | some (Instr.send f :: rest) =>
    match send s.buffer f with
    | Outcome.done ch =>
      some { s with buffer := ch, sent := s.sent ++ [f], clients := s.clients.set i rest }
    | Outcome.blocked => none
    | Outcome.panicked m => some { s with crashed := some m }
  | some (Instr.unlockReturn n :: rest) =>
    some { s with mutex := false, clients := s.clients.set i rest,
                  returns := s.returns ++ [(i, Ret.write n none)] }
  | some (Instr.closeStop :: rest) =>
    if s.stopClosed then some { s with crashed := some "close of closed channel" }
    else some { s with stopClosed := true, clients := s.clients.set i rest }
  | some (Instr.waitReturn :: rest) =>
    if s.worker = WorkerPc.exited then
      some { s with clients := s.clients.set i rest,
                    returns := s.returns ++ [(i, Ret.close none)] }
    else none

/-- The worker receives from `e.buffer`: the oldest queued unit, or the zero
frame at once when the channel is closed and empty; `none` when it must wait. -/
def recvFrame (ch : Chan) : Option (frame × Chan) :=
  match ch.buf with
  | f :: rest => some (f, { ch with buf := rest })
  | [] => if ch.closed then some ({ b := 0, framing := false }, ch) else none

/-- Step of the worker goroutine `listenForFrames`; `none` when the action is
not the worker's next step or the worker must wait. -/
def workerStep {σ : Type} (setValue : SetValue σ) (a : Action) (s : Sys σ) : Option (Sys σ) :=
  match s.worker, a with
  | WorkerPc.selecting, Action.recv =>
    match recvFrame s.buffer with
    | some (f, ch) => some { s with buffer := ch, line := encodeFrame setValue f s.line }
    | none => none
  | WorkerPc.selecting, Action.stop =>
    if s.stopClosed then some { s with worker := WorkerPc.stopping } else none
  | WorkerPc.stopping, Action.closeBuffer =>
    if s.buffer.closed then some { s with crashed := some "close of closed channel" }
    else some { s with buffer := { s.buffer with closed := true }, worker := WorkerPc.draining }
  | WorkerPc.draining, Action.recv =>
    match s.buffer.buf with
    | f :: rest =>
      some { s with buffer := { s.buffer with buf := rest },
                    line := encodeFrame setValue f s.line }
    | [] => none
  | WorkerPc.draining, Action.exit =>
    if s.buffer.buf = [] ∧ s.buffer.closed = true then some { s with worker := WorkerPc.exited }
    else none
  | _, _ => none

/-- One step of the system; after a panic nothing runs. -/
def step {σ : Type} (setValue : SetValue σ) (s : Sys σ) (a : Action) : Option (Sys σ) :=
  if s.crashed.isSome then none
  else
    match a with
    | Action.client i => clientStep i s
    | _ => workerStep setValue a s

/-- The state after a schedule, `none` when one of its steps cannot be taken. -/
def run {σ : Type} (setValue : SetValue σ) : Sys σ → List Action → Option (Sys σ)
  | s, [] => some s
  | s, a :: rest =>
    match step setValue s a with
    | some s1 => run setValue s1 rest
    | none => none

/-- The units sent by a list of client steps, in order. -/
def sendsOf : List Instr → List frame
  | [] => []
  | Instr.send f :: rest => f :: sendsOf rest
  | _ :: rest => sendsOf rest

/-- Rank of the worker's program counter: the steps it has yet to take
besides receiving. -/
def WorkerPc.rank : WorkerPc → Nat
  | WorkerPc.selecting => 3
  | WorkerPc.stopping => 2
  | WorkerPc.draining => 1
  | WorkerPc.exited => 0

/-- A bound on the number of steps the system can still take: two for every
client step left (a send adds a unit that the worker has to receive), one for
every queued unit, the worker's rank, and one for a possible panic. -/
def Sys.fuel {σ : Type} (s : Sys σ) : Nat :=
  2 * (s.clients.map List.length).sum + s.buffer.buf.length + s.worker.rank
    + (if s.crashed.isSome then 0 else 1)

/-- The values a list of client steps returns to client `i`, in order. -/
def retsOf (i : Nat) : List Instr → List (Nat × Ret)
  | [] => []
  | Instr.unlockReturn n :: rest => (i, Ret.write n none) :: retsOf i rest
  | Instr.waitReturn :: rest => (i, Ret.close none) :: retsOf i rest
  | _ :: rest => retsOf i rest

/-- Whether a client holds the mutex, read off its next step: it does exactly
when that step is a send or the return of `Write`. -/
def inside : List Instr → Bool
  | Instr.send _ :: _ => true
  | Instr.unlockReturn _ :: _ => true
  | _ => false

/-- Check that the steps a lone client has left fit the state of the mutex
and of the stop channel: a `Lock` finds the mutex free, sends and the return
of `Write` come with the mutex held and before any `close(e.stop)`, there is
at most one `close(e.stop)`, and `e.wg.Wait()` comes after it. -/
def okFrom : Bool → Bool → List Instr → Bool
  | _, _, [] => true
  | m, c, Instr.lock :: rest => !m && okFrom true c rest
  | m, c, Instr.send _ :: rest => m && !c && okFrom m c rest
  | m, c, Instr.unlockReturn _ :: rest => m && okFrom false c rest
  | m, c, Instr.closeStop :: rest => !c && okFrom m true rest
  | m, c, Instr.waitReturn :: rest => c && okFrom m c rest

/-- Invariant of every system started by `Sys.start`, whatever its clients:
`e.buffer` is closed by the worker alone and only after it saw `e.stop`
closed; the worker exits only with the queue empty; the units sent so far are
those already emitted, in order, followed by those still queued; a `Close`
returns only after the worker exited; every call returns a `nil` error. -/
structure Inv {σ : Type} (setValue : SetValue σ) (l0 : Line σ) (s : Sys σ) : Prop where
  open_early : s.worker = WorkerPc.selecting ∨ s.worker = WorkerPc.stopping →
    s.buffer.closed = false
  closed_late : s.worker = WorkerPc.draining ∨ s.worker = WorkerPc.exited →
    s.buffer.closed = true
  stop_seen : s.worker ≠ WorkerPc.selecting → s.stopClosed = true
  drained : s.worker = WorkerPc.exited → s.buffer.buf = []
  fifo : ∃ emittedUnits, s.sent = emittedUnits ++ s.buffer.buf
    ∧ s.line = encodeFrames setValue emittedUnits l0
  close_ret : ∀ i e, (i, Ret.close e) ∈ s.returns → s.worker = WorkerPc.exited ∧ e = none
  write_ret : ∀ i n e, (i, Ret.write n e) ∈ s.returns → e = none

/-- Invariant of a system with one client that runs the steps `prog`: the
steps left fit the mutex and the stop channel, the units sent and the values
returned so far are those of the steps already taken, nothing panicked, and
the worker has exited once the client is past its `e.wg.Wait()`. -/
structure Solo {σ : Type} (prog : List Instr) (s : Sys σ) : Prop where
  left : ∃ post, s.clients = [post] ∧ okFrom s.mutex s.stopClosed post = true
    ∧ s.sent ++ sendsOf post = sendsOf prog
    ∧ s.returns ++ retsOf 0 post = retsOf 0 prog
    ∧ (Instr.waitReturn ∈ prog → Instr.waitReturn ∈ post ∨ s.worker = WorkerPc.exited)
  sound : s.crashed = none

/-- The forms the steps left of one `Write(data)` can take: all of them, some
sends followed by the return, or none. -/
def WShape (data : List Nat) (p : List Instr) : Prop :=
  p = WriteSteps data
    ∨ (∃ fs : List frame, p = fs.map Instr.send ++ [Instr.unlockReturn data.length])
    ∨ p = []

/-- Invariant of two clients that each make one call, `Write(A)` and
`Write(B)`, stated on the mutex `m`, the units sent so far and the steps
`pa`, `pb` the two have left: the mutex is held exactly when one of them is
between `Lock` and return, never both; and the units sent so far followed by
those still to send are the two runs one after the other, where the second
run has not begun before the first is complete. -/
def DuoInv (A B : List Nat) (m : Bool) (sent : List frame) (pa pb : List Instr) : Prop :=
  WShape A pa ∧ WShape B pb ∧ m = (inside pa || inside pb)
    ∧ (inside pa = true → inside pb = false)
    ∧ ((sent ++ sendsOf pa ++ sendsOf pb = writeFrames A ++ writeFrames B
          ∧ (pb = WriteSteps B ∨ pa = []))
        ∨ (sent ++ sendsOf pb ++ sendsOf pa = writeFrames B ++ writeFrames A
          ∧ (pa = WriteSteps A ∨ pb = [])))

/-- Invariant of the system of two clients calling `Write(A)` and `Write(B)`. -/
structure Duo {σ : Type} (A B : List Nat) (s : Sys σ) : Prop where
  pair : ∃ pa pb, s.clients = [pa, pb] ∧ DuoInv A B s.mutex s.sent pa pb
  sound : s.crashed = none
  running : s.stopClosed = false

/-! ## Timing set up by `New` -/

/-- Nanoseconds in `time.Second`. -/
def Second : Int := 1000000000

/-- Conversion `time.Duration(carrierFreq)` of a finite `float64`, which is a
rational number, to `int64` nanoseconds within range: the fraction is
discarded (truncation toward zero). -/
def toDuration (carrierFreq : ℚ) : Int :=
  carrierFreq.num.tdiv carrierFreq.den

/-- Integer division of Go: truncating, with a run-time panic on a zero
divisor. -/
def goDiv (a b : Int) : Outcome Int :=
  if b = 0 then Outcome.panicked "integer divide by zero" else Outcome.done (a.tdiv b)

/-- The period check of `time.NewTicker(d)`, which panics for `d <= 0`. -/
def NewTicker (d : Int) : Outcome Int :=
  if d ≤ 0 then Outcome.panicked "non-positive interval for NewTicker" else Outcome.done d

/-- What `New` computes for the clock, in nanoseconds. -/
structure Timing where
  bitPeriod : Int
  halfBitPeriod : Int
deriving DecidableEq, Repr

/-- Embedding of the timing part of `func New(carrierFreq float64, setValue
SetValue) *Encoder`: `bitPeriod := time.Second / time.Duration(carrierFreq)`
and `time.NewTicker(bitPeriod / 2)`. -/
def New (carrierFreq : ℚ) : Outcome Timing :=
  match goDiv Second (toDuration carrierFreq) with
  | Outcome.done bitPeriod =>
    match NewTicker (bitPeriod.tdiv 2) with
    | Outcome.done half => Outcome.done { bitPeriod := bitPeriod, halfBitPeriod := half }
    | Outcome.blocked => Outcome.blocked
    | Outcome.panicked m => Outcome.panicked m
  | Outcome.blocked => Outcome.blocked
  | Outcome.panicked m => Outcome.panicked m

end Manchester

/-! ## The decoder (`manchester/decoder`)

Only the test of the tolerance classifier is in the repository. -/

namespace Decoder

/-- Modelled from the spec: the decoder's tolerance classifier
`withinTolerance(value, reference, tolerance time.Duration) bool`, of which the
repository holds only the test. The spec words it as
`within(value, reference, tolerance) ⇔ |value − reference| ≤ tolerance`.
Durations are whole nanoseconds. -/
def withinTolerance (value reference tolerance : Int) : Bool :=
  decide (|value - reference| ≤ tolerance)

/-- Nanoseconds in `time.Millisecond`. -/
def Millisecond : Int := 1000000

end Decoder

/-! ## Records (`pkg/keyvalue/keyvalue.go`)

Go strings are Lean strings. The getters are listed in an order in which none
of their names hides a type another one needs. -/

namespace KeyValue

/-- A `float64`: a finite value other than negative zero, given as the
rational number it is, or one of the four values that are no rational number:
negative zero, NaN and the two infinities. -/
inductive F64 where
  | finite (q : ℚ)
  | negZero
  | NaN
  | posInf
  | negInf
deriving DecidableEq

/-- Comparison `==` of two `float64`: NaN equals nothing, not even itself, and
negative zero equals zero. -/
def F64.eq (a b : F64) : Bool :=
  match a, b with
  | F64.NaN, _ => false
  | _, F64.NaN => false
  | F64.negZero, F64.negZero => true
  | F64.negZero, F64.finite q => decide (q = 0)
  | F64.finite q, F64.negZero => decide (q = 0)
  | F64.finite p, F64.finite q => decide (p = q)
  | F64.posInf, F64.posInf => true
  | F64.negInf, F64.negInf => true
  | _, _ => false

/-- Dynamic value of an `interface{}` held in a record. `int` and `int64` are
64 bits wide (the tests compile only with a 64-bit `int`); `other` is `nil` or
a value of any other dynamic type. -/
inductive Value where
  | bool (b : Bool)
  | int (i : Int)
  | int64 (i : Int)
  | float64 (f : F64)
  | string (s : String)
  | other
deriving DecidableEq

/-- Embedding of `type Record map[string]interface{}`: a finite map with
distinct keys. The order of the entries stands for the order in which `range`
visits the map, which Go leaves open. -/
abbrev Record := AList (fun _ : String => Value)

/-- The index expression `r[key]`: the stored value, or the `nil` interface
for a key that is not in the map. -/
def index (r : Record) (key : String) : Value :=
  (r.lookup key).getD Value.other

/-- The test `len(convert) == 0 || !convert[0]` on the variadic `convert`. -/
def strict : List Bool → Bool
  | [] => true
  | c :: _ => !c

/-- Comparison `==` of two interface values: equal dynamic types and equal
values, two `float64` being compared as floats. -/
def ifaceEq (a b : Value) : Bool :=
  match a, b with
  | Value.float64 x, Value.float64 y => F64.eq x y
  | a, b => decide (a = b)

/-- Smallest `int64`. -/
def minInt64 : Int := -9223372036854775808

/-- Largest `int64`. -/
def maxInt64 : Int := 9223372036854775807

/-- What the code uses of the Go standard library and of the platform and
cannot be read off the repository: `strconv.ParseFloat(s, 64)` (`none` when it
returns an error), the conversion `float64(i)` of an integer, which is a
finite number, and the value of `int64(f)` for a float that is NaN or infinite
or whose integer part is outside `int64`, which Go leaves to the
implementation. -/
structure Lib where
  ParseFloat : String → Option F64
  floatOfInt : Int → ℚ
  intOfBigFloat : F64 → Int

/-- The conversions `int64(f)` and `int(f)` of a `float64`: the fraction is
discarded (truncation toward zero). -/
def truncFloat (lib : Lib) (f : F64) : Int :=
  match f with
  | F64.finite q =>
    if minInt64 ≤ q.num.tdiv q.den ∧ q.num.tdiv q.den ≤ maxInt64 then q.num.tdiv q.den
    else lib.intOfBigFloat f
  | F64.negZero => 0
  | F64.NaN => lib.intOfBigFloat f
  | F64.posInf => lib.intOfBigFloat f
  | F64.negInf => lib.intOfBigFloat f

/-- Value of a decimal digit character. -/
def digitVal (c : Char) : Option Nat :=
  if c = '0' then some 0 else if c = '1' then some 1 else if c = '2' then some 2
  else if c = '3' then some 3 else if c = '4' then some 4 else if c = '5' then some 5
  else if c = '6' then some 6 else if c = '7' then some 7 else if c = '8' then some 8
  else if c = '9' then some 9 else none

/-- Value of a run of decimal digits read from the left with `acc` read so
far; `none` when a character is no digit. -/
def digitsVal : List Char → Nat → Option Nat
  | [], acc => some acc
  | c :: rest, acc =>
    match digitVal c with
    | some d => digitsVal rest (acc * 10 + d)
    | none => none

/-- The base-10 integer a string denotes: an optional sign `+` or `-`
followed by one or more decimal digits; `none` for any other string. -/
def denotedInt (s : String) : Option Int :=
  match s.data with
  | [] => none
  | c :: rest =>
    if c = '+' then
      if rest = [] then none else (digitsVal rest 0).map (fun (n : Nat) => (n : Int))
    else if c = '-' then
      if rest = [] then none else (digitsVal rest 0).map (fun (n : Nat) => -(n : Int))
    else (digitsVal (c :: rest) 0).map (fun (n : Nat) => (n : Int))

/-- Model of `strconv.ParseInt(s, 10, 64)`: the value when the error is `nil`.
The call fails on a string that is no base-10 integer (`ErrSyntax`) and on one
whose value does not fit into `int64` (`ErrRange`). -/
def ParseInt (s : String) : Option Int :=
  match denotedInt s with
  | some v => if minInt64 ≤ v ∧ v ≤ maxInt64 then some v else none
  | none => none

/-- Model of `strconv.Atoi(s)`, which is `ParseInt(s, 10, 0)` with a 64-bit
`int`. -/
def Atoi (s : String) : Option Int := ParseInt s

/-- Model of `fmt.Sprintf("%v", v)` for an `int` or `int64`: the decimal text. -/
def Sprintf (v : Int) : String := toString v

/-- Quotient of `a` by `d` rounded to the nearest integer, a tie to the even
one. -/
def roundHalfEven (a d : Nat) : Nat :=
  if 2 * (a % d) < d then a / d
  else if d < 2 * (a % d) then a / d + 1
  else if (a / d) % 2 = 0 then a / d
  else a / d + 1

/-- The digits of `n` padded with zeros on the left to `width` characters. -/
def padDigits (width n : Nat) : List Char :=
  List.replicate (width - (Nat.repr n).data.length) '0' ++ (Nat.repr n).data

/-- Fixed-point text with `prec > 0` decimals of a number given by its sign
and by the numerator and denominator of its absolute value: sign, integer
part, a decimal point and exactly `prec` digits, of the value rounded to
`prec` decimals (to nearest, a tie to even). -/
def formatFixed (neg : Bool) (num den prec : Nat) : List Char :=
  (if neg then ['-'] else [])
    ++ (Nat.repr (roundHalfEven (num * 10 ^ prec) den / 10 ^ prec)).data
    ++ '.' :: padDigits prec (roundHalfEven (num * 10 ^ prec) den % 10 ^ prec)

/-- Model of `strconv.FormatFloat(f, 'f', prec, 64)` for `prec > 0`: the
fixed-point text of a finite value, negative zero with its sign, and the words
"NaN", "+Inf" and "-Inf" for the values that are no number. -/
def FormatFloat (f : F64) (prec : Nat) : String :=
  match f with
  | F64.finite q => String.mk (formatFixed (decide (q.num < 0)) q.num.natAbs q.den prec)
  | F64.negZero => String.mk (formatFixed true 0 1 prec)
  | F64.NaN => "NaN"
  | F64.posInf => "+Inf"
  | F64.negInf => "-Inf"

/-- Model of `strings.TrimRight(s, cutset)`: `s` without its trailing
characters that occur in `cutset`. -/
def TrimRight (s cutset : String) : String :=
  String.mk (s.data.rdropWhile (fun c => decide (c ∈ cutset.data)))

/-- The variadic parameter `convert ...bool`. -/
abbrev Convert := List Bool

/-- Order `<=` of Go strings on the characters, by code point, which for
UTF-8 text is the byte-wise lexicographic order. -/
def leChars : List Char → List Char → Bool
  | [], _ => true
  | _ :: _, [] => false
  | a :: as, b :: bs =>
    if a.toNat < b.toNat then true
    else if b.toNat < a.toNat then false
    else leChars as bs

/-- Order `<=` of Go strings. -/
def strLe (a b : String) : Bool := leChars a.data b.data

/-- Model of `sort.Strings`: the slice in increasing order. -/
def sortStrings (keys : List String) : List String :=
  keys.insertionSort (fun a b => strLe a b = true)

/-- Embedding of `func (r Record) GetSortedKeys() []string`: a slice of
`len(r)` empty strings is filled from index 0 in the order `range` visits the
keys, and then sorted. -/
def Record.GetSortedKeys (r : Record) : List String :=
  sortStrings
    (r.keys.foldl (fun (acc : List String × Nat) k => (acc.1.set acc.2 k, acc.2 + 1))
      (List.replicate r.entries.length "", 0)).1

/-- Embedding of `func (r Record) Float64(key string, convert ...bool) float64`. -/
def Record.Float64 (lib : Lib) (r : Record) (key : String) (convert : Convert) : F64 :=
  if strict convert then
    match index r key with
    | Value.float64 value => value
    | _ => F64.finite 0
  else
    match index r key with
    | Value.float64 i => i
    | Value.int64 i => F64.finite (lib.floatOfInt i)
    | Value.int i => F64.finite (lib.floatOfInt i)
    | Value.string i =>
      match lib.ParseFloat i with
      | some v => v
      | none => F64.finite 0
    | Value.bool i => if i then F64.finite 1 else F64.finite 0
    | Value.other => F64.finite 0

/-- Embedding of `func (r Record) Int64(key string, convert ...bool) int64`. -/
def Record.Int64 (lib : Lib) (r : Record) (key : String) (convert : Convert) : Int :=
  if strict convert then
    match index r key with
    | Value.int64 val => val
    | Value.int val => val
    | _ => 0
  else
    match index r key with
    | Value.float64 i => truncFloat lib i
    | Value.int64 i => i
    | Value.int i => i
    | Value.string i =>
      match ParseInt i with
      | some v => v
      | none => 0
    | Value.bool i => if i then 1 else 0
    | Value.other => 0

/-- Embedding of `func (r Record) Int(key string, convert ...bool) int`. -/
def Record.Int (lib : Lib) (r : Record) (key : String) (convert : Convert) : Int :=
  if strict convert then
    match index r key with
    | Value.int val => val
    | _ => 0
  else
    match index r key with
    | Value.float64 i => truncFloat lib i
    | Value.int64 i => i
    | Value.int i => i
    | Value.string i =>
      match Atoi i with
      | some v => v
      | none => 0
    | Value.bool i => if i then 1 else 0
    | Value.other => 0

/-- Embedding of `func (r Record) Bool(key string, convert ...bool) bool`. In
`case int64, int:` the variable `i` keeps the interface type, so `i == 1`
compares it with the `int` 1 as interface values. -/
def Record.Bool (lib : Lib) (r : Record) (key : String) (convert : Convert) : Bool :=
  if strict convert then
    match index r key with
    | Value.bool val => val
    | _ => false
  else
    match index r key with
    | Value.int64 i => ifaceEq (Value.int64 i) (Value.int 1)
    | Value.int i => ifaceEq (Value.int i) (Value.int 1)
    | Value.float64 i => F64.eq i (F64.finite 1)
    | Value.string i =>
      if i = "true" then true
      else if i = "false" then false
      else
        match lib.ParseFloat i with
        | some v => F64.eq v (F64.finite 1)
        | none => false
    | Value.bool i => i
    | Value.other => false

/-- Embedding of `func (r Record) String(key string, convert ...bool) string`. -/
def Record.String (r : Record) (key : String) (convert : Convert) : String :=
  if strict convert then
    match index r key with
    | Value.string str => str
    | _ => ""
  else
    match index r key with
    | Value.string v => v
    | Value.bool v => if v then "true" else "false"
    | Value.int v => Sprintf v
    | Value.int64 v => Sprintf v
    | Value.float64 v => TrimRight (TrimRight (FormatFloat v 15) "0") "."
    | Value.other => ""

/-- The character of a decimal digit. -/
def digitChar (d : Nat) : Char :=
  if d = 0 then '0' else if d = 1 then '1' else if d = 2 then '2' else if d = 3 then '3'
  else if d = 4 then '4' else if d = 5 then '5' else if d = 6 then '6' else if d = 7 then '7'
  else if d = 8 then '8' else '9'

/-- The number written by a run of decimal digits, most significant first. -/
def decimalValue (ds : List Nat) : Nat :=
  ds.foldl (fun acc d => acc * 10 + d) 0

/-- The string made of a sign (empty, `+` or `-`) and a run of decimal digits. -/
def decimalText (sign : List Char) (ds : List Nat) : String :=
  String.mk (sign ++ ds.map digitChar)

/-- The `float64` nearest to 3.14. -/
def float3_14 : ℚ := Rat.mk' 7070651414971679 2251799813685248

/-- The `float64` nearest to 0.1. -/
def float0_1 : ℚ := Rat.mk' 3602879701896397 36028797018963968

/-- A stand-in for the library parameters, for running the getters on inputs
that do not reach them: `ParseFloat` refuses every string. -/
def stubLib : Lib :=
  { ParseFloat := fun _ => none, floatOfInt := fun i => (i : ℚ), intOfBigFloat := fun _ => 0 }

/-- The `float64` nearest to 0.00000012345678. -/
def floatSmall : ℚ := Rat.mk' 1166016319910023 9444732965739290427392

end KeyValue

/-! ## Symmetric encryption (`crypt/symcrypt.go`) -/

namespace Crypt

/-- Go strings and byte slices are lists of bytes; `string(b)` and `[]byte(s)`
are the identity. -/
abbrev Bytes := List Nat

/-- The bytes of an ASCII literal. -/
def ascii (s : String) : Bytes := s.data.map Char.toNat

/-- Constant `defaultSymmetricKey` of the source. -/
def defaultSymmetricKey : Bytes := ascii "42aaee02Qb687X4d7cA9521T82464264"

/-- Constant `keyLen = 32` of the source. -/
def keyLen : Nat := 32

/-- Flag constants of the source: `reset = iota` is 0. -/
def reset : Nat := 0

/-- Flag `hasPlainText = 1`. -/
def hasPlainText : Nat := 1

/-- Flag `hasCipherText = 2`. -/
def hasCipherText : Nat := 2

/-- Flag `hasEncrypted = 4`. -/
def hasEncrypted : Nat := 4

/-- Flag `hasDecrypted = 8`. -/
def hasDecrypted : Nat := 8

/-- Embedding of `type SymCrypt struct`; a `nil` cipher is the empty list. -/
structure SymCrypt where
  plainText : Bytes
  key : Bytes
  cipher : Bytes
  flag : Nat
deriving DecidableEq, Repr

/-- What the code uses of the Go standard library and cannot be read off the
repository: AES-GCM sealing and opening (`Seal` gives the cipher text with
its tag, `Open` is `none` when authentication fails) and standard base64
(`DecodeString` is `none` when it returns an error). -/
structure Lib where
  Seal : Bytes → Bytes → Bytes → Bytes
  Open : Bytes → Bytes → Bytes → Option Bytes
  EncodeToString : Bytes → Bytes
  DecodeString : Bytes → Option Bytes

/-- Nonce size of `cipher.NewGCM`, `gcm.NonceSize()`. -/
def nonceSize : Nat := 12

/-- The key check of `aes.NewCipher`: the key is 16, 24 or 32 bytes long,
else the call returns a `KeySizeError`. -/
def NewCipher (key : Bytes) : Option String :=
  if key.length = 16 ∨ key.length = 24 ∨ key.length = 32 then none
  else some "crypto/aes: invalid key size"

/-- Embedding of `func NewSymmetricEncryption() *SymCrypt`. -/
def NewSymmetricEncryption : SymCrypt :=
  { plainText := [], key := defaultSymmetricKey, cipher := [], flag := reset }

/-- Embedding of `func (s *SymCrypt) SetKey(key string) *SymCrypt`. -/
def SetKey (key : Bytes) (s : SymCrypt) : SymCrypt :=
  let l := key.length
  if l ≠ keyLen then
    if l < keyLen then
      { s with key := key ++ defaultSymmetricKey.take (keyLen - key.length) }
    else
      { s with key := key.take keyLen }
  else
    { s with key := key }

/-- Embedding of `func (s *SymCrypt) SetPlainText(plainText string) *SymCrypt`. -/
def SetPlainText (plainText : Bytes) (s : SymCrypt) : SymCrypt :=
  { s with plainText := plainText, flag := hasPlainText }

/-- Embedding of `func (s *SymCrypt) byteEncrypt() (b []byte, err error)`.
`rnd` is what `io.ReadFull(rand.Reader, nonce)` leaves in the nonce buffer,
`none` when it returns an error. `gcm.Seal(nonce, nonce, plaintext, nil)`
appends the sealed text to the nonce. -/
def byteEncrypt (lib : Lib) (rnd : Option Bytes) (s : SymCrypt) : Bytes × Option String :=
  match NewCipher s.key with
  | some err => ([], some err)
  | none =>
    match rnd with
    | none => ([], some "unexpected EOF")
    | some nonce => (nonce ++ lib.Seal s.key nonce s.plainText, none)

/-- Embedding of `func (s *SymCrypt) encrypt() error`. -/
def encrypt (lib : Lib) (rnd : Option Bytes) (s : SymCrypt) : SymCrypt × Option String :=
  if s.flag &&& hasPlainText = hasPlainText ∧ s.flag &&& hasEncrypted = hasEncrypted then
    (s, none)
  else if s.flag &&& hasPlainText = hasPlainText then
    match byteEncrypt lib rnd s with
    | (b, none) => ({ s with cipher := b, flag := s.flag ||| hasEncrypted }, none)
    | (b, some err) => ({ s with cipher := b }, some err)
  else
    (s, none)

/-- Embedding of `func (s *SymCrypt) GetCypherBase64() string`: the returned
string and the state left behind. -/
def GetCypherBase64 (lib : Lib) (rnd : Option Bytes) (s : SymCrypt) : Bytes × SymCrypt :=
  let s1 := if s.cipher.length < 1 then (encrypt lib rnd s).1 else s
  (lib.EncodeToString s1.cipher, s1)

/-- Embedding of `func (s *SymCrypt) SetCypherBase64(base64String string) *SymCrypt`. -/
def SetCypherBase64 (lib : Lib) (base64String : Bytes) (s : SymCrypt) : SymCrypt :=
  match lib.DecodeString base64String with
  | some b => { s with flag := hasCipherText, cipher := b }
  | none => s

/-- Embedding of `func (s *SymCrypt) byteDecrypt() (b []byte, err error)`. -/
def byteDecrypt (lib : Lib) (s : SymCrypt) : Bytes × Option String :=
  match NewCipher s.key with
  | some err => ([], some err)
  | none =>
    if s.cipher.length < nonceSize then ([], some "cipher text too short")
    else
      match lib.Open s.key (s.cipher.take nonceSize) (s.cipher.drop nonceSize) with
      | some b => (b, none)
      | none => ([], some "cipher: message authentication failed")

/-- Embedding of `func (s *SymCrypt) decrypt() error`. -/
def decrypt (lib : Lib) (s : SymCrypt) : SymCrypt × Option String :=
  if s.flag &&& hasCipherText = hasCipherText ∧ s.flag &&& hasDecrypted = hasDecrypted then
    (s, none)
  else if s.flag &&& hasCipherText = hasCipherText then
    match byteDecrypt lib s with
    | (b, none) =>
      ({ s with plainText := b,
                flag := s.flag ||| hasCipherText ||| hasPlainText ||| hasEncrypted
                          ||| hasDecrypted }, none)
    | (_, some err) => (s, some err)
  else
    (s, some "no cipher text")

/-- Embedding of `func (s *SymCrypt) GetPlainText() (string, error)`: the
returned pair and the state left behind. -/
def GetPlainText (lib : Lib) (s : SymCrypt) : (Bytes × Option String) × SymCrypt :=
  let r := decrypt lib s
  ((r.1.plainText, r.2), r.1)

end Crypt

/-! ## JSON web tokens (`pkg/jwt_util/jwt.go`) -/

namespace JwtUtil

/-- The five error values of the package. -/
inductive Err where
  | ErrInvalidToken
  | ErrExpiredToken
  | ErrInvalidIssuer
  | ErrInvalidSubject
  | ErrInvalidID
deriving DecidableEq, Repr

/-- Embedding of `type Claims struct`: `User` and the fields of the embedded
`jwt.RegisteredClaims`, dates in seconds. -/
structure Claims where
  User : String
  Issuer : String
  Subject : String
  Audience : List String
  ExpiresAt : Option Int
  NotBefore : Option Int
  IssuedAt : Option Int
  ID : String
deriving DecidableEq, Repr

/-- What the code asks of a non-nil error of `jwt.ParseWithClaims`: the
answers of `errors.Is(err, jwt.ErrSignatureInvalid)` and of
`errors.Is(err, jwt.ErrTokenExpired)`. -/
structure ParseError where
  isSignatureInvalid : Bool
  isTokenExpired : Bool
deriving DecidableEq, Repr

/-- What `jwt.ParseWithClaims(tokenString, claims, keyFunc)` leaves behind:
the error (`none` for `nil`), the field `token.Valid` and the content of
`claims`. -/
structure Parsed where
  err : Option ParseError
  Valid : Bool
  claims : Claims
deriving DecidableEq, Repr

/-- The library call `jwt.ParseWithClaims` as a function of the token string
and of the secret that the key function returns. -/
abbrev Parse := String → String → Parsed

/-- Embedding of `func ValidateToken(tokenString string, issuer, subject, id,
secret string) (*Claims, error)`; `none` is `nil` in both components. -/
def ValidateToken (parse : Parse) (tokenString issuer subject id secret : String) :
    Option Claims × Option Err :=
  let p := parse tokenString secret
  match p.err with
  | some err =>
    if err.isSignatureInvalid then (none, some Err.ErrInvalidToken)
    else if err.isTokenExpired then (none, some Err.ErrExpiredToken)
    else (none, some Err.ErrInvalidToken)
  | none =>
    if !p.Valid then (none, some Err.ErrInvalidToken)
    else if p.claims.Issuer ≠ issuer then (none, some Err.ErrInvalidIssuer)
    else if p.claims.Subject ≠ subject then (none, some Err.ErrInvalidSubject)
    else if p.claims.ID ≠ id then (none, some Err.ErrInvalidID)
    else (some p.claims, none)

end JwtUtil

/-! ## HTTP middleware (`web`, `pkg/web`) -/

namespace Web

/-- What the code uses of package `net`, which is outside the repository:
`SplitHostPort` gives the host (`none` when it returns an error), `ParseIP`
is `none` for `nil`, `ParseCIDR` gives the network (`none` on an error),
`Contains` is `(*IPNet).Contains` and `Equal` is `IP.Equal`. -/
structure Net (IP IPNet : Type) where
  SplitHostPort : String → Option String
  ParseIP : String → Option IP
  ParseCIDR : String → Option IPNet
  Contains : IPNet → IP → Bool
  Equal : IP → IP → Bool

/-- The fields of `http.Request` that the middleware reads; `Header` is
`r.Header.Get`, which gives the empty string for a missing header. -/
structure Request where
  RemoteAddr : String
  Header : String → String

/-- Constant `http.StatusUnauthorized`. -/
def StatusUnauthorized : Nat := 401

/-- Constant `http.StatusForbidden`. -/
def StatusForbidden : Nat := 403

/-- Constant `http.StatusInternalServerError`. -/
def StatusInternalServerError : Nat := 500

/-- Text of `ErrForbidden`. -/
def ErrForbidden : String := "forbidden"

/-- Text of `ErrUnauthorized`. -/
def ErrUnauthorized : String := "not authorized"

/-- What a middleware does with a request: it calls the next handler
(`h.ServeHTTP`, with `user` the value it stored in the context, empty when it
stores none), or it answers itself through `Encode(w, status,
NewApiError(err))`, which writes the status and the error text. -/
inductive Served where
  | next (user : String)
  | encoded (status : Nat) (error : String)
deriving DecidableEq, Repr

/-- Embedding of `func isMatchingIP(parsedIP net.IP, template string) bool`. -/
def isMatchingIP {IP IPNet : Type} (net : Net IP IPNet) (parsedIP : IP) (template : String) :
    Bool :=
  if template.data.contains '/' then
    match net.ParseCIDR template with
    | some ipNet => net.Contains ipNet parsedIP
    | none => false
  else
    match net.ParseIP template with
    | some templateIP => net.Equal parsedIP templateIP
    | none => false

/-- Embedding of `func isIPBlocked(ip string, blockedIPs []string) bool`. -/
def isIPBlocked {IP IPNet : Type} (net : Net IP IPNet) (ip : String)
    (blockedIPs : List String) : Bool :=
  if blockedIPs.length = 0 then false
  else
    match net.ParseIP ip with
    | none => false
    | some parsedIP => blockedIPs.any (fun blockedIP => isMatchingIP net parsedIP blockedIP)

/-- Embedding of `func isIPAllowed(ip string, allowedIPs []string) bool`. -/
def isIPAllowed {IP IPNet : Type} (net : Net IP IPNet) (ip : String)
    (allowedIPs : List String) : Bool :=
  if allowedIPs.length = 0 then true
  else
    match net.ParseIP ip with
    | none => false
    | some parsedIP =>
      allowedIPs.any (fun allowedIP => allowedIP == "ALL" || isMatchingIP net parsedIP allowedIP)

/-- Embedding of `func WithIPFilter(h http.Handler, allowedIPs, blockedIPs
[]string) http.Handler`, as what the returned handler does with a request.
With both lists empty the function returns `h` itself. -/
def WithIPFilter {IP IPNet : Type} (net : Net IP IPNet) (allowedIPs blockedIPs : List String)
    (r : Request) : Served :=
  if allowedIPs.length = 0 ∧ blockedIPs.length = 0 then Served.next ""
  else
    match net.SplitHostPort r.RemoteAddr with
    | none => Served.encoded StatusInternalServerError "invalid remote address"
    | some remoteAddr =>
      if isIPBlocked net remoteAddr blockedIPs then
        Served.encoded StatusForbidden ErrForbidden
      else if !isIPAllowed net remoteAddr allowedIPs then
        Served.encoded StatusForbidden ErrForbidden
      else Served.next ""

/-- Embedding of `type Config struct`. -/
structure Config where
  ApiKey : String
  JwtSecret : String
  JwtID : String
  AppName : String
deriving DecidableEq, Repr

/-- The pieces of a text between the occurrences of a separator character;
the empty text has one empty piece. -/
def splitChars (sep : Char) : List Char → List (List Char)
  | [] => [[]]
  | c :: cs =>
    if c = sep then [] :: splitChars sep cs
    else
      match splitChars sep cs with
      | [] => [[c]]
      | p :: ps => (c :: p) :: ps

/-- The call `strings.Split(s, " ")`, the only use of `strings.Split` in the
package. -/
def Split (s : String) : List String :=
  (splitChars ' ' s.data).map String.mk

/-- Embedding of `func checkApiKey(r *http.Request, apiKey string) bool`. -/
def checkApiKey (r : Request) (apiKey : String) : Bool :=
  let key := r.Header "X-Api-Key"
  if key ≠ "" ∧ key = apiKey then true else false

/-- Embedding of `func checkJwtToken(r *http.Request, config Config)
(*jwt_util.Claims, bool)`; `none` is the result `nil, false`. -/
def checkJwtToken (parse : JwtUtil.Parse) (r : Request) (config : Config) :
    Option JwtUtil.Claims :=
  let authHeader := r.Header "Authorization"
  if authHeader = "" then none
  else
    match Split authHeader with
    | [p0, p1] =>
      if p0 ≠ "Bearer" then none
      else
        match JwtUtil.ValidateToken parse p1 config.AppName "auth" config.JwtID
            config.JwtSecret with
        | (some claims, none) => some claims
        | _ => none
    | _ => none

/-- Embedding of `func WithAuth(h http.Handler, config Config) http.Handler`,
as what the returned handler does with a request. -/
def WithAuth (parse : JwtUtil.Parse) (config : Config) (r : Request) : Served :=
  if config.ApiKey.length > 0 ∧ checkApiKey r config.ApiKey = true then Served.next "apikey"
  else if config.JwtSecret.length > 0 ∧ config.JwtID.length > 0 then
    match checkJwtToken parse r config with
    | some claims => Served.next claims.User
    | none => Served.encoded StatusUnauthorized ErrUnauthorized
  else Served.encoded StatusUnauthorized ErrUnauthorized

/-- State of an `http.ResponseWriter`: the status written with `WriteHeader`
(0 while none is written) and the bytes written with `Write`. -/
structure ResponseWriter where
  status : Int
  body : List Nat
deriving DecidableEq, Repr

/-- Method `WriteHeader` of the writer: the first status written counts. -/
def ResponseWriter.WriteHeader (w : ResponseWriter) (statusCode : Int) : ResponseWriter :=
  if w.status = 0 then { w with status := statusCode } else w

/-- Method `Write` of the writer: the bytes are appended, and a writer with
no status yet gets `http.StatusOK`. -/
def ResponseWriter.Write (w : ResponseWriter) (b : List Nat) : ResponseWriter :=
  { status := if w.status = 0 then 200 else w.status, body := w.body ++ b }

/-- Embedding of `type logResponse struct`. -/
structure logResponse where
  Status : Int
  Body : List Nat
  ResponseWriter : ResponseWriter
deriving DecidableEq, Repr

/-- Embedding of `func newLogResponse(w http.ResponseWriter) *logResponse`:
`Status` and `Body` keep their zero values. -/
def newLogResponse (w : ResponseWriter) : logResponse :=
  { Status := 0, Body := [], ResponseWriter := w }

/-- Method `WriteHeader` of `logResponse`. The package declares no method on
`logResponse`, so this is the method of the embedded `http.ResponseWriter`,
promoted by Go. -/
def logResponse.WriteHeader (lr : logResponse) (statusCode : Int) : logResponse :=
  { lr with ResponseWriter := lr.ResponseWriter.WriteHeader statusCode }

/-- Method `Write` of `logResponse`, promoted from the embedded writer in the
same way. -/
def logResponse.Write (lr : logResponse) (b : List Nat) : logResponse :=
  { lr with ResponseWriter := lr.ResponseWriter.Write b }

/-- A call of a handler on the response writer it is given. -/
inductive Call where
  | WriteHeader (statusCode : Int)
  | Write (b : List Nat)
deriving DecidableEq, Repr

/-- A handler, as the calls it makes on its response writer for a request. -/
abbrev Handler := Request → List Call

/-- The call `h.ServeHTTP(lr, r)`: the calls of `h` reach the `logResponse`. -/
def ServeHTTP (h : Handler) (lr : logResponse) (r : Request) : logResponse :=
  (h r).foldl
    (fun lr c =>
      match c with
      | Call.WriteHeader s => lr.WriteHeader s
      | Call.Write b => lr.Write b)
    lr

/-- The response group of the record that `WithLogging` hands to
`logger.Debug`: `slog.Int("status", lr.Status)` and `slog.String("body",
string(lr.Body))`. -/
structure Logged where
  status : Int
  body : List Nat
deriving DecidableEq, Repr

/-- Embedding of `func WithLogging(h http.Handler, logger *slog.Logger)
http.Handler`, as what the returned handler logs of the response and what it
leaves in the writer `w`. -/
def WithLogging (h : Handler) (w : ResponseWriter) (r : Request) : Logged × ResponseWriter :=
  let lr := ServeHTTP h (newLogResponse w) r
  ({ status := lr.Status, body := lr.Body }, lr.ResponseWriter)

/-- A stand-in for package `net` on a handful of texts, for the examples: IP
addresses and networks are kept as their text, the host of "[fe80::1%eth0]:4711"
carries a zone and is not parsed as an IP address. -/
def stubNet : Net String String :=
  { SplitHostPort := fun s =>
      if s = "192.168.0.1:4711" then some "192.168.0.1"
      else if s = "10.1.2.3:80" then some "10.1.2.3"
      else if s = "[fe80::1%eth0]:4711" then some "fe80::1%eth0"
      else none
    ParseIP := fun s => if s = "192.168.0.1" ∨ s = "10.1.2.3" then some s else none
    ParseCIDR := fun s => if s = "192.168.0.0/16" ∨ s = "10.0.0.0/8" then some s else none
    Contains := fun n ip =>
      (n == "192.168.0.0/16" && ip == "192.168.0.1") || (n == "10.0.0.0/8" && ip == "10.1.2.3")
    Equal := fun a b => a == b }

end Web

/-! ## The emulated GPIO port (`rpi/gpioemu/gpio_emu.go`, `pkg/rpi/rpi.go`) -/

namespace GpioEmu

/-- Constant `rpi.FallingEdge`. -/
def FallingEdge : Int := 0

/-- Constant `rpi.RisingEdge`. -/
def RisingEdge : Int := 1

/-- Constant `rpi.High`. -/
def High : Int := 1

/-- Constant `rpi.Low`. -/
def Low : Int := 0

/-- Embedding of `type Event struct` of package `rpi`; the time is a number. -/
structure Event where
  Time : Int
  Edge : Int
deriving DecidableEq, Repr

/-- Embedding of `type Port struct` without its lock. The field `callback`
holds the registered handler, `none` for `nil`; handlers are told apart by a
number. -/
structure Port where
  callback : Option Nat
  gpioPin : Int
  portState : Int
deriving DecidableEq, Repr

/-- Embedding of `func NewPort(gpio int, pulse time.Duration) (*Port, error)`,
whose error is always `nil`. -/
def NewPort (gpio : Int) (_pulse : Int) : Port :=
  { callback := none, gpioPin := gpio, portState := Low }

/-- What a call of `SetValue` leaves behind: the port, the returned error
(`none` for `nil`) and the handler call started with `go callback(...)`, as
the handler with the event it is given. -/
structure SetResult where
  port : Port
  err : Option String
  started : Option (Nat × Event)
deriving DecidableEq, Repr

/-- Embedding of `func (p *Port) SetValue(n int) error`; `now` is the value of
`time.Now()`. -/
def SetValue (now : Int) (n : Int) (p : Port) : SetResult :=
  if n ≠ Low ∧ n ≠ High then
    { port := p,
      err := some ("invalid value: " ++ toString n ++ ", expected 0 (Low) or 1 (High)"),
      started := none }
  else
    let p1 : Port := { p with portState := n }
    match p1.callback with
    | some callback => { port := p1, err := none, started := some (callback, { Time := now, Edge := n }) }
    | none => { port := p1, err := none, started := none }

/-- Embedding of `func (p *Port) GetValue() (int, error)`. -/
def GetValue (p : Port) : Int × Option String :=
  (p.portState, none)

/-- Embedding of `func (p *Port) WatchingEvents(handler func(rpi.Event)) error`,
whose error is always `nil`. -/
def WatchingEvents (handler : Nat) (p : Port) : Port :=
  { p with callback := some handler }

/-- Embedding of `func (p *Port) StopWatching() error`, whose error is always
`nil`. -/
def StopWatching (p : Port) : Port :=
  { p with callback := none }

end GpioEmu

/-! ## Logger set-up (`xlog/xlog.go`) -/

namespace Xlog

/-- The call `strings.ToLower` on ASCII text: the letters `A` to `Z` are
mapped to `a` to `z`, every other character is kept. -/
def ToLower (s : String) : String :=
  String.mk (s.data.map Char.toLower)

/-- An open `*os.File`, told by the name it was opened under. -/
structure File where
  name : String
deriving DecidableEq, Repr

/-- The `io.Writer` chosen by `Init`. -/
inductive Writer where
  | Stdout
  | Stderr
  | Discard
  | file (f : File)
deriving DecidableEq, Repr

/-- The levels of `slog` that `Init` sets. -/
inductive Level where
  | LevelDebug
  | LevelInfo
  | LevelWarn
  | LevelError
deriving DecidableEq, Repr

/-- Embedding of `type LoggerWrapper struct`: the logger, given by the
writer and the options of its text handler, and the file to close. -/
structure LoggerWrapper where
  writer : Writer
  AddSource : Bool
  Level : Level
  File : Option File
deriving DecidableEq, Repr

/-- Embedding of `func Init(dest string, logLevel string) (*LoggerWrapper,
error)`. `OpenFile` is the call `os.OpenFile(name,
os.O_APPEND|os.O_CREATE|os.O_WRONLY, 0644)` as a function of the name. -/
def Init (OpenFile : String → Except String File) (dest logLevel : String) :
    Except String LoggerWrapper :=
  let dest := ToLower dest
  let logLevel := ToLower logLevel
  let opened : Except String (Writer × Option File) :=
    if dest = "stdout" then Except.ok (Writer.Stdout, none)
    else if dest = "stderr" then Except.ok (Writer.Stderr, none)
    else if dest = "null" then Except.ok (Writer.Discard, none)
    else
      match OpenFile dest with
      | Except.error err => Except.error err
      | Except.ok logFile => Except.ok (Writer.file logFile, some logFile)
  match opened with
  | Except.error err => Except.error err
  | Except.ok (writer, logFile) =>
    let level :=
      if logLevel = "debug" then Level.LevelDebug
      else if logLevel = "error" then Level.LevelError
      else if logLevel = "warning" then Level.LevelWarn
      else Level.LevelInfo
    Except.ok { writer := writer, AddSource := logLevel == "debug", Level := level,
                File := logFile }

end Xlog

namespace Manchester

/-! ## Lemmas on the emission functions -/

theorem shift_mask_eq_bitOf (b i : Nat) : (b >>> i) &&& 1 = bitOf b i := by
  unfold bitOf
  rw [Nat.shiftRight_eq_div_pow, Nat.and_one_is_mod]

theorem encodeBit_log {σ : Type} (sv : SetValue σ) (bit : Nat) (l : Line σ) :
    (encodeBit sv bit l).log = l.log ++ bitEvents bit := by
  unfold encodeBit bitEvents Low
  by_cases h : bit = 0 <;> simp [h, waitTick, callSetValue]

theorem foldl_encodeBit_log {σ : Type} (sv : SetValue σ) (g : Nat → Nat) (is : List Nat)
    (l : Line σ) :
    (is.foldl (fun acc i => encodeBit sv (g i) acc) l).log
      = l.log ++ (is.map g).flatMap bitEvents := by
  induction is generalizing l with
  | nil => simp
  | cons i rest ih =>
    simp only [List.foldl_cons, List.map_cons, List.flatMap_cons]
    rw [ih, encodeBit_log, List.append_assoc]

theorem encodeFrame_log {σ : Type} (sv : SetValue σ) (f : frame) (l : Line σ) :
    (encodeFrame sv f l).log = l.log ++ (frameBits f).flatMap bitEvents := by
  have hfun : (fun acc i => encodeBit sv ((f.b >>> i) &&& 1) acc)
      = (fun (acc : Line σ) i => encodeBit sv (bitOf f.b i) acc) := by
    funext acc i
    rw [shift_mask_eq_bitOf]
  unfold encodeFrame frameBits
  rw [hfun]
  cases hf : f.framing
  · simp [foldl_encodeBit_log]
  · simp [foldl_encodeBit_log, encodeBit_log, Low, High, bitEvents]

theorem encodeFrames_log {σ : Type} (sv : SetValue σ) (fs : List frame) (l : Line σ) :
    (encodeFrames sv fs l).log = l.log ++ (fs.flatMap frameBits).flatMap bitEvents := by
  unfold encodeFrames
  induction fs generalizing l with
  | nil => simp
  | cons f rest ih =>
    simp only [List.foldl_cons, List.flatMap_cons, List.flatMap_append]
    rw [ih, encodeFrame_log, List.append_assoc]

theorem emitted_eq {σ : Type} (sv : SetValue σ) (fs : List frame) (l : Line σ) :
    emitted sv fs l = (fs.flatMap frameBits).flatMap bitEvents := by
  unfold emitted
  rw [encodeFrames_log]
  simp

theorem levels_append (xs ys : List Event) : levels (xs ++ ys) = levels xs ++ levels ys := by
  induction xs with
  | nil => rfl
  | cons e rest ih => cases e <;> simp [levels, ih]

theorem levels_bitEvents (bit : Nat) : levels (bitEvents bit) = bitLevels bit := by
  unfold bitEvents bitLevels
  by_cases h : bit = 0 <;> simp [h, levels]

theorem levels_bind_bitEvents (bits : List Nat) :
    levels (bits.flatMap bitEvents) = bits.flatMap bitLevels := by
  induction bits with
  | nil => rfl
  | cons b rest ih => simp [List.flatMap_cons, levels_append, levels_bitEvents, ih]

theorem sendData_done (data : List Nat) (ch : Chan) (hopen : ch.closed = false)
    (hroom : ch.buf.length + data.length ≤ bufferCap) :
    sendData data ch
      = Outcome.done { buf := ch.buf ++ data.map (fun b => { b := b, framing := true }),
                       closed := false } := by
  induction data generalizing ch with
  | nil =>
    cases ch
    simp_all [sendData]
  | cons b rest ih =>
    simp only [List.length_cons] at hroom
    have hlt : ch.buf.length < bufferCap := by omega
    simp only [sendData, send, hopen, hlt, if_true, Bool.false_eq_true, if_false]
    rw [ih { buf := ch.buf ++ [{ b := b, framing := true }], closed := false } rfl
      (by simp only [List.length_append, List.length_singleton]; omega)]
    simp

theorem flatMap_bitLevels_length (bits : List Nat) :
    (bits.flatMap bitLevels).length = 2 * bits.length := by
  induction bits with
  | nil => rfl
  | cons b rest ih =>
    have hb : (bitLevels b).length = 2 := by
      unfold bitLevels
      by_cases h : b = 0 <;> simp [h]
    simp only [List.flatMap_cons, List.length_append, List.length_cons, hb, ih]
    omega

theorem frameBits_length (f : frame) :
    (frameBits f).length = if f.framing then 10 else 8 := by
  unfold frameBits
  cases f.framing <;> simp

theorem flatMap_frameBits_framed_length (data : List Nat) :
    ((data.map (fun b => ({ b := b, framing := true } : frame))).flatMap frameBits).length
      = 10 * data.length := by
  induction data with
  | nil => rfl
  | cons b rest ih =>
    simp only [List.map_cons, List.flatMap_cons, List.length_append, ih, frameBits_length,
      List.length_cons]
    simp
    omega

theorem flatMap_bitLevels_pair (bits : List Nat) (i : Nat) (h : i < bits.length) :
    (bits.flatMap bitLevels)[2 * i]? ≠ (bits.flatMap bitLevels)[2 * i + 1]? := by
  induction bits generalizing i with
  | nil => simp at h
  | cons b rest ih =>
    have hb : (bitLevels b).length = 2 := by
      unfold bitLevels
      by_cases h0 : b = 0 <;> simp [h0]
    cases i with
    | zero =>
      unfold bitLevels
      by_cases h0 : b = 0 <;> simp [h0]
    | succ j =>
      have hj : j < rest.length := by simpa using h
      have h1 : (bitLevels b ++ rest.flatMap bitLevels)[2 * (j + 1)]?
          = (rest.flatMap bitLevels)[2 * j]? := by
        rw [List.getElem?_append_right (by omega)]
        congr 1
        omega
      have h2 : (bitLevels b ++ rest.flatMap bitLevels)[2 * (j + 1) + 1]?
          = (rest.flatMap bitLevels)[2 * j + 1]? := by
        rw [List.getElem?_append_right (by omega)]
        congr 1
        omega
      simp only [List.flatMap_cons]
      rw [h1, h2]
      exact ih j hj

theorem flatMap_bitEvents_ticks (bits : List Nat) :
    bits.flatMap bitEvents
      = (bits.flatMap bitLevels).flatMap (fun v => [Event.setLevel v, Event.tick]) := by
  induction bits with
  | nil => rfl
  | cons b rest ih =>
    simp only [List.flatMap_cons, List.flatMap_append, ih]
    congr 1
    unfold bitEvents bitLevels
    by_cases h : b = 0 <;> simp [h]

/-! ## Claims on `Write`, `encodeFrame` and `encodeBit` -/

/-- C1: one `Write(data)` on an open queue with room for `len(data)+2` more
units returns, and the queue is then the old content followed by exactly two
units `{0xFF, framing=false}` and one unit `{data[i], framing=true}` per byte
in index order: `len(data)+2` new units and nothing else. -/
theorem Write_appends_preamble_and_payload (data : List Nat) (ch : Chan)
    (hopen : ch.closed = false) (hroom : ch.buf.length + (data.length + 2) ≤ bufferCap) :
    Write data ch
      = Outcome.done ({ buf := ch.buf ++ writeFrames data, closed := false }, data.length, none)
    ∧ (writeFrames data).length = data.length + 2
    ∧ (writeFrames data)[0]? = some { b := 0xff, framing := false }
    ∧ (writeFrames data)[1]? = some { b := 0xff, framing := false }
    ∧ ∀ i (h : i < data.length),
        (writeFrames data)[i + 2]? = some { b := data[i], framing := true } := by
  refine ⟨?_, ?_, ?_, ?_, ?_⟩
  · have h1 : ch.buf.length < bufferCap := by omega
    have h2 : ch.buf.length + 1 < bufferCap := by omega
    unfold Write writeFrames
    simp only [send, hopen, h1, if_true, Bool.false_eq_true, if_false, List.length_append,
      List.length_singleton, h2]
    rw [sendData_done data _ rfl
      (by simp only [List.length_append, List.length_singleton]; omega)]
    simp
  · simp [writeFrames]
  · simp [writeFrames]
  · simp [writeFrames]
  · intro i h
    simp [writeFrames, List.getElem?_eq_getElem, h]

/-- Witness of C1 on the empty open queue with the payload `[0x41, 0x42]`. -/
theorem Write_appends_preamble_and_payload_witness :
    Write [0x41, 0x42] { buf := [], closed := false }
      = Outcome.done
          ({ buf := [{ b := 0xff, framing := false }, { b := 0xff, framing := false },
                     { b := 0x41, framing := true }, { b := 0x42, framing := true }],
             closed := false }, 2, none) :=
  (Write_appends_preamble_and_payload [0x41, 0x42] { buf := [], closed := false } rfl
    (by decide)).1

/-- C2: for every byte `b`, `encodeFrame` of a framed unit adds to the log the
entries of exactly ten logical bits in the order start bit `0`, bit `i` of `b`
for `i = 0..7`, stop bit `1`, which is 20 `setValue` calls; for an unframed
unit it adds the entries of the eight data bits alone, 16 calls. -/
theorem encodeFrame_emits_frame_layout {σ : Type} (sv : SetValue σ) (b : Nat) (l : Line σ) :
    (encodeFrame sv { b := b, framing := true } l).log
        = l.log ++ ([0, bitOf b 0, bitOf b 1, bitOf b 2, bitOf b 3, bitOf b 4, bitOf b 5,
                     bitOf b 6, bitOf b 7, 1].flatMap bitEvents)
    ∧ (levels (encodeFrame sv { b := b, framing := true } l).log).length
        = (levels l.log).length + 20
    ∧ (encodeFrame sv { b := b, framing := false } l).log
        = l.log ++ ([bitOf b 0, bitOf b 1, bitOf b 2, bitOf b 3, bitOf b 4, bitOf b 5,
                     bitOf b 6, bitOf b 7].flatMap bitEvents)
    ∧ (levels (encodeFrame sv { b := b, framing := false } l).log).length
        = (levels l.log).length + 16 := by
  have hr : List.range 8 = [0, 1, 2, 3, 4, 5, 6, 7] := by decide
  have ht : frameBits { b := b, framing := true }
      = [0, bitOf b 0, bitOf b 1, bitOf b 2, bitOf b 3, bitOf b 4, bitOf b 5,
         bitOf b 6, bitOf b 7, 1] := by
    simp [frameBits, hr]
  have hf : frameBits { b := b, framing := false }
      = [bitOf b 0, bitOf b 1, bitOf b 2, bitOf b 3, bitOf b 4, bitOf b 5,
         bitOf b 6, bitOf b 7] := by
    simp [frameBits, hr]
  refine ⟨?_, ?_, ?_, ?_⟩
  · rw [encodeFrame_log, ht]
  · rw [encodeFrame_log, levels_append, levels_bind_bitEvents, List.length_append,
      flatMap_bitLevels_length, frameBits_length]
    simp
  · rw [encodeFrame_log, hf]
  · rw [encodeFrame_log, levels_append, levels_bind_bitEvents, List.length_append,
      flatMap_bitLevels_length, frameBits_length]
    simp

/-- C3: `encodeBit(0)` calls `setValue(0)` (Low), waits one tick, calls
`setValue(1)` (High), waits one tick; `encodeBit(1)` calls `setValue(1)`,
waits one tick, calls `setValue(0)`, waits one tick. The closure is run on
its state in the same order, so logical 0 is the level pair (Low, High) and
logical 1 is (High, Low). -/
theorem encodeBit_level_sequence {σ : Type} (sv : SetValue σ) (l : Line σ) :
    encodeBit sv 0 l
        = { pin := (sv 1 (sv 0 l.pin).1).1,
            log := l.log ++ [Event.setLevel 0, Event.tick, Event.setLevel 1, Event.tick] }
    ∧ encodeBit sv 1 l
        = { pin := (sv 0 (sv 1 l.pin).1).1,
            log := l.log ++ [Event.setLevel 1, Event.tick, Event.setLevel 0, Event.tick] }
    ∧ levels (encodeBit sv 0 l).log = levels l.log ++ [(Low : Int), (High : Int)]
    ∧ levels (encodeBit sv 1 l).log = levels l.log ++ [(High : Int), (Low : Int)] := by
  refine ⟨?_, ?_, ?_, ?_⟩
  · simp [encodeBit, Low, waitTick, callSetValue]
  · simp [encodeBit, Low, waitTick, callSetValue]
  · rw [encodeBit_log, levels_append]
    simp [bitEvents, levels, Low, High]
  · rw [encodeBit_log, levels_append]
    simp [bitEvents, levels, Low, High]

/-- C4: self-clocking of the emitted stream. For every byte sequence `data`,
emitting the units of `Write(data)` adds to the log a run whose `setValue`
levels number `32 + 20*len(data)`; the run is exactly its levels, each followed
by one tick wait; for every `i` the levels at positions `2i` and `2i+1` differ;
and the first 32 levels, those of the two `0xFF` preamble units, are
`High, Low` repeated 16 times. -/
theorem emitted_stream_self_clocking {σ : Type} (sv : SetValue σ) (data : List Nat)
    (l : Line σ) :
    (encodeFrames sv (writeFrames data) l).log = l.log ++ emitted sv (writeFrames data) l
    ∧ (levels (emitted sv (writeFrames data) l)).length = 32 + 20 * data.length
    ∧ emitted sv (writeFrames data) l
        = (levels (emitted sv (writeFrames data) l)).flatMap
            (fun v => [Event.setLevel v, Event.tick])
    ∧ (∀ i, 2 * i + 1 < (levels (emitted sv (writeFrames data) l)).length →
        (levels (emitted sv (writeFrames data) l))[2 * i]?
          ≠ (levels (emitted sv (writeFrames data) l))[2 * i + 1]?)
    ∧ (levels (emitted sv (writeFrames data) l)).take 32
        = [1, 0, 1, 0, 1, 0, 1, 0, 1, 0, 1, 0, 1, 0, 1, 0,
           1, 0, 1, 0, 1, 0, 1, 0, 1, 0, 1, 0, 1, 0, 1, 0]
    ∧ levels (emitted sv [{ b := 0xff, framing := false }, { b := 0xff, framing := false }] l)
        = [(High : Int), (Low : Int), (High : Int), (Low : Int), (High : Int), (Low : Int),
           (High : Int), (Low : Int), (High : Int), (Low : Int), (High : Int), (Low : Int),
           (High : Int), (Low : Int), (High : Int), (Low : Int), (High : Int), (Low : Int),
           (High : Int), (Low : Int), (High : Int), (Low : Int), (High : Int), (Low : Int),
           (High : Int), (Low : Int), (High : Int), (Low : Int), (High : Int), (Low : Int),
           (High : Int), (Low : Int)] := by
  have hpre : frameBits { b := 0xff, framing := false } = [1, 1, 1, 1, 1, 1, 1, 1] := by
    decide
  have hbits : (writeFrames data).flatMap frameBits
      = [1, 1, 1, 1, 1, 1, 1, 1, 1, 1, 1, 1, 1, 1, 1, 1]
        ++ (data.map (fun b => ({ b := b, framing := true } : frame))).flatMap frameBits := by
    simp [writeFrames, List.flatMap_cons, hpre]
  have hlen : ((writeFrames data).flatMap frameBits).length = 16 + 10 * data.length := by
    rw [hbits, List.length_append, flatMap_frameBits_framed_length]
    rfl
  have hlev : levels (emitted sv (writeFrames data) l)
      = ((writeFrames data).flatMap frameBits).flatMap bitLevels := by
    rw [emitted_eq, levels_bind_bitEvents]
  refine ⟨?_, ?_, ?_, ?_, ?_, ?_⟩
  · rw [emitted_eq, encodeFrames_log]
  · rw [hlev, flatMap_bitLevels_length, hlen]
    omega
  · rw [hlev, emitted_eq]
    exact flatMap_bitEvents_ticks _
  · intro i hi
    rw [hlev] at hi ⊢
    rw [flatMap_bitLevels_length] at hi
    exact flatMap_bitLevels_pair _ i (by omega)
  · rw [hlev, hbits, List.flatMap_append]
    rfl
  · rw [emitted_eq, levels_bind_bitEvents]
    simp only [List.flatMap_cons, hpre, List.flatMap_nil]
    rfl

/-- C5 (as amended): `Write([0x41])` queues the two preamble units and the
framed unit `0x41`; emitting them sets, after the 32 preamble levels, the
level pairs of the logical bits `0,1,0,0,0,0,0,1,0,1` (start bit, then `0x41`
least significant bit first, which is `1,0,0,0,0,0,1,0`, then stop bit): 20
`setValue` calls. -/
theorem Write_0x41_bit_sequence {σ : Type} (sv : SetValue σ) (l : Line σ) :
    Write [0x41] { buf := [], closed := false }
        = Outcome.done ({ buf := writeFrames [0x41], closed := false }, 1, none)
    ∧ emitted sv (writeFrames [0x41]) l
        = emitted sv [{ b := 0xff, framing := false }, { b := 0xff, framing := false }] l
          ++ [0, 1, 0, 0, 0, 0, 0, 1, 0, 1].flatMap bitEvents
    ∧ levels (emitted sv (writeFrames [0x41]) l)
        = [1, 0, 1, 0, 1, 0, 1, 0, 1, 0, 1, 0, 1, 0, 1, 0,
           1, 0, 1, 0, 1, 0, 1, 0, 1, 0, 1, 0, 1, 0, 1, 0]
          ++ [0, 1, 0, 0, 0, 0, 0, 1, 0, 1].flatMap bitLevels
    ∧ (levels ([0, 1, 0, 0, 0, 0, 0, 1, 0, 1].flatMap bitEvents)).length = 20 := by
  have hpre : frameBits { b := 0xff, framing := false } = [1, 1, 1, 1, 1, 1, 1, 1] := by
    decide
  have hdat : frameBits { b := 0x41, framing := true } = [0, 1, 0, 0, 0, 0, 0, 1, 0, 1] := by
    decide
  refine ⟨?_, ?_, ?_, ?_⟩
  · decide
  · simp only [emitted_eq, writeFrames, List.map_cons, List.map_nil, List.cons_append,
      List.nil_append, List.flatMap_cons, List.flatMap_nil, hpre, hdat, List.append_nil,
      List.flatMap_append, List.append_assoc]
  · rw [emitted_eq, levels_bind_bitEvents]
    simp only [writeFrames, List.map_cons, List.map_nil, List.cons_append, List.nil_append,
      List.flatMap_cons, List.flatMap_nil, hpre, hdat]
    rfl
  · rfl

/-- C5 as stated fails: with a `setValue` that never fails and an empty log,
the levels set for `Write([0x41])` after the 32 preamble levels are not the
level pairs of the bit sequence `0,1,0,0,0,0,1,0,0,1`. -/
theorem Write_0x41_claimed_sequence_not_emitted :
    levels (emitted (fun _ (s : Unit) => (s, none)) (writeFrames [0x41])
        { pin := (), log := [] })
      ≠ [1, 0, 1, 0, 1, 0, 1, 0, 1, 0, 1, 0, 1, 0, 1, 0,
         1, 0, 1, 0, 1, 0, 1, 0, 1, 0, 1, 0, 1, 0, 1, 0]
        ++ [0, 1, 0, 0, 0, 0, 1, 0, 0, 1].flatMap bitLevels := by
  rw [emitted_eq, levels_bind_bitEvents]
  decide

/-- C6: pin-drive failures are swallowed. `Write(data)` never consults
`setValue`: on an open queue with room it returns `(len(data), nil)`, and
whenever it returns that is the pair it returns. For every two `setValue`
closures, on any states (one may fail on every call, the other never), the
emitted run of levels and tick waits is the same. -/
theorem setValue_errors_swallowed {σ τ : Type} (sv : SetValue σ) (sv2 : SetValue τ)
    (data : List Nat) (l : Line σ) (l2 : Line τ) (ch : Chan) :
    (ch.closed = false → ch.buf.length + (data.length + 2) ≤ bufferCap →
        ∃ ch2, Write data ch = Outcome.done (ch2, data.length, none))
    ∧ (∀ r, Write data ch = Outcome.done r → r.2 = (data.length, none))
    ∧ emitted sv (writeFrames data) l = emitted sv2 (writeFrames data) l2
    ∧ levels (emitted sv (writeFrames data) l)
        = levels (emitted (fun _ (s : Unit) => (s, none)) (writeFrames data)
            { pin := (), log := [] })
    ∧ levels (emitted (fun _ (s : Unit) => (s, some "pin error")) (writeFrames data)
            { pin := (), log := [] })
        = levels (emitted (fun _ (s : Unit) => (s, none)) (writeFrames data)
            { pin := (), log := [] }) := by
  refine ⟨?_, ?_, ?_, ?_, ?_⟩
  · intro hopen hroom
    exact ⟨_, (Write_appends_preamble_and_payload data ch hopen hroom).1⟩
  · intro r hr
    unfold Write at hr
    split at hr
    · split at hr
      · split at hr
        · cases hr
          rfl
        · cases hr
        · cases hr
      · cases hr
      · cases hr
    · cases hr
    · cases hr
  · rw [emitted_eq, emitted_eq]
  · rw [emitted_eq, emitted_eq]
  · rw [emitted_eq, emitted_eq]

/-! ## The system of goroutines: what a step does -/

/-- What one client step can do, by the instruction at the head of the client. -/
theorem clientStep_spec {σ : Type} (i : Nat) (s s1 : Sys σ) (h : clientStep i s = some s1) :
    ∃ ins rest, s.clients[i]? = some (ins :: rest) ∧
      ((ins = Instr.lock ∧ s.mutex = false
          ∧ s1 = { s with mutex := true, clients := s.clients.set i rest })
      ∨ (∃ f, ins = Instr.send f ∧ s.buffer.closed = false ∧ s.buffer.buf.length < bufferCap
          ∧ s1 = { s with buffer := { buf := s.buffer.buf ++ [f], closed := false },
                          sent := s.sent ++ [f], clients := s.clients.set i rest })
      ∨ (∃ f, ins = Instr.send f ∧ s.buffer.closed = true
          ∧ s1 = { s with crashed := some "send on closed channel" })
      ∨ (∃ n, ins = Instr.unlockReturn n
          ∧ s1 = { s with mutex := false, clients := s.clients.set i rest,
                          returns := s.returns ++ [(i, Ret.write n none)] })
      ∨ (ins = Instr.closeStop ∧ s.stopClosed = false
          ∧ s1 = { s with stopClosed := true, clients := s.clients.set i rest })
      ∨ (ins = Instr.closeStop ∧ s.stopClosed = true
          ∧ s1 = { s with crashed := some "close of closed channel" })
      ∨ (ins = Instr.waitReturn ∧ s.worker = WorkerPc.exited
          ∧ s1 = { s with clients := s.clients.set i rest,
                          returns := s.returns ++ [(i, Ret.close none)] })) := by
  unfold clientStep at h
  split at h
  · cases h
  · cases h
  · rename_i rest hc
    refine ⟨_, _, hc, ?_⟩
    by_cases hm : s.mutex = true
    · rw [if_pos hm] at h
      cases h
    · rw [if_neg hm] at h
      exact Or.inl ⟨rfl, by simpa using hm, (Option.some.inj h).symm⟩
  · rename_i f rest hc
    refine ⟨_, _, hc, ?_⟩
    unfold send at h
    by_cases hcl : s.buffer.closed = true
    · rw [if_pos hcl] at h
      exact Or.inr (Or.inr (Or.inl ⟨f, rfl, hcl, (Option.some.inj h).symm⟩))
    · rw [if_neg hcl] at h
      have hcl2 : s.buffer.closed = false := by simpa using hcl
      by_cases hlen : s.buffer.buf.length < bufferCap
      · rw [if_pos hlen] at h
        refine Or.inr (Or.inl ⟨f, rfl, hcl2, hlen, ?_⟩)
        rw [← Option.some.inj h, hcl2]
      · rw [if_neg hlen] at h
        cases h
  · rename_i n rest hc
    exact ⟨_, _, hc, Or.inr (Or.inr (Or.inr (Or.inl ⟨n, rfl, (Option.some.inj h).symm⟩)))⟩
  · rename_i rest hc
    refine ⟨_, _, hc, ?_⟩
    by_cases hst : s.stopClosed = true
    · rw [if_pos hst] at h
      exact Or.inr (Or.inr (Or.inr (Or.inr (Or.inr
        (Or.inl ⟨rfl, hst, (Option.some.inj h).symm⟩)))))
    · rw [if_neg hst] at h
      exact Or.inr (Or.inr (Or.inr (Or.inr
        (Or.inl ⟨rfl, by simpa using hst, (Option.some.inj h).symm⟩))))
  · rename_i rest hc
    refine ⟨_, _, hc, ?_⟩
    by_cases hw : s.worker = WorkerPc.exited
    · rw [if_pos hw] at h
      exact Or.inr (Or.inr (Or.inr (Or.inr (Or.inr
        (Or.inr ⟨rfl, hw, (Option.some.inj h).symm⟩)))))
    · rw [if_neg hw] at h
      cases h

/-- What one worker step can do. -/
theorem workerStep_spec {σ : Type} (sv : SetValue σ) (a : Action) (s s1 : Sys σ)
    (h : workerStep sv a s = some s1) :
    (a = Action.recv ∧ s.worker = WorkerPc.selecting ∧ ∃ f rest, s.buffer.buf = f :: rest
        ∧ s1 = { s with buffer := { buf := rest, closed := s.buffer.closed },
                        line := encodeFrame sv f s.line })
    ∨ (a = Action.recv ∧ s.worker = WorkerPc.selecting ∧ s.buffer.buf = []
        ∧ s.buffer.closed = true
        ∧ s1 = { s with line := encodeFrame sv { b := 0, framing := false } s.line })
    ∨ (a = Action.stop ∧ s.worker = WorkerPc.selecting ∧ s.stopClosed = true
        ∧ s1 = { s with worker := WorkerPc.stopping })
    ∨ (a = Action.closeBuffer ∧ s.worker = WorkerPc.stopping ∧ s.buffer.closed = false
        ∧ s1 = { s with buffer := { buf := s.buffer.buf, closed := true },
                        worker := WorkerPc.draining })
    ∨ (a = Action.closeBuffer ∧ s.worker = WorkerPc.stopping ∧ s.buffer.closed = true
        ∧ s1 = { s with crashed := some "close of closed channel" })
    ∨ (a = Action.recv ∧ s.worker = WorkerPc.draining ∧ ∃ f rest, s.buffer.buf = f :: rest
        ∧ s1 = { s with buffer := { buf := rest, closed := s.buffer.closed },
                        line := encodeFrame sv f s.line })
    ∨ (a = Action.exit ∧ s.worker = WorkerPc.draining ∧ s.buffer.buf = []
        ∧ s.buffer.closed = true ∧ s1 = { s with worker := WorkerPc.exited }) := by
  unfold workerStep at h
  split at h
  · rename_i hw
    unfold recvFrame at h
    cases hb : s.buffer.buf with
    | nil =>
      rw [hb] at h
      by_cases hcl : s.buffer.closed = true
      · simp only [hcl, if_true] at h
        refine Or.inr (Or.inl ⟨rfl, hw, rfl, hcl, ?_⟩)
        rw [← Option.some.inj h]
      · simp only [hcl, if_false] at h
        cases h
    | cons f rest =>
      rw [hb] at h
      exact Or.inl ⟨rfl, hw, f, rest, rfl, (Option.some.inj h).symm⟩
  · rename_i hw
    by_cases hst : s.stopClosed = true
    · rw [if_pos hst] at h
      exact Or.inr (Or.inr (Or.inl ⟨rfl, hw, hst, (Option.some.inj h).symm⟩))
    · rw [if_neg hst] at h
      cases h
  · rename_i hw
    by_cases hcl : s.buffer.closed = true
    · rw [if_pos hcl] at h
      exact Or.inr (Or.inr (Or.inr (Or.inr
        (Or.inl ⟨rfl, hw, hcl, (Option.some.inj h).symm⟩))))
    · rw [if_neg hcl] at h
      exact Or.inr (Or.inr (Or.inr
        (Or.inl ⟨rfl, hw, by simpa using hcl, (Option.some.inj h).symm⟩)))
  · rename_i hw
    cases hb : s.buffer.buf with
    | nil =>
      rw [hb] at h
      cases h
    | cons f rest =>
      rw [hb] at h
      exact Or.inr (Or.inr (Or.inr (Or.inr (Or.inr
        (Or.inl ⟨rfl, hw, f, rest, rfl, (Option.some.inj h).symm⟩)))))
  · rename_i hw
    by_cases hc : s.buffer.buf = [] ∧ s.buffer.closed = true
    · rw [if_pos hc] at h
      exact Or.inr (Or.inr (Or.inr (Or.inr (Or.inr
        (Or.inr ⟨rfl, hw, hc.1, hc.2, (Option.some.inj h).symm⟩)))))
    · rw [if_neg hc] at h
      cases h
  · cases h

/-- A step is a client step or a worker step, taken in a state without panic. -/
theorem step_spec {σ : Type} (sv : SetValue σ) (s s1 : Sys σ) (a : Action)
    (h : step sv s a = some s1) :
    s.crashed = none ∧
      ((∃ i, a = Action.client i ∧ clientStep i s = some s1)
        ∨ ((∀ i, a ≠ Action.client i) ∧ workerStep sv a s = some s1)) := by
  unfold step at h
  cases hc : s.crashed with
  | some m => simp [hc] at h
  | none =>
    simp only [hc, Option.isSome_none, Bool.false_eq_true, if_false] at h
    refine ⟨rfl, ?_⟩
    cases a with
    | client i => exact Or.inl ⟨i, rfl, h⟩
    | recv => exact Or.inr ⟨fun i hi => Action.noConfusion hi, h⟩
    | stop => exact Or.inr ⟨fun i hi => Action.noConfusion hi, h⟩
    | closeBuffer => exact Or.inr ⟨fun i hi => Action.noConfusion hi, h⟩
    | exit => exact Or.inr ⟨fun i hi => Action.noConfusion hi, h⟩

/-! ## The invariant of every system -/

theorem Inv_start {σ : Type} (sv : SetValue σ) (pin : σ) (clients : List (List Instr)) :
    Inv sv { pin := pin, log := [] } (Sys.start pin clients) where
  open_early := fun _ => rfl
  closed_late := fun h => by
    rcases h with h | h <;> cases h
  stop_seen := fun h => absurd rfl h
  drained := fun _ => rfl
  fifo := ⟨[], rfl, rfl⟩
  close_ret := fun i e h => by
    simp [Sys.start] at h
  write_ret := fun i n e h => by
    simp [Sys.start] at h

theorem Inv_clientStep {σ : Type} (sv : SetValue σ) (l0 : Line σ) (i : Nat) (s s1 : Sys σ)
    (hinv : Inv sv l0 s) (h : clientStep i s = some s1) : Inv sv l0 s1 := by
  obtain ⟨ins, rest, -, hcase⟩ := clientStep_spec i s s1 h
  obtain ⟨oe, cl, ss, dr, ⟨done, hsent, hline⟩, cr, wr⟩ := hinv
  rcases hcase with ⟨-, -, rfl⟩ | ⟨f, -, hopen, -, rfl⟩ | ⟨f, -, -, rfl⟩ | ⟨n, -, rfl⟩
    | ⟨-, -, rfl⟩ | ⟨-, -, rfl⟩ | ⟨-, hw, rfl⟩
  · exact ⟨oe, cl, ss, dr, ⟨done, hsent, hline⟩, cr, wr⟩
  · refine ⟨fun _ => rfl, ?_, ss, ?_, ⟨done, ?_, hline⟩, cr, wr⟩
    · intro hw
      have := cl hw
      rw [hopen] at this
      cases this
    · intro hw
      have := cl (Or.inr hw)
      rw [hopen] at this
      cases this
    · show s.sent ++ [f] = done ++ (s.buffer.buf ++ [f])
      rw [hsent, List.append_assoc]
  · exact ⟨oe, cl, ss, dr, ⟨done, hsent, hline⟩, cr, wr⟩
  · refine ⟨oe, cl, ss, dr, ⟨done, hsent, hline⟩, ?_, ?_⟩
    · intro j e hj
      have hj2 : (j, Ret.close e) ∈ s.returns ++ [(i, Ret.write n none)] := hj
      simp only [List.mem_append, List.mem_singleton, Prod.mk.injEq, and_false, or_false,
        reduceCtorEq] at hj2
      exact cr j e hj2
    · intro j m e hj
      have hj2 : (j, Ret.write m e) ∈ s.returns ++ [(i, Ret.write n none)] := hj
      simp only [List.mem_append, List.mem_singleton, Prod.mk.injEq, Ret.write.injEq] at hj2
      rcases hj2 with hj2 | ⟨-, -, rfl⟩
      · exact wr j m e hj2
      · rfl
  · exact ⟨oe, cl, fun _ => rfl, dr, ⟨done, hsent, hline⟩, cr, wr⟩
  · exact ⟨oe, cl, ss, dr, ⟨done, hsent, hline⟩, cr, wr⟩
  · refine ⟨oe, cl, ss, dr, ⟨done, hsent, hline⟩, ?_, ?_⟩
    · intro j e hj
      have hj2 : (j, Ret.close e) ∈ s.returns ++ [(i, Ret.close none)] := hj
      simp only [List.mem_append, List.mem_singleton, Prod.mk.injEq, Ret.close.injEq] at hj2
      rcases hj2 with hj2 | ⟨-, rfl⟩
      · exact cr j e hj2
      · exact ⟨hw, rfl⟩
    · intro j m e hj
      have hj2 : (j, Ret.write m e) ∈ s.returns ++ [(i, Ret.close none)] := hj
      simp only [List.mem_append, List.mem_singleton, Prod.mk.injEq, and_false, or_false,
        reduceCtorEq] at hj2
      exact wr j m e hj2

theorem encodeFrames_snoc {σ : Type} (sv : SetValue σ) (fs : List frame) (f : frame)
    (l : Line σ) : encodeFrames sv (fs ++ [f]) l = encodeFrame sv f (encodeFrames sv fs l) := by
  simp [encodeFrames, List.foldl_append]

theorem Inv_workerStep {σ : Type} (sv : SetValue σ) (l0 : Line σ) (a : Action) (s s1 : Sys σ)
    (hinv : Inv sv l0 s) (h : workerStep sv a s = some s1) : Inv sv l0 s1 := by
  obtain ⟨oe, cl, ss, dr, ⟨done, hsent, hline⟩, cr, wr⟩ := hinv
  rcases workerStep_spec sv a s s1 h with ⟨-, hw, f, rest, hb, rfl⟩ | ⟨-, hw, -, hcl, -⟩
    | ⟨-, hw, hst, rfl⟩ | ⟨-, hw, hcl, rfl⟩ | ⟨-, hw, hcl, rfl⟩ | ⟨-, hw, f, rest, hb, rfl⟩
    | ⟨-, hw, hb, hcl, rfl⟩
  · refine ⟨oe, cl, ss, ?_, ⟨done ++ [f], ?_, ?_⟩, cr, wr⟩
    · intro hx
      have hx2 : s.worker = WorkerPc.exited := hx
      rw [hw] at hx2
      cases hx2
    · show s.sent = (done ++ [f]) ++ rest
      rw [hsent, hb]
      simp
    · show encodeFrame sv f s.line = encodeFrames sv (done ++ [f]) l0
      rw [encodeFrames_snoc, hline]
  · have := oe (Or.inl hw)
    rw [hcl] at this
    cases this
  · refine ⟨fun _ => oe (Or.inl hw), ?_, fun _ => hst, ?_, ⟨done, hsent, hline⟩, ?_, wr⟩
    · intro hx
      rcases hx with hx | hx <;> cases hx
    · intro hx
      cases hx
    · intro j e hj
      have := (cr j e hj).1
      rw [hw] at this
      cases this
  · refine ⟨?_, fun _ => rfl, fun _ => ss (by rw [hw]; exact fun hx => WorkerPc.noConfusion hx),
      ?_, ⟨done, hsent, hline⟩, ?_, wr⟩
    · intro hx
      rcases hx with hx | hx <;> cases hx
    · intro hx
      cases hx
    · intro j e hj
      have := (cr j e hj).1
      rw [hw] at this
      cases this
  · exact ⟨oe, cl, ss, dr, ⟨done, hsent, hline⟩, cr, wr⟩
  · refine ⟨?_, fun _ => cl (Or.inl hw), ss, ?_, ⟨done ++ [f], ?_, ?_⟩, cr, wr⟩
    · intro hx
      have hx2 : s.worker = WorkerPc.selecting ∨ s.worker = WorkerPc.stopping := hx
      rw [hw] at hx2
      rcases hx2 with hx2 | hx2 <;> cases hx2
    · intro hx
      have hx2 : s.worker = WorkerPc.exited := hx
      rw [hw] at hx2
      cases hx2
    · show s.sent = (done ++ [f]) ++ rest
      rw [hsent, hb]
      simp
    · show encodeFrame sv f s.line = encodeFrames sv (done ++ [f]) l0
      rw [encodeFrames_snoc, hline]
  · refine ⟨?_, fun _ => hcl, fun _ => ss (by rw [hw]; exact fun hx => WorkerPc.noConfusion hx),
      fun _ => hb, ⟨done, hsent, hline⟩, ?_, wr⟩
    · intro hx
      rcases hx with hx | hx <;> cases hx
    · intro j e hj
      exact ⟨rfl, (cr j e hj).2⟩

theorem Inv_step {σ : Type} (sv : SetValue σ) (l0 : Line σ) (a : Action) (s s1 : Sys σ)
    (hinv : Inv sv l0 s) (h : step sv s a = some s1) : Inv sv l0 s1 := by
  rcases (step_spec sv s s1 a h).2 with ⟨i, -, hc⟩ | ⟨-, hw⟩
  · exact Inv_clientStep sv l0 i s s1 hinv hc
  · exact Inv_workerStep sv l0 a s s1 hinv hw

theorem Inv_run {σ : Type} (sv : SetValue σ) (l0 : Line σ) (sched : List Action)
    (s s1 : Sys σ) (hinv : Inv sv l0 s) (h : run sv s sched = some s1) : Inv sv l0 s1 := by
  induction sched generalizing s with
  | nil =>
    simp only [run, Option.some.injEq] at h
    exact h ▸ hinv
  | cons a rest ih =>
    simp only [run] at h
    cases hs : step sv s a with
    | none => simp [hs] at h
    | some s2 =>
      rw [hs] at h
      exact ih s2 (Inv_step sv l0 a s s2 hinv hs) h

/-! ## Termination: every step uses up fuel -/

theorem sum_length_set (l : List (List Instr)) (i : Nat) (ins : Instr) (rest : List Instr)
    (h : l[i]? = some (ins :: rest)) :
    ((l.set i rest).map List.length).sum + 1 = (l.map List.length).sum := by
  induction l generalizing i with
  | nil => simp at h
  | cons p ps ih =>
    cases i with
    | zero =>
      simp only [List.getElem?_cons_zero, Option.some.injEq] at h
      subst h
      simp only [List.set_cons_zero, List.map_cons, List.sum_cons, List.length_cons]
      omega
    | succ j =>
      simp only [List.getElem?_cons_succ] at h
      have := ih j h
      simp only [List.set_cons_succ, List.map_cons, List.sum_cons]
      omega

theorem fuel_step {σ : Type} (sv : SetValue σ) (l0 : Line σ) (a : Action) (s s1 : Sys σ)
    (hinv : Inv sv l0 s) (h : step sv s a = some s1) : s1.fuel < s.fuel := by
  obtain ⟨hc, hstep⟩ := step_spec sv s s1 a h
  rcases hstep with ⟨i, -, hcl⟩ | ⟨-, hw⟩
  · obtain ⟨ins, rest, hget, hcase⟩ := clientStep_spec i s s1 hcl
    have hsum := sum_length_set s.clients i ins rest hget
    rcases hcase with ⟨-, -, rfl⟩ | ⟨f, -, -, -, rfl⟩ | ⟨f, -, -, rfl⟩ | ⟨n, -, rfl⟩
      | ⟨-, -, rfl⟩ | ⟨-, -, rfl⟩ | ⟨-, -, rfl⟩
    all_goals
      simp only [Sys.fuel, hc, List.length_append, List.length_singleton, Option.isSome_none,
        Option.isSome_some, Bool.false_eq_true, if_false, if_true]
      omega
  · rcases workerStep_spec sv a s s1 hw with ⟨-, -, f, rest, hb, rfl⟩ | ⟨-, hw2, -, hcl, -⟩
      | ⟨-, hw2, -, rfl⟩ | ⟨-, hw2, -, rfl⟩ | ⟨-, -, -, rfl⟩ | ⟨-, -, f, rest, hb, rfl⟩
      | ⟨-, hw2, -, -, rfl⟩
    · simp only [Sys.fuel, hb, List.length_cons]
      omega
    · have := hinv.open_early (Or.inl hw2)
      rw [hcl] at this
      cases this
    · simp only [Sys.fuel, hw2, WorkerPc.rank]
      omega
    · simp only [Sys.fuel, hw2, WorkerPc.rank]
      omega
    · simp only [Sys.fuel, hc, Option.isSome_none, Option.isSome_some, Bool.false_eq_true,
        if_false, if_true]
      omega
    · simp only [Sys.fuel, hb, List.length_cons]
      omega
    · simp only [Sys.fuel, hw2, WorkerPc.rank]
      omega

theorem fuel_run {σ : Type} (sv : SetValue σ) (l0 : Line σ) (sched : List Action)
    (s s1 : Sys σ) (hinv : Inv sv l0 s) (h : run sv s sched = some s1) :
    sched.length + s1.fuel ≤ s.fuel := by
  induction sched generalizing s with
  | nil =>
    simp only [run, Option.some.injEq] at h
    subst h
    simp
  | cons a rest ih =>
    simp only [run] at h
    cases hs : step sv s a with
    | none => simp [hs] at h
    | some s2 =>
      rw [hs] at h
      have h1 := ih s2 (Inv_step sv l0 a s s2 hinv hs) h
      have h2 := fuel_step sv l0 a s s2 hinv hs
      simp only [List.length_cons]
      omega

/-! ## A lone client -/

theorem Solo_start {σ : Type} (pin : σ) (prog : List Instr)
    (hok : okFrom false false prog = true) : Solo prog (Sys.start pin [prog] : Sys σ) where
  left := ⟨prog, rfl, hok, rfl, rfl, fun h => Or.inl h⟩
  sound := rfl

theorem Solo_step {σ : Type} (sv : SetValue σ) (l0 : Line σ) (prog : List Instr) (a : Action)
    (s s1 : Sys σ) (hinv : Inv sv l0 s) (hsolo : Solo prog s) (h : step sv s a = some s1) :
    Solo prog s1 := by
  obtain ⟨⟨post, hcl, hok, hsent, hret, hwait⟩, hcr⟩ := hsolo
  rcases (step_spec sv s s1 a h).2 with ⟨i, -, hc⟩ | ⟨-, hw⟩
  · obtain ⟨ins, rest, hget, hcase⟩ := clientStep_spec i s s1 hc
    have hi : i = 0 ∧ post = ins :: rest := by
      rw [hcl] at hget
      cases i with
      | zero => simpa using hget
      | succ j => simp at hget
    obtain ⟨rfl, rfl⟩ := hi
    have hset : s.clients.set 0 rest = [rest] := by
      rw [hcl]
      rfl
    have hmem : ∀ ins2, ins2 ≠ Instr.waitReturn → Instr.waitReturn ∈ prog →
        Instr.waitReturn ∈ ins2 :: rest ∨ s.worker = WorkerPc.exited →
        Instr.waitReturn ∈ rest ∨ s.worker = WorkerPc.exited := by
      intro ins2 hne _ hor
      rcases hor with hor | hor
      · rcases List.mem_cons.1 hor with hor | hor
        · exact absurd hor.symm hne
        · exact Or.inl hor
      · exact Or.inr hor
    rcases hcase with ⟨rfl, hm, rfl⟩ | ⟨f, rfl, hopen, -, rfl⟩ | ⟨f, rfl, hclosed, rfl⟩
      | ⟨n, rfl, rfl⟩ | ⟨rfl, hst, rfl⟩ | ⟨rfl, hst, rfl⟩ | ⟨rfl, hw, rfl⟩
    · refine ⟨⟨rest, hset, ?_, hsent, hret, fun hp => hmem _ (by simp) hp (hwait hp)⟩, hcr⟩
      simp only [okFrom, hm, Bool.not_false, Bool.true_and] at hok
      exact hok
    · refine ⟨⟨rest, hset, ?_, ?_, hret, fun hp => hmem _ (by simp) hp (hwait hp)⟩, hcr⟩
      · simp only [okFrom, Bool.and_eq_true] at hok
        exact hok.2
      · show s.sent ++ [f] ++ sendsOf rest = sendsOf prog
        rw [← hsent]
        simp [sendsOf]
    · exfalso
      simp only [okFrom, Bool.and_eq_true, Bool.not_eq_true'] at hok
      have hsel : s.worker = WorkerPc.selecting := by
        by_contra hne
        have := hinv.stop_seen hne
        rw [hok.1.2] at this
        cases this
      have := hinv.open_early (Or.inl hsel)
      rw [hclosed] at this
      cases this
    · refine ⟨⟨rest, hset, ?_, hsent, ?_, fun hp => hmem _ (by simp) hp (hwait hp)⟩, hcr⟩
      · simp only [okFrom, Bool.and_eq_true] at hok
        exact hok.2
      · show s.returns ++ [(0, Ret.write n none)] ++ retsOf 0 rest = retsOf 0 prog
        rw [← hret]
        simp [retsOf]
    · refine ⟨⟨rest, hset, ?_, hsent, hret, fun hp => hmem _ (by simp) hp (hwait hp)⟩, hcr⟩
      simp only [okFrom, Bool.and_eq_true] at hok
      exact hok.2
    · exfalso
      simp only [okFrom, Bool.and_eq_true, Bool.not_eq_true'] at hok
      rw [hok.1] at hst
      cases hst
    · refine ⟨⟨rest, hset, ?_, hsent, ?_, fun _ => Or.inr hw⟩, hcr⟩
      · simp only [okFrom, Bool.and_eq_true] at hok
        exact hok.2
      · show s.returns ++ [(0, Ret.close none)] ++ retsOf 0 rest = retsOf 0 prog
        rw [← hret]
        simp [retsOf]
  · rcases workerStep_spec sv a s s1 hw with ⟨-, -, f, rest, -, rfl⟩ | ⟨-, -, -, -, rfl⟩
      | ⟨-, hw2, -, rfl⟩ | ⟨-, hw2, -, rfl⟩ | ⟨-, hw2, hclosed, rfl⟩ | ⟨-, -, f, rest, -, rfl⟩
      | ⟨-, -, -, -, rfl⟩
    · exact ⟨⟨post, hcl, hok, hsent, hret, hwait⟩, hcr⟩
    · exact ⟨⟨post, hcl, hok, hsent, hret, hwait⟩, hcr⟩
    · refine ⟨⟨post, hcl, hok, hsent, hret, fun hp => ?_⟩, hcr⟩
      rcases hwait hp with hx | hx
      · exact Or.inl hx
      · rw [hw2] at hx
        cases hx
    · refine ⟨⟨post, hcl, hok, hsent, hret, fun hp => ?_⟩, hcr⟩
      rcases hwait hp with hx | hx
      · exact Or.inl hx
      · rw [hw2] at hx
        cases hx
    · exfalso
      have := hinv.open_early (Or.inr hw2)
      rw [hclosed] at this
      cases this
    · exact ⟨⟨post, hcl, hok, hsent, hret, hwait⟩, hcr⟩
    · exact ⟨⟨post, hcl, hok, hsent, hret, fun _ => Or.inr rfl⟩, hcr⟩

theorem Solo_run {σ : Type} (sv : SetValue σ) (l0 : Line σ) (prog : List Instr)
    (sched : List Action) (s s1 : Sys σ) (hinv : Inv sv l0 s) (hsolo : Solo prog s)
    (h : run sv s sched = some s1) : Solo prog s1 := by
  induction sched generalizing s with
  | nil =>
    simp only [run, Option.some.injEq] at h
    exact h ▸ hsolo
  | cons a rest ih =>
    simp only [run] at h
    cases hs : step sv s a with
    | none => simp [hs] at h
    | some s2 =>
      rw [hs] at h
      exact ih s2 (Inv_step sv l0 a s s2 hinv hs) (Solo_step sv l0 prog a s s2 hinv hsolo hs) h

theorem step_of_clientStep {σ : Type} (sv : SetValue σ) (s s1 : Sys σ) (i : Nat)
    (hc : s.crashed = none) (h : clientStep i s = some s1) :
    step sv s (Action.client i) = some s1 := by
  simp [step, hc, h]

theorem Solo_progress {σ : Type} (sv : SetValue σ) (l0 : Line σ) (prog : List Instr)
    (s : Sys σ) (hinv : Inv sv l0 s) (hsolo : Solo prog s) (hne : s.clients ≠ [[]]) :
    ∃ a s1, step sv s a = some s1 := by
  obtain ⟨⟨post, hcl, hok, -, -, -⟩, hcr⟩ := hsolo
  cases post with
  | nil => exact absurd hcl hne
  | cons ins rest =>
    have hget : s.clients[0]? = some (ins :: rest) := by
      rw [hcl]
      rfl
    cases ins with
    | lock =>
      simp only [okFrom, Bool.and_eq_true, Bool.not_eq_true'] at hok
      exact ⟨Action.client 0, _, step_of_clientStep sv s _ 0 hcr
        (by simp only [clientStep, hget, hok.1, Bool.false_eq_true, if_false]; rfl)⟩
    | send f =>
      simp only [okFrom, Bool.and_eq_true, Bool.not_eq_true'] at hok
      have hsel : s.worker = WorkerPc.selecting := by
        by_contra hx
        have := hinv.stop_seen hx
        rw [hok.1.2] at this
        cases this
      have hopen := hinv.open_early (Or.inl hsel)
      by_cases hlen : s.buffer.buf.length < bufferCap
      · exact ⟨Action.client 0, _, step_of_clientStep sv s _ 0 hcr
          (by simp only [clientStep, hget, send, hopen, hlen, Bool.false_eq_true, if_false,
                if_true]; rfl)⟩
      · cases hb : s.buffer.buf with
        | nil =>
          rw [hb] at hlen
          exact absurd (by decide) hlen
        | cons g gs =>
          refine ⟨Action.recv, { s with buffer := { s.buffer with buf := gs },
                                        line := encodeFrame sv g s.line }, ?_⟩
          simp [step, hcr, workerStep, hsel, recvFrame, hb]
    | unlockReturn n =>
      exact ⟨Action.client 0, _, step_of_clientStep sv s _ 0 hcr
        (by simp only [clientStep, hget]; rfl)⟩
    | closeStop =>
      simp only [okFrom, Bool.and_eq_true, Bool.not_eq_true'] at hok
      exact ⟨Action.client 0, _, step_of_clientStep sv s _ 0 hcr
        (by simp only [clientStep, hget, hok.1, Bool.false_eq_true, if_false]; rfl)⟩
    | waitReturn =>
      simp only [okFrom, Bool.and_eq_true] at hok
      cases hw : s.worker with
      | exited =>
        exact ⟨Action.client 0, _, step_of_clientStep sv s _ 0 hcr
          (by simp only [clientStep, hget, hw, if_true]; rfl)⟩
      | selecting =>
        exact ⟨Action.stop, { s with worker := WorkerPc.stopping }, by
          simp [step, hcr, workerStep, hw, hok.1]⟩
      | stopping =>
        have hopen := hinv.open_early (Or.inr hw)
        exact ⟨Action.closeBuffer,
          { s with buffer := { s.buffer with closed := true }, worker := WorkerPc.draining }, by
          simp [step, hcr, workerStep, hw, hopen]⟩
      | draining =>
        have hclosed := hinv.closed_late (Or.inl hw)
        cases hb : s.buffer.buf with
        | nil =>
          exact ⟨Action.exit, { s with worker := WorkerPc.exited }, by
            simp [step, hcr, workerStep, hw, hb, hclosed]⟩
        | cons g gs =>
          exact ⟨Action.recv, { s with buffer := { s.buffer with buf := gs },
                                       line := encodeFrame sv g s.line }, by
            simp [step, hcr, workerStep, hw, hb]⟩

/-! ## The steps of a script of calls -/

theorem sendsOf_append (p q : List Instr) : sendsOf (p ++ q) = sendsOf p ++ sendsOf q := by
  induction p with
  | nil => rfl
  | cons ins rest ih => cases ins <;> simp [sendsOf, ih]

theorem retsOf_append (i : Nat) (p q : List Instr) :
    retsOf i (p ++ q) = retsOf i p ++ retsOf i q := by
  induction p with
  | nil => rfl
  | cons ins rest ih => cases ins <;> simp [retsOf, ih]

theorem sendsOf_map_send (fs : List frame) : sendsOf (fs.map Instr.send) = fs := by
  induction fs with
  | nil => rfl
  | cons f rest ih => simp [sendsOf, ih]

theorem retsOf_map_send (i : Nat) (fs : List frame) : retsOf i (fs.map Instr.send) = [] := by
  induction fs with
  | nil => rfl
  | cons f rest ih => simp [retsOf, ih]

theorem WriteSteps_eq (data : List Nat) :
    WriteSteps data
      = Instr.lock :: ((writeFrames data).map Instr.send ++ [Instr.unlockReturn data.length]) := by
  simp [WriteSteps, writeFrames]

theorem sendsOf_WriteSteps (data : List Nat) : sendsOf (WriteSteps data) = writeFrames data := by
  rw [WriteSteps_eq]
  show sendsOf ((writeFrames data).map Instr.send ++ [Instr.unlockReturn data.length]) = _
  rw [sendsOf_append, sendsOf_map_send]
  exact List.append_nil _

theorem retsOf_WriteSteps (i : Nat) (data : List Nat) :
    retsOf i (WriteSteps data) = [(i, Ret.write data.length none)] := by
  rw [WriteSteps_eq]
  show retsOf i ((writeFrames data).map Instr.send ++ [Instr.unlockReturn data.length]) = _
  rw [retsOf_append, retsOf_map_send]
  rfl

theorem okFrom_sends (fs : List frame) (rest : List Instr) :
    okFrom true false (fs.map Instr.send ++ rest) = okFrom true false rest := by
  induction fs with
  | nil => rfl
  | cons f fs ih => simp [okFrom, ih]

theorem okFrom_WriteSteps (data : List Nat) (rest : List Instr) :
    okFrom false false (WriteSteps data ++ rest) = okFrom false false rest := by
  rw [WriteSteps_eq]
  show (!false && okFrom true false
    (((writeFrames data).map Instr.send ++ [Instr.unlockReturn data.length]) ++ rest)) = _
  rw [List.append_assoc, okFrom_sends]
  rfl

theorem okFrom_writes (ds : List (List Nat)) (rest : List Instr) :
    okFrom false false (scriptSteps (ds.map Op.write) ++ rest) = okFrom false false rest := by
  induction ds with
  | nil => rfl
  | cons d ds ih =>
    simp only [scriptSteps, List.map_cons, List.flatMap_cons, Op.steps, List.append_assoc]
    rw [okFrom_WriteSteps]
    exact ih

theorem sendsOf_writes (ds : List (List Nat)) :
    sendsOf (scriptSteps (ds.map Op.write)) = ds.flatMap writeFrames := by
  induction ds with
  | nil => rfl
  | cons d ds ih =>
    simp only [scriptSteps, List.map_cons, List.flatMap_cons, Op.steps]
    rw [sendsOf_append, sendsOf_WriteSteps]
    exact congrArg _ ih

theorem retsOf_writes (i : Nat) (ds : List (List Nat)) :
    retsOf i (scriptSteps (ds.map Op.write))
      = ds.map (fun d => (i, Ret.write d.length none)) := by
  induction ds with
  | nil => rfl
  | cons d ds ih =>
    simp only [scriptSteps, List.map_cons, List.flatMap_cons, Op.steps]
    rw [retsOf_append, retsOf_WriteSteps]
    exact congrArg _ ih

theorem scriptSteps_append (p q : List Op) :
    scriptSteps (p ++ q) = scriptSteps p ++ scriptSteps q := by
  simp [scriptSteps, List.flatMap_append]

theorem sendsOf_after_stop (m : Bool) (post : List Instr)
    (hok : okFrom m true post = true) : sendsOf post = [] := by
  induction post generalizing m with
  | nil => rfl
  | cons ins rest ih =>
    cases ins with
    | lock =>
      simp only [okFrom, Bool.and_eq_true] at hok
      exact ih true hok.2
    | send f => simp [okFrom] at hok
    | unlockReturn n =>
      simp only [okFrom, Bool.and_eq_true] at hok
      exact ih false hok.2
    | closeStop => simp [okFrom] at hok
    | waitReturn =>
      simp only [okFrom, Bool.and_eq_true] at hok
      exact ih m hok.2

/-! ## Claims on `Close` and on concurrent calls -/

/-- C7: drain guarantee. In every execution of every system started by `New`
the worker exits only with the queue empty and every unit ever sent emitted
by `encodeFrame`, whole and in the order of sending, and a `Close` returns
only after the worker exited, with a `nil` error. For a client that makes the
calls `Write(d)` for the `d` in `ds` one after the other and then `Close()`:
nothing panics; once `Close` has returned the units sent are exactly those of
the writes, in order, and the log is their bit sequence; the calls return
`(len(d), nil)` and `nil`; as long as the client has not finished some
goroutine can take a step; and no execution is longer than the fuel of the
start state, so `Close` does return. -/
theorem Close_drains_queue {σ : Type} (sv : SetValue σ) (pin : σ)
    (clients : List (List Instr)) (sched : List Action) (s : Sys σ)
    (hrun : run sv (Sys.start pin clients) sched = some s) :
    (s.worker = WorkerPc.exited →
        s.buffer.buf = [] ∧ s.line = encodeFrames sv s.sent { pin := pin, log := [] })
    ∧ (∀ i e, (i, Ret.close e) ∈ s.returns → s.worker = WorkerPc.exited ∧ e = none)
    ∧ sched.length + s.fuel ≤ (Sys.start pin clients : Sys σ).fuel
    ∧ (∀ ds : List (List Nat),
        clients = [scriptSteps (ds.map Op.write ++ [Op.close])] →
          s.crashed = none
          ∧ (∃ later, s.returns ++ later
                = ds.map (fun d => (0, Ret.write d.length none)) ++ [(0, Ret.close none)])
          ∧ ((∃ i e, (i, Ret.close e) ∈ s.returns) →
                s.sent = ds.flatMap writeFrames
                ∧ s.buffer.buf = []
                ∧ s.line = encodeFrames sv (ds.flatMap writeFrames) { pin := pin, log := [] }
                ∧ s.line.log
                    = ((ds.flatMap writeFrames).flatMap frameBits).flatMap bitEvents)
          ∧ (s.clients ≠ [[]] → ∃ a s1, step sv s a = some s1)
          ∧ (s.clients = [[]] →
                s.returns
                  = ds.map (fun d => (0, Ret.write d.length none)) ++ [(0, Ret.close none)])) := by
  have hinv := Inv_run sv _ sched _ s (Inv_start sv pin clients) hrun
  have hdrain : s.worker = WorkerPc.exited →
      s.buffer.buf = [] ∧ s.line = encodeFrames sv s.sent { pin := pin, log := [] } := by
    intro hw
    obtain ⟨done, hsent, hline⟩ := hinv.fifo
    have hb := hinv.drained hw
    rw [hb, List.append_nil] at hsent
    rw [hsent]
    exact ⟨hb, hline⟩
  refine ⟨hdrain, hinv.close_ret, fuel_run sv _ sched _ s (Inv_start sv pin clients) hrun, ?_⟩
  intro ds hcl
  subst hcl
  have hprog_sends : sendsOf (scriptSteps (ds.map Op.write ++ [Op.close]))
      = ds.flatMap writeFrames := by
    rw [scriptSteps_append, sendsOf_append, sendsOf_writes]
    exact List.append_nil _
  have hprog_rets : retsOf 0 (scriptSteps (ds.map Op.write ++ [Op.close]))
      = ds.map (fun d => (0, Ret.write d.length none)) ++ [(0, Ret.close none)] := by
    rw [scriptSteps_append, retsOf_append, retsOf_writes]
    rfl
  have hprog_ok : okFrom false false (scriptSteps (ds.map Op.write ++ [Op.close])) = true := by
    rw [scriptSteps_append, okFrom_writes]
    rfl
  have hsolo := Solo_run sv _ _ sched _ s (Inv_start sv pin _) (Solo_start pin _ hprog_ok) hrun
  have hprogress := Solo_progress sv _ _ s hinv hsolo
  obtain ⟨⟨post, hpost, hok, hsent, hret, -⟩, hcr⟩ := hsolo
  refine ⟨hcr, ⟨retsOf 0 post, by rw [hret, hprog_rets]⟩, ?_, hprogress, ?_⟩
  · rintro ⟨i, e, hmem⟩
    have hw := (hinv.close_ret i e hmem).1
    have hst : s.stopClosed = true := hinv.stop_seen (by rw [hw]; exact fun hx => by cases hx)
    rw [hst] at hok
    rw [sendsOf_after_stop _ post hok, List.append_nil, hprog_sends] at hsent
    obtain ⟨hb, hline⟩ := hdrain hw
    rw [hsent] at hline
    refine ⟨hsent, hb, hline, ?_⟩
    rw [hline, encodeFrames_log]
    rfl
  · intro hfin
    rw [hpost] at hfin
    have hp : post = [] := by simpa using hfin
    rw [hp] at hret
    rw [← hprog_rets, ← hret]
    exact (List.append_nil _).symm

/-- Witness of C7: one client calls `Write([0x41])` and then `Close()`; the
client runs up to `close(e.stop)`, the worker then sees the stop signal, closes
the queue, drains its three units and exits, and `Close` returns. -/
theorem Close_drains_queue_witness :
    run (fun _ (u : Unit) => (u, none))
        (Sys.start () [scriptSteps ([[0x41]].map Op.write ++ [Op.close])])
        [Action.client 0, Action.client 0, Action.client 0, Action.client 0, Action.client 0,
         Action.client 0, Action.stop, Action.closeBuffer, Action.recv, Action.recv,
         Action.recv, Action.exit, Action.client 0]
      = some { buffer := { buf := [], closed := true }, stopClosed := true, mutex := false,
               worker := WorkerPc.exited,
               line := encodeFrames (fun _ (u : Unit) => (u, none)) (writeFrames [0x41])
                         { pin := (), log := [] },
               clients := [[]], sent := writeFrames [0x41],
               returns := [(0, Ret.write 1 none), (0, Ret.close none)], crashed := none }
    ∧ (encodeFrames (fun _ (u : Unit) => (u, none)) (writeFrames [0x41])
          { pin := (), log := [] }).log
        = (([[0x41]].flatMap writeFrames).flatMap frameBits).flatMap bitEvents :=
  ⟨rfl,
    (((Close_drains_queue (fun _ (u : Unit) => (u, none)) ()
        [scriptSteps ([[0x41]].map Op.write ++ [Op.close])]
        [Action.client 0, Action.client 0, Action.client 0, Action.client 0, Action.client 0,
         Action.client 0, Action.stop, Action.closeBuffer, Action.recv, Action.recv,
         Action.recv, Action.exit, Action.client 0]
        { buffer := { buf := [], closed := true }, stopClosed := true, mutex := false,
          worker := WorkerPc.exited,
          line := encodeFrames (fun _ (u : Unit) => (u, none)) (writeFrames [0x41])
                    { pin := (), log := [] },
          clients := [[]], sent := writeFrames [0x41],
          returns := [(0, Ret.write 1 none), (0, Ret.close none)], crashed := none }
        rfl).2.2.2 [[0x41]] rfl).2.2.1
      ⟨0, none, List.mem_cons_of_mem _ (List.mem_singleton.2 rfl)⟩).2.2.2⟩

/-! ## Two concurrent writers -/

theorem DuoInv_swap (A B : List Nat) (m : Bool) (sent : List frame) (pa pb : List Instr)
    (h : DuoInv A B m sent pa pb) : DuoInv B A m sent pb pa := by
  obtain ⟨ha, hb, hm, hex, hord⟩ := h
  refine ⟨hb, ha, by rw [hm, Bool.or_comm], ?_, hord.symm⟩
  intro hpb
  cases hpa : inside pa with
  | false => rfl
  | true =>
    have := hex hpa
    rw [hpb] at this
    cases this

theorem WShape_lock (data : List Nat) (rest : List Instr)
    (h : WShape data (Instr.lock :: rest)) :
    rest = (writeFrames data).map Instr.send ++ [Instr.unlockReturn data.length] := by
  rcases h with h | ⟨fs, h⟩ | h
  · rw [WriteSteps_eq] at h
    exact (List.cons.inj h).2
  · cases fs with
    | nil => cases h
    | cons f fs => cases h
  · cases h

theorem WShape_send (data : List Nat) (f : frame) (rest : List Instr)
    (h : WShape data (Instr.send f :: rest)) :
    ∃ fs : List frame, rest = fs.map Instr.send ++ [Instr.unlockReturn data.length] := by
  rcases h with h | ⟨fs, h⟩ | h
  · rw [WriteSteps_eq] at h
    cases h
  · cases fs with
    | nil => cases h
    | cons g gs => exact ⟨gs, (List.cons.inj h).2⟩
  · cases h

theorem WShape_unlock (data : List Nat) (n : Nat) (rest : List Instr)
    (h : WShape data (Instr.unlockReturn n :: rest)) : rest = [] ∧ n = data.length := by
  rcases h with h | ⟨fs, h⟩ | h
  · rw [WriteSteps_eq] at h
    cases h
  · cases fs with
    | nil =>
      cases h
      exact ⟨rfl, rfl⟩
    | cons g gs => cases h
  · cases h

theorem WShape_not_close (data : List Nat) (rest : List Instr) :
    ¬ WShape data (Instr.closeStop :: rest) ∧ ¬ WShape data (Instr.waitReturn :: rest) := by
  constructor
  · rintro (h | ⟨fs, h⟩ | h)
    · rw [WriteSteps_eq] at h
      cases h
    · cases fs with
      | nil => cases h
      | cons g gs => cases h
    · cases h
  · rintro (h | ⟨fs, h⟩ | h)
    · rw [WriteSteps_eq] at h
      cases h
    · cases fs with
      | nil => cases h
      | cons g gs => cases h
    · cases h

theorem inside_sends_unlock (fs : List frame) (n : Nat) :
    inside (fs.map Instr.send ++ [Instr.unlockReturn n]) = true := by
  cases fs <;> rfl

theorem WShape_idle (data : List Nat) (p : List Instr) (h : WShape data p)
    (hin : inside p = false) : p = WriteSteps data ∨ p = [] := by
  rcases h with h | ⟨fs, h⟩ | h
  · exact Or.inl h
  · rw [h, inside_sends_unlock] at hin
    cases hin
  · exact Or.inr h

theorem WriteSteps_ne_nil (data : List Nat) : WriteSteps data ≠ [] := by
  rw [WriteSteps_eq]
  exact List.cons_ne_nil _ _

theorem sendsOf_sends_unlock (fs : List frame) (n : Nat) :
    sendsOf (fs.map Instr.send ++ [Instr.unlockReturn n]) = fs := by
  rw [sendsOf_append, sendsOf_map_send]
  exact List.append_nil _

theorem DuoInv_lock (A B : List Nat) (sent : List frame) (rest pb : List Instr)
    (h : DuoInv A B false sent (Instr.lock :: rest) pb) : DuoInv A B true sent rest pb := by
  obtain ⟨ha, hb, hm, -, hord⟩ := h
  have hrest := WShape_lock A rest ha
  have hpa : Instr.lock :: rest = WriteSteps A := by
    rw [WriteSteps_eq, hrest]
  have hpb : inside pb = false := by
    simpa [inside] using hm.symm
  have hsr : sendsOf rest = writeFrames A := by
    rw [hrest, sendsOf_sends_unlock]
  have hsa : sendsOf (Instr.lock :: rest) = writeFrames A := hsr
  refine ⟨Or.inr (Or.inl ⟨_, hrest⟩), hb, ?_, fun _ => hpb, ?_⟩
  · rw [hrest, inside_sends_unlock]
    rfl
  · rcases WShape_idle B pb hb hpb with hidle | hidle
    · refine Or.inl ⟨?_, Or.inl hidle⟩
      rcases hord with ⟨heq, -⟩ | ⟨heq, -⟩
      · rw [hsa] at heq
        rw [hsr]
        exact heq
      · rw [hsa, hidle, sendsOf_WriteSteps, List.append_assoc] at heq
        have hnil : sent = [] := List.append_left_eq_self.1 heq
        rw [hnil, hsr, hidle, sendsOf_WriteSteps]
        rfl
    · refine Or.inr ⟨?_, Or.inr hidle⟩
      rcases hord with ⟨-, hside⟩ | ⟨heq, -⟩
      · rcases hside with hside | hside
        · rw [hidle] at hside
          exact absurd hside.symm (WriteSteps_ne_nil B)
        · cases hside
      · rw [hsa] at heq
        rw [hsr]
        exact heq

theorem DuoInv_send (A B : List Nat) (m : Bool) (sent : List frame) (f : frame)
    (rest pb : List Instr) (h : DuoInv A B m sent (Instr.send f :: rest) pb) :
    DuoInv A B m (sent ++ [f]) rest pb := by
  obtain ⟨ha, hb, hm, hex, hord⟩ := h
  obtain ⟨fs, hrest⟩ := WShape_send A f rest ha
  have hpb : inside pb = false := hex rfl
  have hne : Instr.send f :: rest ≠ WriteSteps A := by
    rw [WriteSteps_eq]
    intro hx
    cases hx
  refine ⟨Or.inr (Or.inl ⟨fs, hrest⟩), hb, ?_, fun _ => hpb, ?_⟩
  · rw [hm, hrest, inside_sends_unlock]
    rfl
  · rcases hord with ⟨heq, hside⟩ | ⟨heq, hside⟩
    · refine Or.inl ⟨?_, ?_⟩
      · rw [← heq]
        simp [sendsOf]
      · rcases hside with hside | hside
        · exact Or.inl hside
        · cases hside
    · rcases hside with hside | hside
      · exact absurd hside hne
      · refine Or.inr ⟨?_, Or.inr hside⟩
        rw [← heq, hside]
        simp [sendsOf]

theorem DuoInv_unlock (A B : List Nat) (m : Bool) (sent : List frame) (n : Nat)
    (rest pb : List Instr) (h : DuoInv A B m sent (Instr.unlockReturn n :: rest) pb) :
    DuoInv A B false sent rest pb := by
  obtain ⟨ha, hb, -, hex, hord⟩ := h
  obtain ⟨hrest, -⟩ := WShape_unlock A n rest ha
  subst hrest
  have hpb : inside pb = false := hex rfl
  have hne : Instr.unlockReturn n :: [] ≠ WriteSteps A := by
    rw [WriteSteps_eq]
    intro hx
    cases hx
  refine ⟨Or.inr (Or.inr rfl), hb, ?_, fun _ => hpb, ?_⟩
  · rw [hpb]
    rfl
  · rcases hord with ⟨heq, -⟩ | ⟨heq, hside⟩
    · exact Or.inl ⟨heq, Or.inr rfl⟩
    · rcases hside with hside | hside
      · exact absurd hside hne
      · exact Or.inr ⟨heq, Or.inr hside⟩

/-- What a client step does to the invariant of one of two writers, the one
that steps being listed first. -/
theorem DuoInv_clientStep {σ : Type} (sv : SetValue σ) (l0 : Line σ) (A B : List Nat)
    (i : Nat) (s s1 : Sys σ) (pa pb : List Instr) (hinv : Inv sv l0 s)
    (hrunning : s.stopClosed = false) (hget : s.clients[i]? = some pa)
    (hduo : DuoInv A B s.mutex s.sent pa pb) (h : clientStep i s = some s1) :
    ∃ rest, s1.clients = s.clients.set i rest ∧ DuoInv A B s1.mutex s1.sent rest pb
      ∧ s1.crashed = s.crashed ∧ s1.stopClosed = false := by
  obtain ⟨ins, rest, hget2, hcase⟩ := clientStep_spec i s s1 h
  rw [hget] at hget2
  have hpa : pa = ins :: rest := Option.some.inj hget2
  subst hpa
  have hsel : s.worker = WorkerPc.selecting := by
    by_contra hx
    have := hinv.stop_seen hx
    rw [hrunning] at this
    cases this
  rcases hcase with ⟨rfl, hm, rfl⟩ | ⟨f, rfl, -, -, rfl⟩ | ⟨f, rfl, hclosed, rfl⟩
    | ⟨n, rfl, rfl⟩ | ⟨rfl, -, rfl⟩ | ⟨rfl, hst, rfl⟩ | ⟨rfl, -, rfl⟩
  · rw [hm] at hduo
    exact ⟨rest, rfl, DuoInv_lock A B s.sent rest pb hduo, rfl, hrunning⟩
  · exact ⟨rest, rfl, DuoInv_send A B s.mutex s.sent f rest pb hduo, rfl, hrunning⟩
  · have := hinv.open_early (Or.inl hsel)
    rw [hclosed] at this
    cases this
  · exact ⟨rest, rfl, DuoInv_unlock A B s.mutex s.sent n rest pb hduo, rfl, hrunning⟩
  · exact absurd hduo.1 (WShape_not_close A rest).1
  · exact absurd hduo.1 (WShape_not_close A rest).1
  · exact absurd hduo.1 (WShape_not_close A rest).2

theorem Duo_start {σ : Type} (pin : σ) (A B : List Nat) :
    Duo A B (Sys.start pin [WriteSteps A, WriteSteps B] : Sys σ) where
  pair := by
    refine ⟨_, _, rfl, Or.inl rfl, Or.inl rfl, ?_, ?_, Or.inl ⟨?_, Or.inl rfl⟩⟩
    · rw [WriteSteps_eq, WriteSteps_eq]
      rfl
    · rw [WriteSteps_eq]
      intro hx
      cases hx
    · rw [sendsOf_WriteSteps, sendsOf_WriteSteps]
      rfl
  sound := rfl
  running := rfl

theorem Duo_step {σ : Type} (sv : SetValue σ) (l0 : Line σ) (A B : List Nat) (a : Action)
    (s s1 : Sys σ) (hinv : Inv sv l0 s) (hduo : Duo A B s) (h : step sv s a = some s1) :
    Duo A B s1 := by
  obtain ⟨⟨pa, pb, hcl, hd⟩, hcr, hrunning⟩ := hduo
  rcases (step_spec sv s s1 a h).2 with ⟨i, -, hc⟩ | ⟨-, hw⟩
  · cases i with
    | zero =>
      have hget : s.clients[0]? = some pa := by
        rw [hcl]
        rfl
      obtain ⟨rest, h1, h2, h3, h4⟩ :=
        DuoInv_clientStep sv l0 A B 0 s s1 pa pb hinv hrunning hget hd hc
      refine ⟨⟨rest, pb, ?_, h2⟩, h3.trans hcr, h4⟩
      rw [h1, hcl]
      rfl
    | succ j =>
      cases j with
      | zero =>
        have hget : s.clients[1]? = some pb := by
          rw [hcl]
          rfl
        obtain ⟨rest, h1, h2, h3, h4⟩ :=
          DuoInv_clientStep sv l0 B A 1 s s1 pb pa hinv hrunning hget
            (DuoInv_swap A B _ _ pa pb hd) hc
        refine ⟨⟨pa, rest, ?_, DuoInv_swap B A _ _ rest pa h2⟩, h3.trans hcr, h4⟩
        rw [h1, hcl]
        rfl
      | succ k =>
        obtain ⟨ins, rest, hget, -⟩ := clientStep_spec (k + 2) s s1 hc
        rw [hcl] at hget
        simp at hget
  · have hnostop : s.worker = WorkerPc.selecting := by
      by_contra hx
      have := hinv.stop_seen hx
      rw [hrunning] at this
      cases this
    rcases workerStep_spec sv a s s1 hw with ⟨-, -, f, rest, -, rfl⟩ | ⟨-, -, -, -, rfl⟩
      | ⟨-, -, hst, rfl⟩ | ⟨-, hw2, -, rfl⟩ | ⟨-, hw2, -, rfl⟩ | ⟨-, -, f, rest, -, rfl⟩
      | ⟨-, -, -, -, rfl⟩
    · exact ⟨⟨pa, pb, hcl, hd⟩, hcr, hrunning⟩
    · exact ⟨⟨pa, pb, hcl, hd⟩, hcr, hrunning⟩
    · rw [hrunning] at hst
      cases hst
    · rw [hnostop] at hw2
      cases hw2
    · rw [hnostop] at hw2
      cases hw2
    · exact ⟨⟨pa, pb, hcl, hd⟩, hcr, hrunning⟩
    · exact ⟨⟨pa, pb, hcl, hd⟩, hcr, hrunning⟩

theorem Duo_run {σ : Type} (sv : SetValue σ) (l0 : Line σ) (A B : List Nat)
    (sched : List Action) (s s1 : Sys σ) (hinv : Inv sv l0 s) (hduo : Duo A B s)
    (h : run sv s sched = some s1) : Duo A B s1 := by
  induction sched generalizing s with
  | nil =>
    simp only [run, Option.some.injEq] at h
    exact h ▸ hduo
  | cons a rest ih =>
    simp only [run] at h
    cases hs : step sv s a with
    | none => simp [hs] at h
    | some s2 =>
      rw [hs] at h
      exact ih s2 (Inv_step sv l0 a s s2 hinv hs) (Duo_step sv l0 A B a s s2 hinv hduo hs) h

theorem can_step_inside {σ : Type} (sv : SetValue σ) (s : Sys σ) (i : Nat) (p : List Instr)
    (hget : s.clients[i]? = some p) (hin : inside p = true) (hcr : s.crashed = none)
    (hsel : s.worker = WorkerPc.selecting) (hopen : s.buffer.closed = false) :
    ∃ a s1, step sv s a = some s1 := by
  cases p with
  | nil => cases hin
  | cons ins rest =>
    cases ins with
    | lock => cases hin
    | closeStop => cases hin
    | waitReturn => cases hin
    | unlockReturn n =>
      exact ⟨Action.client i, _, step_of_clientStep sv s _ i hcr
        (by simp only [clientStep, hget]; rfl)⟩
    | send f =>
      by_cases hlen : s.buffer.buf.length < bufferCap
      · exact ⟨Action.client i, _, step_of_clientStep sv s _ i hcr
          (by simp only [clientStep, hget, send, hopen, hlen, Bool.false_eq_true, if_false,
                if_true]; rfl)⟩
      · cases hb : s.buffer.buf with
        | nil =>
          rw [hb] at hlen
          exact absurd (by decide) hlen
        | cons g gs =>
          refine ⟨Action.recv, { s with buffer := { s.buffer with buf := gs },
                                        line := encodeFrame sv g s.line }, ?_⟩
          simp [step, hcr, workerStep, hsel, recvFrame, hb]

theorem can_step_lock {σ : Type} (sv : SetValue σ) (s : Sys σ) (i : Nat) (data : List Nat)
    (hget : s.clients[i]? = some (WriteSteps data)) (hcr : s.crashed = none)
    (hm : s.mutex = false) : ∃ a s1, step sv s a = some s1 := by
  rw [WriteSteps_eq] at hget
  exact ⟨Action.client i, _, step_of_clientStep sv s _ i hcr
    (by simp only [clientStep, hget, hm, Bool.false_eq_true, if_false]; rfl)⟩

theorem Duo_progress {σ : Type} (sv : SetValue σ) (l0 : Line σ) (A B : List Nat) (s : Sys σ)
    (hinv : Inv sv l0 s) (hduo : Duo A B s) (hne : s.clients ≠ [[], []]) :
    ∃ a s1, step sv s a = some s1 := by
  obtain ⟨⟨pa, pb, hcl, ha, hb, hm, -, -⟩, hcr, hrunning⟩ := hduo
  have hsel : s.worker = WorkerPc.selecting := by
    by_contra hx
    have := hinv.stop_seen hx
    rw [hrunning] at this
    cases this
  have hopen := hinv.open_early (Or.inl hsel)
  have hget0 : s.clients[0]? = some pa := by
    rw [hcl]
    rfl
  have hget1 : s.clients[1]? = some pb := by
    rw [hcl]
    rfl
  cases hia : inside pa with
  | true => exact can_step_inside sv s 0 pa hget0 hia hcr hsel hopen
  | false =>
    cases hib : inside pb with
    | true => exact can_step_inside sv s 1 pb hget1 hib hcr hsel hopen
    | false =>
      rw [hia, hib] at hm
      rcases WShape_idle A pa ha hia with hpa | hpa
      · rw [hpa] at hget0
        exact can_step_lock sv s 0 A hget0 hcr hm
      · rcases WShape_idle B pb hb hib with hpb | hpb
        · rw [hpb] at hget1
          exact can_step_lock sv s 1 B hget1 hcr hm
        · rw [hpa, hpb] at hcl
          exact absurd hcl hne

/-- C9: two concurrent calls `Write(A)` and `Write(B)` never interleave. In
every execution of the encoder with these two clients, at every moment the
units sent so far are an initial part of preamble+A followed by preamble+B or
of preamble+B followed by preamble+A; the units sent are those already
emitted, in order, followed by those still queued; nothing panics; while a
client has steps left some goroutine can take a step, and no execution is
longer than the fuel of the start state; and once both calls have returned
the units sent are one whole run followed by the other. -/
theorem concurrent_Writes_not_interleaved {σ : Type} (sv : SetValue σ) (pin : σ)
    (A B : List Nat) (sched : List Action) (s : Sys σ)
    (hrun : run sv (Sys.start pin [WriteSteps A, WriteSteps B]) sched = some s) :
    ((∃ later, s.sent ++ later = writeFrames A ++ writeFrames B)
        ∨ (∃ later, s.sent ++ later = writeFrames B ++ writeFrames A))
    ∧ (∃ emittedUnits, s.sent = emittedUnits ++ s.buffer.buf
        ∧ s.line = encodeFrames sv emittedUnits { pin := pin, log := [] })
    ∧ s.crashed = none
    ∧ (s.clients ≠ [[], []] → ∃ a s1, step sv s a = some s1)
    ∧ sched.length + s.fuel
        ≤ (Sys.start pin [WriteSteps A, WriteSteps B] : Sys σ).fuel
    ∧ (s.clients = [[], []] →
        s.sent = writeFrames A ++ writeFrames B ∨ s.sent = writeFrames B ++ writeFrames A) := by
  have hinv := Inv_run sv _ sched _ s (Inv_start sv pin _) hrun
  have hduo := Duo_run sv _ A B sched _ s (Inv_start sv pin _) (Duo_start pin A B) hrun
  have hprog := Duo_progress sv _ A B s hinv hduo
  obtain ⟨⟨pa, pb, hcl, -, -, -, -, hord⟩, hcr, -⟩ := hduo
  refine ⟨?_, hinv.fifo, hcr, hprog, fuel_run sv _ sched _ s (Inv_start sv pin _) hrun, ?_⟩
  · rcases hord with ⟨heq, -⟩ | ⟨heq, -⟩
    · exact Or.inl ⟨sendsOf pa ++ sendsOf pb, by rw [← heq, List.append_assoc]⟩
    · exact Or.inr ⟨sendsOf pb ++ sendsOf pa, by rw [← heq, List.append_assoc]⟩
  · intro hfin
    rw [hcl] at hfin
    obtain ⟨hpa, hpb⟩ : pa = [] ∧ pb = [] := by simpa using hfin
    subst hpa
    subst hpb
    rcases hord with ⟨heq, -⟩ | ⟨heq, -⟩
    · exact Or.inl (by simpa [sendsOf] using heq)
    · exact Or.inr (by simpa [sendsOf] using heq)

/-- Witness of C9: `Write([1])` and `Write([2])`; the second client takes the
mutex first and finishes, then the first client runs. -/
theorem concurrent_Writes_not_interleaved_witness :
    run (fun _ (u : Unit) => (u, none)) (Sys.start () [WriteSteps [1], WriteSteps [2]])
        [Action.client 1, Action.client 1, Action.client 1, Action.client 1, Action.client 1,
         Action.client 0, Action.client 0, Action.client 0, Action.client 0, Action.client 0]
      = some { buffer := { buf := writeFrames [2] ++ writeFrames [1], closed := false },
               stopClosed := false, mutex := false, worker := WorkerPc.selecting,
               line := { pin := (), log := [] }, clients := [[], []],
               sent := writeFrames [2] ++ writeFrames [1],
               returns := [(1, Ret.write 1 none), (0, Ret.write 1 none)], crashed := none }
    ∧ (writeFrames [2] ++ writeFrames [1] = writeFrames [1] ++ writeFrames [2]
        ∨ writeFrames [2] ++ writeFrames [1] = writeFrames [2] ++ writeFrames [1]) :=
  ⟨rfl,
    (concurrent_Writes_not_interleaved (fun _ (u : Unit) => (u, none)) () [1] [2]
      [Action.client 1, Action.client 1, Action.client 1, Action.client 1, Action.client 1,
       Action.client 0, Action.client 0, Action.client 0, Action.client 0, Action.client 0]
      { buffer := { buf := writeFrames [2] ++ writeFrames [1], closed := false },
        stopClosed := false, mutex := false, worker := WorkerPc.selecting,
        line := { pin := (), log := [] }, clients := [[], []],
        sent := writeFrames [2] ++ writeFrames [1],
        returns := [(1, Ret.write 1 none), (0, Ret.write 1 none)], crashed := none }
      rfl).2.2.2.2.2 rfl⟩


/-! ## After `Close` -/

theorem exited_step {σ : Type} (sv : SetValue σ) (l0 : Line σ) (a : Action) (s s1 : Sys σ)
    (hinv : Inv sv l0 s) (hw : s.worker = WorkerPc.exited) (h : step sv s a = some s1) :
    s1.line = s.line ∧ s1.buffer = s.buffer ∧ s1.sent = s.sent
      ∧ s1.worker = WorkerPc.exited := by
  have hclosed := hinv.closed_late (Or.inr hw)
  rcases (step_spec sv s s1 a h).2 with ⟨i, -, hc⟩ | ⟨-, hws⟩
  · obtain ⟨ins, rest, -, hcase⟩ := clientStep_spec i s s1 hc
    rcases hcase with ⟨-, -, rfl⟩ | ⟨f, -, hopen, -, rfl⟩ | ⟨f, -, -, rfl⟩ | ⟨n, -, rfl⟩
      | ⟨-, -, rfl⟩ | ⟨-, -, rfl⟩ | ⟨-, -, rfl⟩
    · exact ⟨rfl, rfl, rfl, hw⟩
    · rw [hclosed] at hopen
      cases hopen
    · exact ⟨rfl, rfl, rfl, hw⟩
    · exact ⟨rfl, rfl, rfl, hw⟩
    · exact ⟨rfl, rfl, rfl, hw⟩
    · exact ⟨rfl, rfl, rfl, hw⟩
    · exact ⟨rfl, rfl, rfl, hw⟩
  · rcases workerStep_spec sv a s s1 hws with ⟨-, hw2, -⟩ | ⟨-, hw2, -⟩ | ⟨-, hw2, -⟩
      | ⟨-, hw2, -⟩ | ⟨-, hw2, -⟩ | ⟨-, hw2, -⟩ | ⟨-, hw2, -⟩
    all_goals
      rw [hw] at hw2
      cases hw2

theorem exited_run {σ : Type} (sv : SetValue σ) (l0 : Line σ) (sched : List Action)
    (s s1 : Sys σ) (hinv : Inv sv l0 s) (hw : s.worker = WorkerPc.exited)
    (h : run sv s sched = some s1) :
    s1.line = s.line ∧ s1.buffer = s.buffer ∧ s1.sent = s.sent := by
  induction sched generalizing s with
  | nil =>
    simp only [run, Option.some.injEq] at h
    subst h
    exact ⟨rfl, rfl, rfl⟩
  | cons a rest ih =>
    simp only [run] at h
    cases hs : step sv s a with
    | none => simp [hs] at h
    | some s2 =>
      rw [hs] at h
      obtain ⟨h1, h2, h3, h4⟩ := exited_step sv l0 a s s2 hinv hw hs
      obtain ⟨k1, k2, k3⟩ := ih s2 (Inv_step sv l0 a s s2 hinv hs) h4 h
      exact ⟨k1.trans h1, k2.trans h2, k3.trans h3⟩

/-- C8 (as amended): after a `Close` has returned nothing further is
accepted. In every execution of every system started by `New`, from a state in
which some `Close` has returned: no later step of any goroutine changes the
line (no further `setValue` call), the queue or the units sent; the queue and
the stop channel are closed; a client whose next step is a send of `Write`
does not return from it, the step is the panic "send on closed channel"; and
a client whose next step is the `close(e.stop)` of another `Close` panics with
"close of closed channel". -/
theorem after_Close_nothing_accepted {σ : Type} (sv : SetValue σ) (pin : σ)
    (clients : List (List Instr)) (sched : List Action) (s : Sys σ)
    (hrun : run sv (Sys.start pin clients) sched = some s)
    (hclosed : ∃ i e, (i, Ret.close e) ∈ s.returns) :
    (∀ sched2 s2, run sv s sched2 = some s2 →
        s2.line = s.line ∧ s2.buffer = s.buffer ∧ s2.sent = s.sent)
    ∧ s.buffer = { buf := [], closed := true } ∧ s.stopClosed = true
    ∧ (∀ i f rest, s.crashed = none → s.clients[i]? = some (Instr.send f :: rest) →
        step sv s (Action.client i) = some { s with crashed := some "send on closed channel" })
    ∧ (∀ i rest, s.crashed = none → s.clients[i]? = some (Instr.closeStop :: rest) →
        step sv s (Action.client i)
          = some { s with crashed := some "close of closed channel" }) := by
  have hinv := Inv_run sv _ sched _ s (Inv_start sv pin clients) hrun
  obtain ⟨i0, e0, hmem⟩ := hclosed
  have hw := (hinv.close_ret i0 e0 hmem).1
  have hcl := hinv.closed_late (Or.inr hw)
  have hst : s.stopClosed = true :=
    hinv.stop_seen (by rw [hw]; exact fun hx => WorkerPc.noConfusion hx)
  have hbuf := hinv.drained hw
  refine ⟨fun sched2 s2 h2 => exited_run sv _ sched2 s s2 hinv hw h2, ?_, hst, ?_, ?_⟩
  · cases hb : s.buffer with
    | mk buf closed =>
      rw [hb] at hbuf hcl
      simp only at hbuf hcl
      rw [hbuf, hcl]
  · intro i f rest hcr hget
    simp [step, hcr, clientStep, hget, send, hcl]
  · intro i rest hcr hget
    simp [step, hcr, clientStep, hget, hst]

/-- Witness of C8: a client calls `Close()` and then `Write([0x41])`; after
`Close` returned it takes the mutex, and its first send panics. -/
theorem after_Close_nothing_accepted_witness :
    run (fun _ (u : Unit) => (u, none))
        (Sys.start () [scriptSteps [Op.close, Op.write [0x41]]])
        [Action.client 0, Action.stop, Action.closeBuffer, Action.exit, Action.client 0,
         Action.client 0]
      = some { buffer := { buf := [], closed := true }, stopClosed := true, mutex := true,
               worker := WorkerPc.exited, line := { pin := (), log := [] },
               clients := [(writeFrames [0x41]).map Instr.send ++ [Instr.unlockReturn 1]],
               sent := [], returns := [(0, Ret.close none)], crashed := none }
    ∧ step (fun _ (u : Unit) => (u, none))
        { buffer := { buf := [], closed := true }, stopClosed := true, mutex := true,
          worker := WorkerPc.exited, line := { pin := (), log := [] },
          clients := [(writeFrames [0x41]).map Instr.send ++ [Instr.unlockReturn 1]],
          sent := [], returns := [(0, Ret.close none)], crashed := none }
        (Action.client 0)
      = some { buffer := { buf := [], closed := true }, stopClosed := true, mutex := true,
               worker := WorkerPc.exited, line := { pin := (), log := [] },
               clients := [(writeFrames [0x41]).map Instr.send ++ [Instr.unlockReturn 1]],
               sent := [], returns := [(0, Ret.close none)],
               crashed := some "send on closed channel" } :=
  ⟨rfl,
    (after_Close_nothing_accepted (fun _ (u : Unit) => (u, none)) ()
      [scriptSteps [Op.close, Op.write [0x41]]]
      [Action.client 0, Action.stop, Action.closeBuffer, Action.exit, Action.client 0,
       Action.client 0]
      { buffer := { buf := [], closed := true }, stopClosed := true, mutex := true,
        worker := WorkerPc.exited, line := { pin := (), log := [] },
        clients := [(writeFrames [0x41]).map Instr.send ++ [Instr.unlockReturn 1]],
        sent := [], returns := [(0, Ret.close none)], crashed := none }
      rfl ⟨0, none, List.mem_singleton.2 rfl⟩).2.2.2.1 0 { b := 0xff, framing := false }
        [Instr.send { b := 0xff, framing := false }, Instr.send { b := 0x41, framing := true },
         Instr.unlockReturn 1] rfl rfl⟩

/-- C8 as stated fails: a client that calls `Close()` and, after it returned
`nil`, `Write([0x41])` ends in the panic "send on closed channel" instead of
returning from `Write`; a client that calls `Close()` twice ends in the panic
"close of closed channel". -/
theorem Write_or_Close_after_Close_panics :
    (run (fun _ (u : Unit) => (u, none))
        (Sys.start () [scriptSteps [Op.close, Op.write [0x41]]])
        [Action.client 0, Action.stop, Action.closeBuffer, Action.exit, Action.client 0,
         Action.client 0, Action.client 0]).map (fun s => (s.returns, s.crashed))
      = some ([(0, Ret.close none)], some "send on closed channel")
    ∧ (run (fun _ (u : Unit) => (u, none))
        (Sys.start () [scriptSteps [Op.close, Op.close]])
        [Action.client 0, Action.stop, Action.closeBuffer, Action.exit, Action.client 0,
         Action.client 0]).map (fun s => (s.returns, s.crashed))
      = some ([(0, Ret.close none)], some "close of closed channel") :=
  ⟨rfl, rfl⟩


/-! ## The clock set up by `New` -/

theorem New_natCast (n : Nat) (h1 : 1 ≤ n) (h2 : n ≤ 500000000) :
    New (n : ℚ)
      = Outcome.done { bitPeriod := ((1000000000 / n : Nat) : Int),
                       halfBitPeriod := ((1000000000 / n / 2 : Nat) : Int) } := by
  have hd : toDuration (n : ℚ) = (n : Int) := by
    unfold toDuration
    rw [Rat.num_natCast, Rat.den_natCast]
    exact Int.tdiv_one _
  have hn : ((n : Int) = 0) = False := by
    simp only [eq_iff_iff, iff_false]
    omega
  have hbit : Second.tdiv (n : Int) = ((1000000000 / n : Nat) : Int) :=
    (Int.ofNat_tdiv 1000000000 n).symm
  have hhalf : (((1000000000 / n : Nat) : Int)).tdiv 2 = ((1000000000 / n / 2 : Nat) : Int) :=
    (Int.ofNat_tdiv (1000000000 / n) 2).symm
  have hq : 2 ≤ 1000000000 / n := by
    rw [Nat.le_div_iff_mul_le (by omega)]
    omega
  have hpos : ¬ (((1000000000 / n / 2 : Nat) : Int) ≤ 0) := by
    have : 1 ≤ 1000000000 / n / 2 := by omega
    omega
  unfold New goDiv
  rw [hd]
  simp only [hn, if_false, hbit, hhalf, NewTicker, hpos]

/-- C10 (as amended): for every whole-number carrier frequency `f` with
`1 <= f <= 500000000` Hz, `New` sets `bitPeriod` to `1s / f` and the ticker
period to `bitPeriod / 2`, both in whole nanoseconds with the remainder
dropped; the ticker period is exactly `1/(2*f)` seconds whenever `2*f` divides
the 1000000000 nanoseconds of a second; `f = 1000` gives a bit period of 1 ms
and a half-bit period of 0.5 ms. -/
theorem New_half_bit_period (n : Nat) (h1 : 1 ≤ n) (h2 : n ≤ 500000000) :
    New (n : ℚ)
        = Outcome.done { bitPeriod := ((1000000000 / n : Nat) : Int),
                         halfBitPeriod := ((1000000000 / n / 2 : Nat) : Int) }
    ∧ (2 * n ∣ 1000000000 → (1000000000 / n / 2) * (2 * n) = 1000000000)
    ∧ New 1000 = Outcome.done { bitPeriod := 1000000, halfBitPeriod := 500000 } := by
  refine ⟨New_natCast n h1 h2, ?_, ?_⟩
  · intro hdvd
    rw [Nat.div_div_eq_div_mul, Nat.mul_comm n 2]
    exact Nat.div_mul_cancel hdvd
  · exact New_natCast 1000 (by decide) (by decide)

/-- Witness of C10 at 50 Hz, the example of the source: a bit period of 20 ms
and a half-bit period of 10 ms. -/
theorem New_half_bit_period_witness :
    New ((50 : Nat) : ℚ)
      = Outcome.done { bitPeriod := ((1000000000 / 50 : Nat) : Int),
                       halfBitPeriod := ((1000000000 / 50 / 2 : Nat) : Int) } :=
  (New_half_bit_period 50 (by decide) (by decide)).1

/-- C10 as stated fails: at 3 Hz `New` sets a bit period of 333333333 ns and a
ticker period of 166666666 ns, and 166666666 ns times `2*3` is not one second,
so the period is not `1/(2*f)` seconds; at 2.5 Hz (the rational `5/2`) the
fraction of the frequency is dropped and the ticker period is 250000000 ns
where `1/(2*f)` seconds are 200000000 ns. -/
theorem New_period_not_exact :
    New 3 = Outcome.done { bitPeriod := 333333333, halfBitPeriod := 166666666 }
    ∧ (166666666 : Int) * (2 * 3) ≠ Second
    ∧ New (Rat.mk' 5 2) = Outcome.done { bitPeriod := 500000000, halfBitPeriod := 250000000 }
    ∧ (250000000 : Int) * 5 ≠ Second := by
  refine ⟨?_, ?_, ?_, ?_⟩
  · exact New_natCast 3 (by decide) (by decide)
  · decide
  · rfl
  · decide

/-- For a frequency that is not negative the conversion `time.Duration(f)` is
the floor of `f`. -/
theorem toDuration_floor (f : ℚ) (h : 0 ≤ f) : toDuration f = ⌊f⌋ := by
  unfold toDuration
  rw [Rat.floor_def]
  exact Int.tdiv_eq_ediv (Rat.num_nonneg.2 h) (by positivity)

/-- `New` reads the frequency only through `time.Duration(f)`. -/
theorem New_congr (f g : ℚ) (h : toDuration f = toDuration g) : New f = New g := by
  unfold New
  rw [h]

theorem toDuration_natCast (n : Nat) : toDuration (n : ℚ) = (n : Int) := by
  unfold toDuration
  rw [Rat.num_natCast, Rat.den_natCast]
  exact Int.tdiv_one _

/-- C29 (as amended): for every carrier frequency `f` with
`1 <= f < 500000001`, `New(f, setValue)` completes without a runtime failure:
the divisor `time.Duration(f)` is not zero and the half-bit ticker period is
strictly positive. -/
theorem New_completes (f : ℚ) (h1 : 1 ≤ f) (h2 : f < 500000001) :
    toDuration f ≠ 0
    ∧ ∃ t, New f = Outcome.done t ∧ 0 < t.halfBitPeriod := by
  have h0 : (0 : ℚ) ≤ f := le_trans (by norm_num) h1
  have hfl := toDuration_floor f h0
  have hlo : (1 : Int) ≤ ⌊f⌋ := Int.le_floor.2 (by exact_mod_cast h1)
  have hhi : ⌊f⌋ < 500000001 := Int.floor_lt.2 (by exact_mod_cast h2)
  obtain ⟨n, hn⟩ := Int.eq_ofNat_of_zero_le (show (0 : Int) ≤ ⌊f⌋ by omega)
  have hn1 : 1 ≤ n := by omega
  have hn2 : n ≤ 500000000 := by omega
  refine ⟨by omega, ?_⟩
  have hc : New f = New (n : ℚ) := New_congr f n (by rw [hfl, hn, toDuration_natCast])
  rw [hc, New_natCast n hn1 hn2]
  refine ⟨_, rfl, ?_⟩
  show (0 : Int) < ((1000000000 / n / 2 : Nat) : Int)
  have hq : 2 ≤ 1000000000 / n := by
    rw [Nat.le_div_iff_mul_le (by omega)]
    omega
  have : 1 ≤ 1000000000 / n / 2 := by omega
  omega

/-- Witness of C29 at 50 Hz, the example of the source. -/
theorem New_completes_witness :
    toDuration 50 ≠ 0 ∧ ∃ t, New 50 = Outcome.done t ∧ 0 < t.halfBitPeriod :=
  New_completes 50 (by norm_num) (by norm_num)

/-- C29 as stated fails: at the carrier frequency 0.5 Hz the divisor
`time.Duration(0.5)` is zero and `New` panics on the division, and at 1 GHz
the bit period is 1 ns, the ticker period `1 / 2` is zero and
`time.NewTicker` panics. -/
theorem New_panics_below_one_hertz :
    0 < Rat.mk' 1 2
    ∧ toDuration (Rat.mk' 1 2) = 0
    ∧ New (Rat.mk' 1 2) = Outcome.panicked "integer divide by zero"
    ∧ New (Rat.mk' 1000000000 1)
        = Outcome.panicked "non-positive interval for NewTicker" := by
  refine ⟨by decide, rfl, rfl, rfl⟩

end Manchester

/-! ## Claims on the tolerance classifier -/

namespace Decoder

theorem withinTolerance_iff (v r tol : Int) :
    withinTolerance v r tol = true ↔ r - tol ≤ v ∧ v ≤ r + tol := by
  unfold withinTolerance
  rw [decide_eq_true_iff, abs_le]
  constructor <;> intro h <;> constructor <;> omega

/-- C11: for all durations `v`, `r` and `tol >= 0`, `withinTolerance(v, r, tol)`
is true exactly when `r - tol <= v <= r + tol`; both bounds are within
tolerance and one nanosecond beyond either bound is outside. The rows of
`TestWithinTolerance` come out as the test expects. -/
theorem withinTolerance_inclusive_bounds (v r tol : Int) (htol : 0 ≤ tol) :
    (withinTolerance v r tol = true ↔ r - tol ≤ v ∧ v ≤ r + tol)
    ∧ withinTolerance (r - tol) r tol = true
    ∧ withinTolerance (r + tol) r tol = true
    ∧ withinTolerance (r - tol - 1) r tol = false
    ∧ withinTolerance (r + tol + 1) r tol = false
    ∧ withinTolerance (100 * Millisecond) (100 * Millisecond) (10 * Millisecond) = true
    ∧ withinTolerance (105 * Millisecond) (100 * Millisecond) (10 * Millisecond) = true
    ∧ withinTolerance (95 * Millisecond) (100 * Millisecond) (10 * Millisecond) = true
    ∧ withinTolerance (111 * Millisecond) (100 * Millisecond) (10 * Millisecond) = false
    ∧ withinTolerance (89 * Millisecond) (100 * Millisecond) (10 * Millisecond) = false
    ∧ withinTolerance (50 * Millisecond) (100 * Millisecond) (10 * Millisecond) = false := by
  refine ⟨withinTolerance_iff v r tol, ?_, ?_, ?_, ?_, ?_, ?_, ?_, ?_, ?_, ?_⟩
  · rw [withinTolerance_iff]; constructor <;> omega
  · rw [withinTolerance_iff]; constructor <;> omega
  · rw [Bool.eq_false_iff, Ne, withinTolerance_iff]; omega
  · rw [Bool.eq_false_iff, Ne, withinTolerance_iff]; omega
  · rw [withinTolerance_iff]; decide
  · rw [withinTolerance_iff]; decide
  · rw [withinTolerance_iff]; decide
  · rw [Bool.eq_false_iff, Ne, withinTolerance_iff]; decide
  · rw [Bool.eq_false_iff, Ne, withinTolerance_iff]; decide
  · rw [Bool.eq_false_iff, Ne, withinTolerance_iff]; decide

/-- Witness of C11 at a reference of 100 ms with a tolerance of 10 ms. -/
theorem withinTolerance_inclusive_bounds_witness :
    withinTolerance (100 * Millisecond - 10 * Millisecond) (100 * Millisecond)
        (10 * Millisecond) = true
    ∧ withinTolerance (100 * Millisecond + 10 * Millisecond + 1) (100 * Millisecond)
        (10 * Millisecond) = false :=
  ⟨(withinTolerance_inclusive_bounds 0 (100 * Millisecond) (10 * Millisecond) (by decide)).2.1,
   (withinTolerance_inclusive_bounds 0 (100 * Millisecond) (10 * Millisecond)
      (by decide)).2.2.2.2.1⟩

end Decoder

/-! ## Claims on records -/

namespace KeyValue

/-! ## Sorting the keys -/

theorem leChars_total (a b : List Char) : leChars a b = true ∨ leChars b a = true := by
  induction a generalizing b with
  | nil => exact Or.inl rfl
  | cons x xs ih =>
    cases b with
    | nil => exact Or.inr rfl
    | cons y ys =>
      simp only [leChars]
      by_cases h1 : x.toNat < y.toNat
      · simp [h1]
      · by_cases h2 : y.toNat < x.toNat
        · simp [h2]
        · simp only [h1, h2, if_false]
          exact ih ys

theorem leChars_trans (a b c : List Char) (hab : leChars a b = true)
    (hbc : leChars b c = true) : leChars a c = true := by
  induction a generalizing b c with
  | nil => rfl
  | cons x xs ih =>
    cases b with
    | nil => simp [leChars] at hab
    | cons y ys =>
      cases c with
      | nil => simp [leChars] at hbc
      | cons z zs =>
        simp only [leChars] at hab hbc ⊢
        by_cases h1 : x.toNat < y.toNat
        · by_cases h2 : y.toNat < z.toNat
          · have : x.toNat < z.toNat := by omega
            simp [this]
          · by_cases h3 : z.toNat < y.toNat
            · simp [h2, h3] at hbc
            · have : x.toNat < z.toNat := by omega
              simp [this]
        · by_cases h1b : y.toNat < x.toNat
          · simp [h1, h1b] at hab
          · simp only [h1, h1b, if_false] at hab
            by_cases h2 : y.toNat < z.toNat
            · have : x.toNat < z.toNat := by omega
              simp [this]
            · by_cases h3 : z.toNat < y.toNat
              · simp [h2, h3] at hbc
              · simp only [h2, h3, if_false] at hbc
                have e1 : ¬ x.toNat < z.toNat := by omega
                have e2 : ¬ z.toNat < x.toNat := by omega
                simp only [e1, e2, if_false]
                exact ih ys zs hab hbc

theorem char_eq_of_toNat (x y : Char) (h1 : ¬ x.toNat < y.toNat) (h2 : ¬ y.toNat < x.toNat) :
    x = y := by
  have h : x.toNat = y.toNat := by omega
  apply Char.ext
  apply UInt32.ext
  exact h

theorem leChars_antisymm (a b : List Char) (hab : leChars a b = true)
    (hba : leChars b a = true) : a = b := by
  induction a generalizing b with
  | nil =>
    cases b with
    | nil => rfl
    | cons y ys => simp [leChars] at hba
  | cons x xs ih =>
    cases b with
    | nil => simp [leChars] at hab
    | cons y ys =>
      simp only [leChars] at hab hba
      by_cases h1 : x.toNat < y.toNat
      · have h2 : ¬ y.toNat < x.toNat := by omega
        simp [h1, h2] at hba
      · by_cases h2 : y.toNat < x.toNat
        · simp [h1, h2] at hab
        · simp only [h1, h2, if_false] at hab hba
          rw [char_eq_of_toNat x y h1 h2, ih ys hab hba]

theorem strLe_total (a b : String) : strLe a b = true ∨ strLe b a = true :=
  leChars_total a.data b.data

theorem strLe_trans (a b c : String) (hab : strLe a b = true) (hbc : strLe b c = true) :
    strLe a c = true :=
  leChars_trans a.data b.data c.data hab hbc

theorem strLe_antisymm (a b : String) (hab : strLe a b = true) (hba : strLe b a = true) :
    a = b :=
  String.ext (leChars_antisymm a.data b.data hab hba)

theorem sortStrings_sorted (keys : List String) :
    List.Sorted (fun a b => strLe a b = true) (sortStrings keys) :=
  @List.sorted_insertionSort String (fun a b => strLe a b = true) _ ⟨strLe_total⟩
    ⟨strLe_trans⟩ keys

theorem sortStrings_perm (keys : List String) : (sortStrings keys).Perm keys :=
  List.perm_insertionSort _ keys

theorem fill_keys (ks pre suf : List String) (h : suf.length = ks.length) :
    (ks.foldl (fun (acc : List String × Nat) k => (acc.1.set acc.2 k, acc.2 + 1))
        (pre ++ suf, pre.length)).1 = pre ++ ks := by
  induction ks generalizing pre suf with
  | nil =>
    cases suf with
    | nil => rfl
    | cons x xs => simp at h
  | cons k ks ih =>
    cases suf with
    | nil => simp at h
    | cons x xs =>
      simp only [List.foldl_cons]
      have hset : (pre ++ x :: xs).set pre.length k = (pre ++ [k]) ++ xs := by
        simp
      have hlen : pre.length + 1 = (pre ++ [k]).length := by simp
      rw [hset, hlen, ih (pre ++ [k]) xs (by simpa using h)]
      simp

theorem GetSortedKeys_eq (r : Record) : r.GetSortedKeys = sortStrings r.keys := by
  unfold Record.GetSortedKeys
  have h := fill_keys r.keys [] (List.replicate r.entries.length "")
    (by simp [AList.keys, List.keys])
  simp only [List.nil_append, List.length_nil] at h
  rw [h]

/-- C17: for every record `r`, `GetSortedKeys` returns a slice of length
`len(r)` that holds every key of `r` exactly once and nothing else, in
ascending lexicographic order (strictly ascending, the keys being distinct);
the result does not depend on the order in which `range` visits the map; for
the empty record it is empty; and the record of `TestRecord_GetSortedKeys`
gives `"+", "123", "9", "a"`. -/
theorem GetSortedKeys_sorted_keys (r : Record) :
    r.GetSortedKeys.length = r.entries.length
    ∧ r.GetSortedKeys.Perm r.keys
    ∧ r.GetSortedKeys.Nodup
    ∧ (∀ k, k ∈ r.GetSortedKeys ↔ k ∈ r)
    ∧ (∀ k, k ∈ r → r.GetSortedKeys.count k = 1)
    ∧ List.Sorted (fun a b => strLe a b = true) r.GetSortedKeys
    ∧ List.Pairwise (fun a b => strLe a b = true ∧ a ≠ b) r.GetSortedKeys
    ∧ (∀ r2 : Record, r2.entries.Perm r.entries → r2.GetSortedKeys = r.GetSortedKeys)
    ∧ (∅ : Record).GetSortedKeys = []
    ∧ Record.GetSortedKeys (AList.insert "9" (Value.int 1) (AList.insert "a" (Value.int 1)
        (AList.insert "123" (Value.int 1) (AList.singleton "+" (Value.int 1)))))
        = ["+", "123", "9", "a"] := by
  have hperm : r.GetSortedKeys.Perm r.keys := by
    rw [GetSortedKeys_eq]
    exact sortStrings_perm _
  have hnodup : r.GetSortedKeys.Nodup := hperm.nodup_iff.2 r.keys_nodup
  have hsorted : List.Sorted (fun a b => strLe a b = true) r.GetSortedKeys := by
    rw [GetSortedKeys_eq]
    exact sortStrings_sorted _
  have hmem : ∀ k, k ∈ r.GetSortedKeys ↔ k ∈ r := by
    intro k
    rw [hperm.mem_iff]
    exact AList.mem_keys
  refine ⟨?_, hperm, hnodup, hmem, ?_, hsorted, ?_, ?_, ?_, ?_⟩
  · rw [hperm.length_eq]
    simp [AList.keys, List.keys]
  · intro k hk
    exact List.count_eq_one_of_mem hnodup ((hmem k).2 hk)
  · exact List.Pairwise.and hsorted hnodup
  · intro r2 h2
    rw [GetSortedKeys_eq, GetSortedKeys_eq]
    have hk : r2.keys.Perm r.keys := by
      unfold AList.keys List.keys
      exact h2.map _
    exact @List.eq_of_perm_of_sorted String (fun a b => strLe a b = true)
      ⟨strLe_antisymm⟩ _ _
      (((sortStrings_perm r2.keys).trans hk).trans (sortStrings_perm r.keys).symm)
      (sortStrings_sorted _) (sortStrings_sorted _)
  · rfl
  · decide

/-! ## The getters -/

theorem strict_of (convert : Convert)
    (h : convert = [] ∨ ∃ rest, convert = false :: rest) : strict convert = true := by
  rcases h with h | ⟨rest, h⟩ <;> subst h <;> rfl

theorem index_missing (r : Record) (key : String) (h : key ∉ r) : index r key = Value.other := by
  unfold index
  rw [AList.lookup_eq_none.2 h]
  rfl

/-- C13: strict mode never converts. For every record and key, with `convert`
omitted or `false`: `Bool`, `Int`, `Float64` and `String` return the stored
value when its dynamic type is `bool`, `int`, `float64` or `string`
respectively and the zero value otherwise; `Int64` returns the stored value
when it is an `int64` or an `int` and 0 otherwise; for a key that is not in
the record each returns its zero value. -/
theorem strict_mode_never_converts (lib : Lib) (r : Record) (key : String) (convert : Convert)
    (hstrict : convert = [] ∨ ∃ rest, convert = false :: rest) :
    (∀ b, index r key = Value.bool b → r.Bool lib key convert = b)
    ∧ ((∀ b, index r key ≠ Value.bool b) → r.Bool lib key convert = false)
    ∧ (∀ i, index r key = Value.int i → r.Int lib key convert = i)
    ∧ ((∀ i, index r key ≠ Value.int i) → r.Int lib key convert = 0)
    ∧ (∀ f, index r key = Value.float64 f → r.Float64 lib key convert = f)
    ∧ ((∀ f, index r key ≠ Value.float64 f) → r.Float64 lib key convert = F64.finite 0)
    ∧ (∀ s, index r key = Value.string s → r.String key convert = s)
    ∧ ((∀ s, index r key ≠ Value.string s) → r.String key convert = "")
    ∧ (∀ i, index r key = Value.int64 i → r.Int64 lib key convert = i)
    ∧ (∀ i, index r key = Value.int i → r.Int64 lib key convert = i)
    ∧ ((∀ i, index r key ≠ Value.int64 i ∧ index r key ≠ Value.int i) →
        r.Int64 lib key convert = 0)
    ∧ (key ∉ r → r.Bool lib key convert = false ∧ r.Int lib key convert = 0
        ∧ r.Int64 lib key convert = 0 ∧ r.Float64 lib key convert = F64.finite 0
        ∧ r.String key convert = "") := by
  have hs := strict_of convert hstrict
  refine ⟨?_, ?_, ?_, ?_, ?_, ?_, ?_, ?_, ?_, ?_, ?_, ?_⟩
  · intro b h
    simp [Record.Bool, hs, h]
  · intro h
    unfold Record.Bool
    cases hv : index r key <;> simp [hs]
    exact absurd hv (h _)
  · intro i h
    simp [Record.Int, hs, h]
  · intro h
    unfold Record.Int
    cases hv : index r key <;> simp [hs]
    exact absurd hv (h _)
  · intro f h
    simp [Record.Float64, hs, h]
  · intro h
    unfold Record.Float64
    cases hv : index r key <;> simp [hs]
    exact absurd hv (h _)
  · intro s h
    simp [Record.String, hs, h]
  · intro h
    unfold Record.String
    cases hv : index r key <;> simp [hs]
    exact absurd hv (h _)
  · intro i h
    simp [Record.Int64, hs, h]
  · intro i h
    simp [Record.Int64, hs, h]
  · intro h
    unfold Record.Int64
    cases hv : index r key <;> simp [hs]
    · exact absurd hv (h _).2
    · exact absurd hv (h _).1
  · intro h
    have hv := index_missing r key h
    simp [Record.Bool, Record.Int, Record.Int64, Record.Float64, Record.String, hs, hv]

theorem digitVal_digitChar (d : Nat) (h : d < 10) : digitVal (digitChar d) = some d := by
  interval_cases d <;> rfl

theorem digitVal_some (c : Char) (d : Nat) (h : digitVal c = some d) :
    d < 10 ∧ c = digitChar d := by
  unfold digitVal at h
  split_ifs at h with h0 h1 h2 h3 h4 h5 h6 h7 h8 h9 <;>
    (cases h; subst_vars; exact ⟨by decide, rfl⟩)

theorem digitsVal_digits (ds : List Nat) (acc : Nat) (h : ∀ d ∈ ds, d < 10) :
    digitsVal (ds.map digitChar) acc = some (ds.foldl (fun a d => a * 10 + d) acc) := by
  induction ds generalizing acc with
  | nil => rfl
  | cons d ds ih =>
    simp only [List.map_cons, digitsVal, digitVal_digitChar d (h d (List.mem_cons_self _ _)),
      List.foldl_cons]
    exact ih _ (fun e he => h e (List.mem_cons_of_mem _ he))

theorem digitsVal_some (cs : List Char) (acc n : Nat) (h : digitsVal cs acc = some n) :
    ∃ ds : List Nat, (∀ d ∈ ds, d < 10) ∧ cs = ds.map digitChar
      ∧ n = ds.foldl (fun a d => a * 10 + d) acc := by
  induction cs generalizing acc with
  | nil =>
    simp only [digitsVal, Option.some.injEq] at h
    exact ⟨[], by simp, rfl, h.symm⟩
  | cons c cs ih =>
    simp only [digitsVal] at h
    cases hd : digitVal c with
    | none => simp [hd] at h
    | some d =>
      rw [hd] at h
      obtain ⟨hlt, hc⟩ := digitVal_some c d hd
      obtain ⟨ds, hds, hcs, hn⟩ := ih _ h
      refine ⟨d :: ds, ?_, ?_, ?_⟩
      · intro e he
        rcases List.mem_cons.1 he with he | he
        · exact he ▸ hlt
        · exact hds e he
      · rw [List.map_cons, ← hc, ← hcs]
      · exact hn

theorem denotedInt_digits (ds : List Nat) (hne : ds ≠ []) (h : ∀ d ∈ ds, d < 10) :
    denotedInt (decimalText [] ds) = some (decimalValue ds)
    ∧ denotedInt (decimalText ['+'] ds) = some (decimalValue ds)
    ∧ denotedInt (decimalText ['-'] ds) = some (-(decimalValue ds : Int)) := by
  have hv := digitsVal_digits ds 0 h
  have hmap : ds.map digitChar ≠ [] := by
    intro hx
    exact hne (List.map_eq_nil_iff.1 hx)
  refine ⟨?_, ?_, ?_⟩
  · cases ds with
    | nil => exact absurd rfl hne
    | cons d rest =>
      have hd := h d (List.mem_cons_self _ _)
      have hplus : digitChar d ≠ '+' := by interval_cases d <;> decide
      have hminus : digitChar d ≠ '-' := by interval_cases d <;> decide
      simp only [denotedInt, decimalText, List.nil_append, List.map_cons, hplus, hminus,
        if_false]
      rw [← List.map_cons, hv]
      rfl
  · simp only [denotedInt, decimalText, List.singleton_append, if_true, hmap, if_false, hv]
    rfl
  · have hne2 : ('-' : Char) ≠ '+' := by decide
    simp only [denotedInt, decimalText, List.singleton_append, hne2, if_true, hmap,
      if_false, hv]
    rfl

theorem map_cast_some (o : Option Nat) (f : Nat → Int) (v : Int) (h : o.map f = some v) :
    ∃ n, o = some n ∧ f n = v := by
  cases o with
  | none => cases h
  | some n => exact ⟨n, rfl, Option.some.inj h⟩

theorem denotedInt_some (s : String) (v : Int) (h : denotedInt s = some v) :
    ∃ ds : List Nat, ds ≠ [] ∧ (∀ d ∈ ds, d < 10)
      ∧ ((s = decimalText [] ds ∧ v = decimalValue ds)
        ∨ (s = decimalText ['+'] ds ∧ v = decimalValue ds)
        ∨ (s = decimalText ['-'] ds ∧ v = -(decimalValue ds : Int))) := by
  unfold denotedInt at h
  cases hs : s.data with
  | nil => simp [hs] at h
  | cons c rest =>
    rw [hs] at h
    simp only at h
    by_cases hp : c = '+'
    · rw [if_pos hp] at h
      by_cases hr : rest = []
      · rw [if_pos hr] at h
        cases h
      · rw [if_neg hr] at h
        obtain ⟨n, hn, hv⟩ := map_cast_some _ _ _ h
        obtain ⟨ds, hds, hcs, hval⟩ := digitsVal_some rest 0 n hn
        refine ⟨ds, ?_, hds, Or.inr (Or.inl ⟨?_, ?_⟩)⟩
        · intro hx
          rw [hx] at hcs
          exact hr hcs
        · apply String.ext
          rw [hs, hp, hcs]
          rfl
        · rw [← hv, hval]
          rfl
    · rw [if_neg hp] at h
      by_cases hm : c = '-'
      · rw [if_pos hm] at h
        by_cases hr : rest = []
        · rw [if_pos hr] at h
          cases h
        · rw [if_neg hr] at h
          obtain ⟨n, hn, hv⟩ := map_cast_some _ _ _ h
          obtain ⟨ds, hds, hcs, hval⟩ := digitsVal_some rest 0 n hn
          refine ⟨ds, ?_, hds, Or.inr (Or.inr ⟨?_, ?_⟩)⟩
          · intro hx
            rw [hx] at hcs
            exact hr hcs
          · apply String.ext
            rw [hs, hm, hcs]
            rfl
          · rw [← hv, hval]
            rfl
      · rw [if_neg hm] at h
        obtain ⟨n, hn, hv⟩ := map_cast_some _ _ _ h
        obtain ⟨ds, hds, hcs, hval⟩ := digitsVal_some (c :: rest) 0 n hn
        refine ⟨ds, ?_, hds, Or.inl ⟨?_, ?_⟩⟩
        · intro hx
          rw [hx] at hcs
          cases hcs
        · apply String.ext
          rw [hs, hcs]
          rfl
        · rw [← hv, hval]
          rfl

theorem tdiv_is_truncation (f : ℚ) : f.num.tdiv f.den = if 0 ≤ f then ⌊f⌋ else ⌈f⌉ := by
  by_cases h : 0 ≤ f
  · rw [if_pos h, Rat.floor_def]
    exact Int.tdiv_eq_ediv (Rat.num_nonneg.2 h) (by positivity)
  · rw [if_neg h]
    have hneg : 0 ≤ -f := by linarith
    have h1 : ⌈f⌉ = -⌊-f⌋ := by rw [Int.floor_neg, neg_neg]
    rw [h1, Rat.floor_def, Rat.neg_num, Rat.neg_den]
    have hn : 0 ≤ -f.num := by
      have := Rat.num_nonneg.2 hneg
      rwa [Rat.neg_num] at this
    rw [← Int.tdiv_eq_ediv hn (by positivity), Int.neg_tdiv, neg_neg]

theorem truncFloat_in_range (lib : Lib) (f : ℚ) (h1 : minInt64 ≤ f.num.tdiv f.den)
    (h2 : f.num.tdiv f.den ≤ maxInt64) :
    truncFloat lib (F64.finite f) = f.num.tdiv f.den := by
  show (if minInt64 ≤ f.num.tdiv f.den ∧ f.num.tdiv f.den ≤ maxInt64 then f.num.tdiv f.den
    else lib.intOfBigFloat (F64.finite f)) = f.num.tdiv f.den
  rw [if_pos ⟨h1, h2⟩]

/-- A `float64` compares equal to 1.0 exactly when it is 1.0. -/
theorem F64_eq_one (f : F64) : F64.eq f (F64.finite 1) = true ↔ f = F64.finite 1 := by
  cases f <;> simp [F64.eq]

theorem Int_eq_Int64 (lib : Lib) (r : Record) (key : String) (rest : Convert) :
    r.Int lib key (true :: rest) = r.Int64 lib key (true :: rest) := by
  unfold Record.Int Record.Int64 Atoi
  cases index r key <;> simp [strict]

/-- C14: what `Bool` does with `convert = true`. It returns the stored `bool`;
for an `int` it returns whether it is 1; for a `float64` whether it is 1.0;
for a string it returns `true` for "true", `false` for "false", and otherwise
whether `ParseFloat` accepts it with the value 1; for any other value and for
a missing key it returns `false`. For an `int64` it returns `false` whatever
the value, also for `int64(1)`, where the claim has `true`: the comparison
`i == 1` is made on interface values and the constant 1 is an `int`. -/
theorem Bool_convert_int64_one (lib : Lib) (r : Record) (key : String) (rest : Convert) :
    (∀ b, index r key = Value.bool b → r.Bool lib key (true :: rest) = b)
    ∧ (∀ i, index r key = Value.int i → (r.Bool lib key (true :: rest) = true ↔ i = 1))
    ∧ (∀ i, index r key = Value.int64 i → r.Bool lib key (true :: rest) = false)
    ∧ (∀ f, index r key = Value.float64 f →
        (r.Bool lib key (true :: rest) = true ↔ f = F64.finite 1))
    ∧ (∀ s, index r key = Value.string s →
        (r.Bool lib key (true :: rest) = true
          ↔ s = "true" ∨ (s ≠ "false" ∧ lib.ParseFloat s = some (F64.finite 1))))
    ∧ (index r key = Value.other → r.Bool lib key (true :: rest) = false)
    ∧ (key ∉ r → r.Bool lib key (true :: rest) = false)
    ∧ Record.Bool lib (AList.singleton "k" (Value.int64 1)) "k" [true] = false
    ∧ Record.Bool lib (AList.singleton "k" (Value.int 1)) "k" [true] = true := by
  refine ⟨?_, ?_, ?_, ?_, ?_, ?_, ?_, ?_, ?_⟩
  · intro b h
    simp [Record.Bool, strict, h]
  · intro i h
    simp [Record.Bool, strict, h, ifaceEq]
  · intro i h
    simp [Record.Bool, strict, h, ifaceEq]
  · intro f h
    simp [Record.Bool, strict, h, F64_eq_one]
  · intro s h
    simp only [Record.Bool, strict, h, Bool.not_true, Bool.false_eq_true, if_false]
    by_cases h1 : s = "true"
    · simp [h1]
    · by_cases h2 : s = "false"
      · simp [h2]
      · simp only [h1, h2, if_false, false_or, ne_eq, not_false_eq_true, true_and]
        cases hp : lib.ParseFloat s with
        | none => simp
        | some v => simp [F64_eq_one]
  · intro h
    simp [Record.Bool, strict, h]
  · intro h
    simp [Record.Bool, strict, index_missing r key h]
  · rfl
  · rfl

/-- C15 (as amended): what `Int64` returns with `convert = true`, and `Int`
returns the same. The value itself for an `int` or `int64`; a `float64` whose
integer part lies in the `int64` range truncated toward zero (3.14 gives 3,
-1.0 gives -1, 0.1 gives 0); for a string that denotes a base-10 integer with
optional sign whose value lies in the `int64` range that integer
("+4306644447701" gives 4306644447701), and 0 for a string that denotes no
base-10 integer or one outside the `int64` range; 1 for `true` and 0 for
`false`; 0 for any other value and for a missing key. A string denotes an
integer exactly when it is an optional `+` or `-` followed by one or more
decimal digits, and then it denotes the number the digits write. -/
theorem Int64_convert_values (lib : Lib) (r : Record) (key : String) (rest : Convert) :
    (∀ i, index r key = Value.int i → r.Int64 lib key (true :: rest) = i)
    ∧ (∀ i, index r key = Value.int64 i → r.Int64 lib key (true :: rest) = i)
    ∧ (∀ f : ℚ, index r key = Value.float64 (F64.finite f) → minInt64 ≤ f.num.tdiv f.den →
        f.num.tdiv f.den ≤ maxInt64 →
        r.Int64 lib key (true :: rest) = (if 0 ≤ f then ⌊f⌋ else ⌈f⌉))
    ∧ (index r key = Value.float64 F64.negZero → r.Int64 lib key (true :: rest) = 0)
    ∧ (∀ s v, index r key = Value.string s → denotedInt s = some v → minInt64 ≤ v →
        v ≤ maxInt64 → r.Int64 lib key (true :: rest) = v)
    ∧ (∀ s, index r key = Value.string s → denotedInt s = none →
        r.Int64 lib key (true :: rest) = 0)
    ∧ (∀ s v, index r key = Value.string s → denotedInt s = some v →
        (v < minInt64 ∨ maxInt64 < v) → r.Int64 lib key (true :: rest) = 0)
    ∧ (index r key = Value.bool true → r.Int64 lib key (true :: rest) = 1)
    ∧ (index r key = Value.bool false → r.Int64 lib key (true :: rest) = 0)
    ∧ (index r key = Value.other → r.Int64 lib key (true :: rest) = 0)
    ∧ (key ∉ r → r.Int64 lib key (true :: rest) = 0)
    ∧ r.Int lib key (true :: rest) = r.Int64 lib key (true :: rest)
    ∧ (∀ ds : List Nat, ds ≠ [] → (∀ d ∈ ds, d < 10) →
        denotedInt (decimalText [] ds) = some (decimalValue ds)
        ∧ denotedInt (decimalText ['+'] ds) = some (decimalValue ds)
        ∧ denotedInt (decimalText ['-'] ds) = some (-(decimalValue ds : Int)))
    ∧ (∀ s v, denotedInt s = some v →
        ∃ ds : List Nat, ds ≠ [] ∧ (∀ d ∈ ds, d < 10)
          ∧ ((s = decimalText [] ds ∧ v = decimalValue ds)
            ∨ (s = decimalText ['+'] ds ∧ v = decimalValue ds)
            ∨ (s = decimalText ['-'] ds ∧ v = -(decimalValue ds : Int))))
    ∧ Record.Int64 lib (AList.singleton "k" (Value.float64 (F64.finite float3_14))) "k" [true] = 3
    ∧ Record.Int64 lib (AList.singleton "k" (Value.float64 (F64.finite (-1)))) "k" [true] = -1
    ∧ Record.Int64 lib (AList.singleton "k" (Value.float64 (F64.finite float0_1))) "k" [true] = 0
    ∧ Record.Int64 lib (AList.singleton "k" (Value.string "+4306644447701")) "k" [true]
        = 4306644447701 := by
  refine ⟨?_, ?_, ?_, ?_, ?_, ?_, ?_, ?_, ?_, ?_, ?_, Int_eq_Int64 lib r key rest,
    denotedInt_digits, denotedInt_some, ?_, ?_, ?_, ?_⟩
  · intro i h
    simp [Record.Int64, strict, h]
  · intro i h
    simp [Record.Int64, strict, h]
  · intro f h h1 h2
    simp only [Record.Int64, strict, h, Bool.not_true, Bool.false_eq_true, if_false]
    rw [truncFloat_in_range lib f h1 h2, tdiv_is_truncation]
  · intro h
    simp [Record.Int64, strict, h, truncFloat]
  · intro s v h hv h1 h2
    simp [Record.Int64, strict, h, ParseInt, hv, h1, h2]
  · intro s h hv
    simp [Record.Int64, strict, h, ParseInt, hv]
  · intro s v h hv hout
    have hno : ¬ (minInt64 ≤ v ∧ v ≤ maxInt64) := by
      rintro ⟨h1, h2⟩
      rcases hout with hout | hout <;> omega
    simp [Record.Int64, strict, h, ParseInt, hv, hno]
  · intro h
    simp [Record.Int64, strict, h]
  · intro h
    simp [Record.Int64, strict, h]
  · intro h
    simp [Record.Int64, strict, h]
  · intro h
    simp [Record.Int64, strict, index_missing r key h]
  · rfl
  · rfl
  · rfl
  · rfl

/-- C15 as stated fails: the string "9223372036854775808" denotes a base-10
integer, 2^63, and `Int64` with `convert = true` returns 0 for it, not that
integer, because `ParseInt` reports a range error. -/
theorem Int64_string_beyond_int64 :
    denotedInt "9223372036854775808" = some 9223372036854775808
    ∧ Record.Int64 stubLib (AList.singleton "k" (Value.string "9223372036854775808")) "k"
        [true] = 0
    ∧ Record.Int stubLib (AList.singleton "k" (Value.string "9223372036854775808")) "k"
        [true] = 0 := by
  decide

/-! ## The text of a float -/

theorem digitChar_core_ne_dot (d : Nat) : Nat.digitChar d ≠ '.' := by
  by_cases h : d < 16
  · interval_cases d <;> decide
  · have hs : ∀ k, k < 16 → (d = k) = False := fun k hk => by
      simp only [eq_iff_iff, iff_false]
      omega
    simp only [Nat.digitChar, hs 0 (by decide), hs 1 (by decide), hs 2 (by decide),
      hs 3 (by decide), hs 4 (by decide), hs 5 (by decide), hs 6 (by decide), hs 7 (by decide),
      hs 8 (by decide), hs 9 (by decide), hs 10 (by decide), hs 11 (by decide),
      hs 12 (by decide), hs 13 (by decide), hs 14 (by decide), hs 15 (by decide), if_false]
    decide

theorem toDigitsCore_no_dot (fuel n : Nat) (acc : List Char) (h : ∀ c ∈ acc, c ≠ '.') :
    ∀ c ∈ Nat.toDigitsCore 10 fuel n acc, c ≠ '.' := by
  induction fuel generalizing n acc with
  | zero => simpa [Nat.toDigitsCore] using h
  | succ fuel ih =>
    have hacc : ∀ c ∈ Nat.digitChar (n % 10) :: acc, c ≠ '.' := by
      intro c hc
      rcases List.mem_cons.1 hc with hc | hc
      · rw [hc]
        exact digitChar_core_ne_dot _
      · exact h c hc
    simp only [Nat.toDigitsCore]
    split
    · exact hacc
    · exact ih _ _ hacc

theorem repr_no_dot (n : Nat) : ∀ c ∈ (Nat.repr n).data, c ≠ '.' := by
  simp only [Nat.repr, Nat.toDigits, List.asString]
  exact toDigitsCore_no_dot _ _ [] (by simp)

theorem padDigits_no_dot (width n : Nat) : ∀ c ∈ padDigits width n, c ≠ '.' := by
  intro c hc
  unfold padDigits at hc
  rcases List.mem_append.1 hc with hc | hc
  · rw [(List.mem_replicate.1 hc).2]
    decide
  · exact repr_no_dot n c hc

theorem rdropWhile_append_stop {α : Type} (p : α → Bool) (l : List α) (x : α) (r : List α)
    (hx : p x = false) : (l ++ x :: r).rdropWhile p = l ++ x :: r.rdropWhile p := by
  induction r using List.reverseRecOn with
  | nil =>
    simp only [List.rdropWhile_nil]
    exact List.rdropWhile_concat_neg p l x (by simp [hx])
  | append_singleton r y ih =>
    have hassoc : l ++ x :: (r ++ [y]) = (l ++ x :: r) ++ [y] := by simp
    rw [hassoc]
    by_cases hy : p y = true
    · rw [List.rdropWhile_concat_pos p _ y hy, List.rdropWhile_concat_pos p _ y hy, ih]
    · rw [List.rdropWhile_concat_neg p _ y hy, List.rdropWhile_concat_neg p _ y hy]
      simp

theorem mem_of_mem_rdropWhile {α : Type} (p : α → Bool) (l : List α) (c : α)
    (h : c ∈ l.rdropWhile p) : c ∈ l := by
  unfold List.rdropWhile at h
  rw [List.mem_reverse] at h
  exact List.mem_reverse.1 ((List.dropWhile_suffix p).subset h)

theorem rdropWhile_none {α : Type} (p : α → Bool) (l : List α) (h : ∀ c ∈ l, p c = false) :
    l.rdropWhile p = l := by
  rw [List.rdropWhile_eq_self_iff]
  intro hl
  rw [h _ (List.getLast_mem hl)]
  simp

theorem trim_dot_form (A G : List Char) (hA : ∀ c ∈ A, c ≠ '.') (hG : ∀ c ∈ G, c ≠ '.') :
    (A ++ '.' :: G).rdropWhile (fun c => decide (c = '.'))
      = A ++ (if G = [] then [] else '.' :: G) := by
  have hAf : ∀ c ∈ A, decide (c = '.') = false := fun c hc => decide_eq_false (hA c hc)
  by_cases hnil : G = []
  · subst hnil
    rw [if_pos rfl, List.append_nil]
    have h1 : A ++ ['.'] = A ++ ['.'] := rfl
    rw [List.rdropWhile_concat_pos _ _ '.' (by decide)]
    exact rdropWhile_none _ _ hAf
  · rw [if_neg hnil]
    rw [List.rdropWhile_eq_self_iff]
    intro hl
    have hlast : (A ++ '.' :: G).getLast hl ∈ G := by
      have h2 : A ++ '.' :: G = (A ++ ['.']) ++ G := by simp
      have hl2 : (A ++ ['.']) ++ G ≠ [] := by simp
      have : (A ++ '.' :: G).getLast hl = ((A ++ ['.']) ++ G).getLast hl2 := by
        congr 1
      rw [this, List.getLast_append_of_ne_nil hnil]
      exact List.getLast_mem hnil
    simp only [decide_eq_true_eq]
    exact hG _ hlast

/-- The fixed-point text with 15 decimals once `String` has trimmed it: sign
and integer part of the value rounded to 15 decimals, followed, unless those
decimals are all zero, by the decimal point and the decimals without their
trailing zeros. -/
theorem float_text (neg : Bool) (num den : Nat) :
    (TrimRight (TrimRight (String.mk (formatFixed neg num den 15)) "0") ".").data
      = ((if neg = true then ['-'] else [])
          ++ (Nat.repr (roundHalfEven (num * 10 ^ 15) den / 10 ^ 15)).data)
        ++ (if (padDigits 15 (roundHalfEven (num * 10 ^ 15) den % 10 ^ 15)).rdropWhile
                  (fun c => decide (c = '0')) = [] then []
            else '.' :: (padDigits 15
                  (roundHalfEven (num * 10 ^ 15) den % 10 ^ 15)).rdropWhile
                    (fun c => decide (c = '0'))) := by
  have hzero : (fun c : Char => decide (c ∈ "0".data)) = (fun c => decide (c = '0')) := by
    funext c
    simp
  have hdot : (fun c : Char => decide (c ∈ ".".data)) = (fun c => decide (c = '.')) := by
    funext c
    simp
  have hA : ∀ c ∈ (if neg = true then ['-'] else [])
      ++ (Nat.repr (roundHalfEven (num * 10 ^ 15) den / 10 ^ 15)).data,
      c ≠ '.' := by
    intro c hc
    rcases List.mem_append.1 hc with hc | hc
    · split at hc
      · rw [List.mem_singleton.1 hc]
        decide
      · simp at hc
    · exact repr_no_dot _ c hc
  have hG : ∀ c ∈ (padDigits 15
      (roundHalfEven (num * 10 ^ 15) den % 10 ^ 15)).rdropWhile
        (fun c => decide (c = '0')), c ≠ '.' :=
    fun c hc => padDigits_no_dot 15 _ c (mem_of_mem_rdropWhile _ _ c hc)
  simp only [TrimRight, formatFixed, hzero, hdot]
  rw [rdropWhile_append_stop _ _ '.' _ (by decide)]
  exact trim_dot_form _ _ hA hG

theorem roundHalfEven_nearest (a d : Nat) (hd : 0 < d) :
    2 * (roundHalfEven a d * d) ≤ 2 * a + d ∧ 2 * a ≤ 2 * (roundHalfEven a d * d) + d := by
  have hdm := Nat.div_add_mod a d
  have hm := Nat.mod_lt a hd
  have hmul : (a / d + 1) * d = d * (a / d) + d := by ring
  have hmul0 : a / d * d = d * (a / d) := by ring
  unfold roundHalfEven
  split_ifs with h1 h2 h3
  · rw [hmul0]
    omega
  · rw [hmul]
    omega
  · rw [hmul0]
    omega
  · rw [hmul]
    omega

theorem float_text_ends (neg : Bool) (num den : Nat) :
    (∀ hl, (TrimRight (TrimRight (String.mk (formatFixed neg num den 15)) "0") ".").data.getLast hl
        ≠ '.')
    ∧ ('.' ∈ (TrimRight (TrimRight (String.mk (formatFixed neg num den 15)) "0") ".").data →
        ∀ hl, (TrimRight (TrimRight (String.mk (formatFixed neg num den 15)) "0") ".").data.getLast
          hl ≠ '0') := by
  constructor
  · intro hl
    have h := List.rdropWhile_last_not (fun c => decide (c ∈ ".".data))
      (TrimRight (String.mk (formatFixed neg num den 15)) "0").data hl
    intro hx
    apply h
    have hl2 : (List.rdropWhile (fun c => decide (c ∈ ".".data))
        (TrimRight (String.mk (formatFixed neg num den 15)) "0").data).getLast hl = '.' := hx
    rw [hl2]
    decide
  · intro hdot hl
    have htext := float_text neg num den
    have hA : ∀ c ∈ (if neg = true then ['-'] else [])
        ++ (Nat.repr (roundHalfEven (num * 10 ^ 15) den / 10 ^ 15)).data,
        c ≠ '.' := by
      intro c hc
      rcases List.mem_append.1 hc with hc | hc
      · split at hc
        · rw [List.mem_singleton.1 hc]
          decide
        · simp at hc
      · exact repr_no_dot _ c hc
    by_cases hG : (padDigits 15 (roundHalfEven (num * 10 ^ 15) den % 10 ^ 15)).rdropWhile
        (fun c => decide (c = '0')) = []
    · rw [if_pos hG, List.append_nil] at htext
      rw [htext] at hdot
      exact absurd rfl (hA _ hdot)
    · rw [if_neg hG] at htext
      have hcons : ('.' :: (padDigits 15
          (roundHalfEven (num * 10 ^ 15) den % 10 ^ 15)).rdropWhile
            (fun c => decide (c = '0'))) ≠ [] := List.cons_ne_nil _ _
      have hlast := List.rdropWhile_last_not (fun c => decide (c = '0')) _ hG
      have hcalc : (TrimRight (TrimRight (String.mk (formatFixed neg num den 15)) "0")
            ".").data.getLast hl
          = ((padDigits 15 (roundHalfEven (num * 10 ^ 15) den % 10 ^ 15)).rdropWhile
              (fun c => decide (c = '0'))).getLast hG := by
        have e1 : ∀ (l1 l2 : List Char) (h1 : l1 ≠ []) (h2 : l2 ≠ []), l1 = l2 →
            l1.getLast h1 = l2.getLast h2 := by
          intro l1 l2 h1 h2 he
          subst he
          rfl
        rw [e1 _ _ hl (by simp) htext, List.getLast_append_of_ne_nil hcons,
          List.getLast_cons hG]
      rw [hcalc]
      intro hx
      apply hlast
      rw [hx]
      decide

/-- C16 (as amended): what `String` returns with `convert = true`. The string
itself for a string; "true" or "false" for a `bool`; the decimal text for an
`int` or `int64`; for a finite `float64` the fixed-point text of the value
rounded to 15 decimals (to nearest), made of sign, integer part and, unless
the decimals are all zero, the decimal point and the decimals without trailing
zeros, so that the text never ends in a decimal point and, when it has one,
never in a zero (1.0 gives "1", 0.0 gives "0", 3.14 gives "3.14",
1234567890123456.0 gives "1234567890123456", negative zero gives "-0"); and ""
for any other value and for a missing key. -/
theorem String_convert_values (r : Record) (key : String) (rest : Convert) :
    (∀ s, index r key = Value.string s → r.String key (true :: rest) = s)
    ∧ (index r key = Value.bool true → r.String key (true :: rest) = "true")
    ∧ (index r key = Value.bool false → r.String key (true :: rest) = "false")
    ∧ (∀ i, index r key = Value.int i → r.String key (true :: rest) = toString i)
    ∧ (∀ i, index r key = Value.int64 i → r.String key (true :: rest) = toString i)
    ∧ (∀ f : ℚ, index r key = Value.float64 (F64.finite f) →
        (r.String key (true :: rest)).data
            = ((if f.num < 0 then ['-'] else [])
                ++ (Nat.repr (roundHalfEven (f.num.natAbs * 10 ^ 15) f.den / 10 ^ 15)).data)
              ++ (if (padDigits 15
                        (roundHalfEven (f.num.natAbs * 10 ^ 15) f.den % 10 ^ 15)).rdropWhile
                        (fun c => decide (c = '0')) = [] then []
                  else '.' :: (padDigits 15
                        (roundHalfEven (f.num.natAbs * 10 ^ 15) f.den % 10 ^ 15)).rdropWhile
                          (fun c => decide (c = '0')))
        ∧ 2 * (roundHalfEven (f.num.natAbs * 10 ^ 15) f.den * f.den)
            ≤ 2 * (f.num.natAbs * 10 ^ 15) + f.den
        ∧ 2 * (f.num.natAbs * 10 ^ 15)
            ≤ 2 * (roundHalfEven (f.num.natAbs * 10 ^ 15) f.den * f.den) + f.den
        ∧ (∀ hl, (r.String key (true :: rest)).data.getLast hl ≠ '.')
        ∧ ('.' ∈ (r.String key (true :: rest)).data →
            ∀ hl, (r.String key (true :: rest)).data.getLast hl ≠ '0'))
    ∧ (index r key = Value.float64 F64.negZero → r.String key (true :: rest) = "-0")
    ∧ (index r key = Value.other → r.String key (true :: rest) = "")
    ∧ (key ∉ r → r.String key (true :: rest) = "")
    ∧ Record.String (AList.singleton "k" (Value.float64 (F64.finite 1))) "k" [true] = "1"
    ∧ Record.String (AList.singleton "k" (Value.float64 (F64.finite 0))) "k" [true] = "0"
    ∧ Record.String (AList.singleton "k" (Value.float64 (F64.finite (-1)))) "k" [true] = "-1"
    ∧ Record.String (AList.singleton "k" (Value.float64 (F64.finite float3_14))) "k" [true]
        = "3.14"
    ∧ Record.String (AList.singleton "k" (Value.float64 (F64.finite float0_1))) "k" [true]
        = "0.1"
    ∧ Record.String (AList.singleton "k" (Value.float64 (F64.finite 1234567890123456))) "k"
        [true] = "1234567890123456"
    ∧ Record.String (AList.singleton "k" (Value.float64 (F64.finite floatSmall))) "k" [true]
        = "0.00000012345678"
    ∧ Record.String (AList.singleton "k" (Value.int 2134)) "k" [true] = "2134"
    ∧ Record.String (AList.singleton "k" (Value.int64 (-1))) "k" [true] = "-1" := by
  refine ⟨?_, ?_, ?_, ?_, ?_, ?_, ?_, ?_, ?_, ?_, ?_, ?_, ?_, ?_, ?_, ?_, ?_, ?_⟩
  · intro s h
    simp [Record.String, strict, h]
  · intro h
    simp [Record.String, strict, h]
  · intro h
    simp [Record.String, strict, h]
  · intro i h
    simp [Record.String, strict, h, Sprintf]
  · intro i h
    simp [Record.String, strict, h, Sprintf]
  · intro f h
    have hs : r.String key (true :: rest)
        = TrimRight (TrimRight
            (String.mk (formatFixed (decide (f.num < 0)) f.num.natAbs f.den 15)) "0") "." := by
      simp [Record.String, strict, h, FormatFloat]
    have ht := float_text (decide (f.num < 0)) f.num.natAbs f.den
    simp only [decide_eq_true_eq] at ht
    rw [hs]
    exact ⟨ht, (roundHalfEven_nearest _ _ f.den_pos).1,
      (roundHalfEven_nearest _ _ f.den_pos).2,
      (float_text_ends (decide (f.num < 0)) f.num.natAbs f.den).1,
      (float_text_ends (decide (f.num < 0)) f.num.natAbs f.den).2⟩
  · intro h
    have hs : r.String key (true :: rest)
        = TrimRight (TrimRight (FormatFloat F64.negZero 15) "0") "." := by
      simp [Record.String, strict, h]
    rw [hs]
    decide
  · intro h
    simp [Record.String, strict, h]
  · intro h
    simp [Record.String, strict, index_missing r key h]
  · decide
  · decide
  · decide
  · decide
  · decide
  · decide
  · decide
  · decide
  · decide

/-- C16 as stated fails: a record can hold the `float64` values NaN and the
infinities, and for them `String` with `convert = true` returns "NaN", "+Inf"
and "-Inf", texts without a single digit, not a fixed-point decimal text. -/
theorem String_of_NaN_no_decimal_text :
    Record.String (AList.singleton "k" (Value.float64 F64.NaN)) "k" [true] = "NaN"
    ∧ Record.String (AList.singleton "k" (Value.float64 F64.posInf)) "k" [true] = "+Inf"
    ∧ Record.String (AList.singleton "k" (Value.float64 F64.negInf)) "k" [true] = "-Inf"
    ∧ (∀ c ∈ "NaN".data, digitVal c = none)
    ∧ (∀ c ∈ "+Inf".data, digitVal c = none)
    ∧ (∀ c ∈ "-Inf".data, digitVal c = none) := by
  refine ⟨by decide, by decide, by decide, by decide, by decide, by decide⟩

/-- Witness of C13 on a record of the tests: `Bool("boolTrue")` with
`convert` omitted returns the stored `true`. -/
theorem strict_mode_never_converts_witness :
    Record.Bool stubLib (AList.singleton "boolTrue" (Value.bool true)) "boolTrue" [] = true :=
  (strict_mode_never_converts stubLib (AList.singleton "boolTrue" (Value.bool true))
    "boolTrue" [] (Or.inl rfl)).1 true rfl

end KeyValue

/-! ## Claims on symmetric encryption -/

namespace Crypt

theorem defaultSymmetricKey_length : defaultSymmetricKey.length = 32 := by decide

/-- C18: for every key string `k`, after `SetKey(k)` the key is exactly 32
bytes long: `k` itself when `len(k) = 32`, the first 32 bytes of `k` when it
is longer, and `k` followed by the first `32 - len(k)` bytes of the built-in
default key when it is shorter; `SetKey("")` yields the default key. The
other fields are left as they were. -/
theorem SetKey_key_is_32_bytes (k : Bytes) (s : SymCrypt) :
    (SetKey k s).key.length = 32
    ∧ (k.length = 32 → (SetKey k s).key = k)
    ∧ (32 < k.length → (SetKey k s).key = k.take 32)
    ∧ (k.length < 32 → (SetKey k s).key = k ++ defaultSymmetricKey.take (32 - k.length))
    ∧ (SetKey [] s).key = defaultSymmetricKey
    ∧ (SetKey k s).plainText = s.plainText ∧ (SetKey k s).cipher = s.cipher
    ∧ (SetKey k s).flag = s.flag := by
  have hd := defaultSymmetricKey_length
  have hempty : (SetKey [] s).key = defaultSymmetricKey := by
    have h32 : defaultSymmetricKey.take 32 = defaultSymmetricKey := by decide
    simp [SetKey, keyLen, h32]
  refine ⟨?_, ?_, ?_, ?_, hempty, ?_, ?_, ?_⟩
  · by_cases h1 : k.length = 32
    · simp [SetKey, keyLen, h1]
    · by_cases h2 : k.length < 32
      · simp [SetKey, keyLen, h1, h2, hd]
        omega
      · simp [SetKey, keyLen, h1, h2]
        omega
  · intro h1
    simp [SetKey, keyLen, h1]
  · intro h
    have h1 : k.length ≠ 32 := by omega
    have h2 : ¬ k.length < 32 := by omega
    simp [SetKey, keyLen, h1, h2]
  · intro h
    have h1 : k.length ≠ 32 := by omega
    simp [SetKey, keyLen, h1, h]
  · by_cases h1 : k.length = 32 <;> by_cases h2 : k.length < 32 <;> simp [SetKey, keyLen, h1, h2]
  · by_cases h1 : k.length = 32 <;> by_cases h2 : k.length < 32 <;> simp [SetKey, keyLen, h1, h2]
  · by_cases h1 : k.length = 32 <;> by_cases h2 : k.length < 32 <;> simp [SetKey, keyLen, h1, h2]

theorem SetKey_NewCipher (k : Bytes) (s : SymCrypt) : NewCipher (SetKey k s).key = none := by
  have h : (SetKey k s).key.length = 32 := by
    have hd := defaultSymmetricKey_length
    by_cases h1 : k.length = 32
    · simp [SetKey, keyLen, h1]
    · by_cases h2 : k.length < 32
      · simp [SetKey, keyLen, h1, h2, hd]
        omega
      · simp [SetKey, keyLen, h1, h2]
        omega
  simp [NewCipher, h]

theorem default_NewCipher : NewCipher defaultSymmetricKey = none := by decide

/-- The state after `GetCypherBase64` on a fresh encryptor with key `k` and
plain text `p`, when the random source delivers the nonce. -/
theorem GetCypherBase64_fresh (lib : Lib) (k p nonce : Bytes) :
    GetCypherBase64 lib (some nonce) (SetPlainText p (SetKey k NewSymmetricEncryption))
      = (lib.EncodeToString (nonce ++ lib.Seal (SetKey k NewSymmetricEncryption).key nonce p),
         { plainText := p, key := (SetKey k NewSymmetricEncryption).key,
           cipher := nonce ++ lib.Seal (SetKey k NewSymmetricEncryption).key nonce p,
           flag := 5 }) := by
  have hk := SetKey_NewCipher k NewSymmetricEncryption
  have hc : (SetKey k NewSymmetricEncryption).cipher = [] := by
    by_cases h1 : k.length = 32 <;> by_cases h2 : k.length < 32 <;>
      simp [SetKey, keyLen, h1, h2, NewSymmetricEncryption]
  have hkey : (SetPlainText p (SetKey k NewSymmetricEncryption)).key
      = (SetKey k NewSymmetricEncryption).key := rfl
  simp only [GetCypherBase64, SetPlainText, hc, List.length_nil, Nat.lt_one_iff, if_true,
    encrypt, hasPlainText, hasEncrypted, byteEncrypt, hk]
  rfl

theorem decrypt_sealed (lib : Lib) (key p nonce pt0 : Bytes)
    (hopen : ∀ key n pt, lib.Open key n (lib.Seal key n pt) = some pt)
    (hnonce : nonce.length = nonceSize) (hkey : NewCipher key = none) :
    (GetPlainText lib
        { plainText := pt0, key := key, cipher := nonce ++ lib.Seal key nonce p,
          flag := hasCipherText }).1 = (p, none) := by
  have htake : (nonce ++ lib.Seal key nonce p).take nonceSize = nonce := by
    rw [← hnonce]
    exact List.take_left _ _
  have hdrop : (nonce ++ lib.Seal key nonce p).drop nonceSize = lib.Seal key nonce p := by
    rw [← hnonce]
    exact List.drop_left _ _
  have hlen : ¬ (nonce ++ lib.Seal key nonce p).length < nonceSize := by
    rw [List.length_append, hnonce]
    omega
  simp only [GetPlainText, decrypt, hasCipherText, hasDecrypted, byteDecrypt, hkey, hlen,
    if_false, htake, hdrop, hopen]
  rfl

/-- C19: encrypt/decrypt round trip. Under the contracts of the library
(AES-GCM `Open` inverts `Seal` for the same key and nonce, base64 decoding
inverts encoding and encodes non-empty input to a non-empty string, the random
source fills the 12-byte nonce), for every key string `k` and plain text `p`
the string `c` of `NewSymmetricEncryption().SetKey(k).SetPlainText(p)
.GetCypherBase64()` is not empty, and `SetCypherBase64(c)` followed by
`GetPlainText` returns `p` with a `nil` error, on the same encryptor and on a
fresh one with the same key. -/
theorem encrypt_decrypt_round_trip (lib : Lib) (k p nonce : Bytes)
    (hopen : ∀ key n pt, lib.Open key n (lib.Seal key n pt) = some pt)
    (hb64 : ∀ b, lib.DecodeString (lib.EncodeToString b) = some b)
    (hne : ∀ b, b ≠ [] → lib.EncodeToString b ≠ [])
    (hnonce : nonce.length = nonceSize) :
    (GetCypherBase64 lib (some nonce)
        (SetPlainText p (SetKey k NewSymmetricEncryption))).1 ≠ []
    ∧ (GetPlainText lib
        (SetCypherBase64 lib
          (GetCypherBase64 lib (some nonce)
            (SetPlainText p (SetKey k NewSymmetricEncryption))).1
          (GetCypherBase64 lib (some nonce)
            (SetPlainText p (SetKey k NewSymmetricEncryption))).2)).1 = (p, none)
    ∧ (GetPlainText lib
        (SetCypherBase64 lib
          (GetCypherBase64 lib (some nonce)
            (SetPlainText p (SetKey k NewSymmetricEncryption))).1
          (SetKey k NewSymmetricEncryption))).1 = (p, none) := by
  rw [GetCypherBase64_fresh]
  have hk := SetKey_NewCipher k NewSymmetricEncryption
  refine ⟨?_, ?_, ?_⟩
  · apply hne
    intro h
    have hl := congrArg List.length h
    rw [List.length_append, hnonce] at hl
    simp [nonceSize] at hl
  · simp only [SetCypherBase64, hb64]
    exact decrypt_sealed lib _ p nonce _ hopen hnonce hk
  · simp only [SetCypherBase64, hb64]
    exact decrypt_sealed lib _ p nonce _ hopen hnonce hk

/-- Witness of C19 with a stand-in library in which sealing and base64 are the
identity, the key "x", the plain text "Hello" and the nonce of twelve zero
bytes. -/
theorem encrypt_decrypt_round_trip_witness :
    (GetPlainText
        { Seal := fun _ _ pt => pt, Open := fun _ _ ct => some ct,
          EncodeToString := fun b => b, DecodeString := fun s => some s }
        (SetCypherBase64
          { Seal := fun _ _ pt => pt, Open := fun _ _ ct => some ct,
            EncodeToString := fun b => b, DecodeString := fun s => some s }
          (GetCypherBase64
            { Seal := fun _ _ pt => pt, Open := fun _ _ ct => some ct,
              EncodeToString := fun b => b, DecodeString := fun s => some s }
            (some [0, 0, 0, 0, 0, 0, 0, 0, 0, 0, 0, 0])
            (SetPlainText (ascii "Hello") (SetKey (ascii "x") NewSymmetricEncryption))).1
          (SetKey (ascii "x") NewSymmetricEncryption))).1 = (ascii "Hello", none) :=
  (encrypt_decrypt_round_trip
    { Seal := fun _ _ pt => pt, Open := fun _ _ ct => some ct,
      EncodeToString := fun b => b, DecodeString := fun s => some s }
    (ascii "x") (ascii "Hello") [0, 0, 0, 0, 0, 0, 0, 0, 0, 0, 0, 0]
    (fun _ _ _ => rfl) (fun _ => rfl) (fun _ h => h) rfl).2.2

/-- C20: bad cipher text is rejected. For every string `s` that base64 decoding
refuses, or that decodes to fewer bytes than the GCM nonce size,
`SetCypherBase64(s)` on a fresh `SymCrypt` followed by `GetPlainText` returns
the empty string together with an error. -/
theorem bad_cipher_text_rejected (lib : Lib) (s : Bytes)
    (hbad : lib.DecodeString s = none
      ∨ ∃ b, lib.DecodeString s = some b ∧ b.length < nonceSize) :
    (GetPlainText lib (SetCypherBase64 lib s NewSymmetricEncryption)).1.1 = []
    ∧ (GetPlainText lib (SetCypherBase64 lib s NewSymmetricEncryption)).1.2 ≠ none := by
  rcases hbad with hbad | ⟨b, hb, hlen⟩
  · simp [SetCypherBase64, hbad, GetPlainText, decrypt, NewSymmetricEncryption, reset,
      hasCipherText, hasDecrypted]
  · have hk : NewCipher defaultSymmetricKey = none := default_NewCipher
    simp [SetCypherBase64, hb, GetPlainText, decrypt, NewSymmetricEncryption,
      hasCipherText, hasDecrypted, byteDecrypt, hk, hlen]

/-- Witness of C20 on the string "x" of `TestAESError`, with a stand-in
decoder that refuses every string. -/
theorem bad_cipher_text_rejected_witness :
    (GetPlainText
        { Seal := fun _ _ pt => pt, Open := fun _ _ ct => some ct,
          EncodeToString := fun b => b, DecodeString := fun _ => none }
        (SetCypherBase64
          { Seal := fun _ _ pt => pt, Open := fun _ _ ct => some ct,
            EncodeToString := fun b => b, DecodeString := fun _ => none }
          (ascii "x") NewSymmetricEncryption)).1.1 = [] :=
  (bad_cipher_text_rejected
    { Seal := fun _ _ pt => pt, Open := fun _ _ ct => some ct,
      EncodeToString := fun b => b, DecodeString := fun _ => none }
    (ascii "x") (Or.inl rfl)).1

/-- With a cipher already stored, `GetCypherBase64` does not encrypt: it
returns the encoding of the stored cipher and leaves the state as it is. -/
theorem GetCypherBase64_keeps_cipher (lib : Lib) (rnd : Option Bytes) (s : SymCrypt)
    (h : s.cipher ≠ []) : GetCypherBase64 lib rnd s = (lib.EncodeToString s.cipher, s) := by
  have hl : ¬ s.cipher.length < 1 := by
    cases hc : s.cipher with
    | nil => exact absurd hc h
    | cons a t => simp
  unfold GetCypherBase64
  simp only [hl, if_false]

/-- C30, the code at the failing input: on an encryptor that holds the cipher
of the plain text `a` from `SetPlainText(a)` and `GetCypherBase64()`,
`SetPlainText(b)` followed by `GetCypherBase64()` returns the same string as
before, for every `b` and whatever the random source delivers; under the
contracts of the library (`Open` inverts `Seal`, base64 decoding inverts
encoding) that string decrypts under the same key to `a`, not to the plain
text `b` set last. The same holds for every state with a stored cipher:
the string returned after `SetPlainText(p)` is the encoding of the stored
cipher. -/
theorem GetCypherBase64_stale_after_SetPlainText (lib : Lib) (k a b nonce : Bytes)
    (rnd : Option Bytes)
    (hopen : ∀ key n pt, lib.Open key n (lib.Seal key n pt) = some pt)
    (hb64 : ∀ x, lib.DecodeString (lib.EncodeToString x) = some x)
    (hnonce : nonce.length = nonceSize) :
    (GetCypherBase64 lib rnd
        (SetPlainText b
          (GetCypherBase64 lib (some nonce)
            (SetPlainText a (SetKey k NewSymmetricEncryption))).2)).1
      = (GetCypherBase64 lib (some nonce)
          (SetPlainText a (SetKey k NewSymmetricEncryption))).1
    ∧ (GetPlainText lib
        (SetCypherBase64 lib
          (GetCypherBase64 lib rnd
            (SetPlainText b
              (GetCypherBase64 lib (some nonce)
                (SetPlainText a (SetKey k NewSymmetricEncryption))).2)).1
          (SetKey k NewSymmetricEncryption))).1 = (a, none)
    ∧ (∀ (s : SymCrypt) (p : Bytes), s.cipher ≠ [] →
        (GetCypherBase64 lib rnd (SetPlainText p s)).1 = lib.EncodeToString s.cipher) := by
  have hk := SetKey_NewCipher k NewSymmetricEncryption
  have hne : nonce ++ lib.Seal (SetKey k NewSymmetricEncryption).key nonce a ≠ [] := by
    intro h
    have hl := congrArg List.length h
    rw [List.length_append, hnonce] at hl
    simp [nonceSize] at hl
  have hstale : (GetCypherBase64 lib rnd
        (SetPlainText b
          (GetCypherBase64 lib (some nonce)
            (SetPlainText a (SetKey k NewSymmetricEncryption))).2)).1
      = (GetCypherBase64 lib (some nonce)
          (SetPlainText a (SetKey k NewSymmetricEncryption))).1 := by
    rw [GetCypherBase64_fresh]
    rw [GetCypherBase64_keeps_cipher lib rnd _ (by exact hne)]
    rfl
  refine ⟨hstale, ?_, ?_⟩
  · rw [hstale, GetCypherBase64_fresh]
    simp only [SetCypherBase64, hb64]
    exact decrypt_sealed lib _ a nonce _ hopen hnonce hk
  · intro s p hs
    rw [GetCypherBase64_keeps_cipher lib rnd (SetPlainText p s) (by exact hs)]
    rfl

/-- The failing input of C30 with a stand-in library in which sealing and
base64 are the identity, the default key, the plain texts "a" and then "b" and
nonces of twelve zero and twelve one bytes: the string returned after
`SetPlainText("b")` decrypts to "a". -/
theorem GetCypherBase64_stale_after_SetPlainText_witness :
    (GetPlainText
        { Seal := fun _ _ pt => pt, Open := fun _ _ ct => some ct,
          EncodeToString := fun x => x, DecodeString := fun s => some s }
        (SetCypherBase64
          { Seal := fun _ _ pt => pt, Open := fun _ _ ct => some ct,
            EncodeToString := fun x => x, DecodeString := fun s => some s }
          (GetCypherBase64
            { Seal := fun _ _ pt => pt, Open := fun _ _ ct => some ct,
              EncodeToString := fun x => x, DecodeString := fun s => some s }
            (some [1, 1, 1, 1, 1, 1, 1, 1, 1, 1, 1, 1])
            (SetPlainText (ascii "b")
              (GetCypherBase64
                { Seal := fun _ _ pt => pt, Open := fun _ _ ct => some ct,
                  EncodeToString := fun x => x, DecodeString := fun s => some s }
                (some [0, 0, 0, 0, 0, 0, 0, 0, 0, 0, 0, 0])
                (SetPlainText (ascii "a") (SetKey [] NewSymmetricEncryption))).2)).1
          (SetKey [] NewSymmetricEncryption))).1 = (ascii "a", none) :=
  (GetCypherBase64_stale_after_SetPlainText
    { Seal := fun _ _ pt => pt, Open := fun _ _ ct => some ct,
      EncodeToString := fun x => x, DecodeString := fun s => some s }
    [] (ascii "a") (ascii "b") [0, 0, 0, 0, 0, 0, 0, 0, 0, 0, 0, 0]
    (some [1, 1, 1, 1, 1, 1, 1, 1, 1, 1, 1, 1])
    (fun _ _ _ => rfl) (fun _ => rfl) rfl).2.1

end Crypt

/-! ## Claims on token validation -/

namespace JwtUtil

/-- C21: `ValidateToken` returns non-nil claims if and only if it returns a
nil error; for a token that parses and verifies under the secret it returns
`ErrInvalidIssuer` when the issuer of the token differs from the expected
issuer, otherwise `ErrInvalidSubject` when the subject differs, otherwise
`ErrInvalidID` when the ID differs, and the claims of the token only when all
three match; a token that fails parsing gives `ErrExpiredToken` if it is
expired with a valid signature and `ErrInvalidToken` otherwise. -/
theorem ValidateToken_claims_and_errors (parse : Parse)
    (tokenString issuer subject id secret : String) :
    ((ValidateToken parse tokenString issuer subject id secret).1 ≠ none
        ↔ (ValidateToken parse tokenString issuer subject id secret).2 = none)
    ∧ ((parse tokenString secret).err = none → (parse tokenString secret).Valid = true →
        ((parse tokenString secret).claims.Issuer ≠ issuer →
          ValidateToken parse tokenString issuer subject id secret
            = (none, some Err.ErrInvalidIssuer))
        ∧ ((parse tokenString secret).claims.Issuer = issuer →
            (parse tokenString secret).claims.Subject ≠ subject →
          ValidateToken parse tokenString issuer subject id secret
            = (none, some Err.ErrInvalidSubject))
        ∧ ((parse tokenString secret).claims.Issuer = issuer →
            (parse tokenString secret).claims.Subject = subject →
            (parse tokenString secret).claims.ID ≠ id →
          ValidateToken parse tokenString issuer subject id secret
            = (none, some Err.ErrInvalidID))
        ∧ ((parse tokenString secret).claims.Issuer = issuer →
            (parse tokenString secret).claims.Subject = subject →
            (parse tokenString secret).claims.ID = id →
          ValidateToken parse tokenString issuer subject id secret
            = (some (parse tokenString secret).claims, none)))
    ∧ (∀ c, (ValidateToken parse tokenString issuer subject id secret).1 = some c →
        c = (parse tokenString secret).claims ∧ c.Issuer = issuer ∧ c.Subject = subject
          ∧ c.ID = id)
    ∧ (∀ e, (parse tokenString secret).err = some e →
        (e.isTokenExpired = true → e.isSignatureInvalid = false →
          ValidateToken parse tokenString issuer subject id secret
            = (none, some Err.ErrExpiredToken))
        ∧ (¬ (e.isTokenExpired = true ∧ e.isSignatureInvalid = false) →
          ValidateToken parse tokenString issuer subject id secret
            = (none, some Err.ErrInvalidToken))) := by
  unfold ValidateToken
  generalize parse tokenString secret = p
  obtain ⟨err, valid, claims⟩ := p
  cases err with
  | some e =>
    obtain ⟨sig, exp⟩ := e
    cases sig <;> cases exp <;> simp
  | none =>
    cases valid
    · simp
    · by_cases hi : claims.Issuer = issuer <;> by_cases hs : claims.Subject = subject <;>
        by_cases hd : claims.ID = id <;> simp [hi, hs, hd]

/-- A run of `ValidateToken` on a parser that accepts the one token "t" under
the secret "s" with issuer "app", subject "auth" and ID "1", and reports every
other token as expired. -/
theorem ValidateToken_example :
    ValidateToken
        (fun tokenString secret =>
          if tokenString = "t" ∧ secret = "s" then
            { err := none, Valid := true,
              claims := { User := "u", Issuer := "app", Subject := "auth", Audience := [],
                          ExpiresAt := none, NotBefore := none, IssuedAt := none, ID := "1" } }
          else
            { err := some { isSignatureInvalid := false, isTokenExpired := true },
              Valid := false,
              claims := { User := "", Issuer := "", Subject := "", Audience := [],
                          ExpiresAt := none, NotBefore := none, IssuedAt := none, ID := "" } })
        "t" "app" "auth" "2" "s"
      = (none, some Err.ErrInvalidID) := by
  decide

end JwtUtil

/-! ## Claims on the HTTP middleware -/

namespace Web

theorem isIPBlocked_of_match {IP IPNet : Type} (net : Net IP IPNet) (remoteAddr : String)
    (parsedIP : IP) (blockedIPs : List String) (blockedIP : String)
    (hparse : net.ParseIP remoteAddr = some parsedIP) (hmem : blockedIP ∈ blockedIPs)
    (hmatch : isMatchingIP net parsedIP blockedIP = true) :
    isIPBlocked net remoteAddr blockedIPs = true := by
  have hlen : ¬ blockedIPs.length = 0 := by
    intro h
    rw [List.length_eq_zero] at h
    rw [h] at hmem
    exact List.not_mem_nil _ hmem
  unfold isIPBlocked
  rw [if_neg hlen, hparse]
  exact List.any_eq_true.2 ⟨blockedIP, hmem, hmatch⟩

/-- Where the host of the remote address parses as an IP address, the block
list has priority over the allow list: if that address equals an entry of
`blockedIPs` or lies inside a CIDR network listed in `blockedIPs`, the handler
of `WithIPFilter` answers 403 Forbidden and does not call the next handler,
whatever `allowedIPs` contains. -/
theorem blocked_has_priority {IP IPNet : Type} (net : Net IP IPNet)
    (allowedIPs blockedIPs : List String) (r : Request) (remoteAddr : String) (parsedIP : IP)
    (blockedIP : String)
    (hsplit : net.SplitHostPort r.RemoteAddr = some remoteAddr)
    (hparse : net.ParseIP remoteAddr = some parsedIP)
    (hmem : blockedIP ∈ blockedIPs)
    (hmatch : ('/' ∉ blockedIP.data
          ∧ ∃ templateIP, net.ParseIP blockedIP = some templateIP
              ∧ net.Equal parsedIP templateIP = true)
        ∨ ('/' ∈ blockedIP.data
          ∧ ∃ ipNet, net.ParseCIDR blockedIP = some ipNet
              ∧ net.Contains ipNet parsedIP = true)) :
    WithIPFilter net allowedIPs blockedIPs r = Served.encoded 403 "forbidden"
    ∧ ∀ user, WithIPFilter net allowedIPs blockedIPs r ≠ Served.next user := by
  have hct : (blockedIP.data.contains '/' = true) ↔ '/' ∈ blockedIP.data := by simp
  have hm : isMatchingIP net parsedIP blockedIP = true := by
    unfold isMatchingIP
    rcases hmatch with ⟨hs, t, ht, he⟩ | ⟨hs, n, hn, hc⟩
    · rw [if_neg (fun h => hs (hct.1 h)), ht]
      exact he
    · rw [if_pos (hct.2 hs), hn]
      exact hc
  have hb := isIPBlocked_of_match net remoteAddr parsedIP blockedIPs blockedIP hparse hmem hm
  have hlen : ¬ (allowedIPs.length = 0 ∧ blockedIPs.length = 0) := by
    rintro ⟨_, h⟩
    rw [List.length_eq_zero] at h
    rw [h] at hmem
    exact List.not_mem_nil _ hmem
  have hres : WithIPFilter net allowedIPs blockedIPs r = Served.encoded 403 "forbidden" := by
    unfold WithIPFilter
    rw [if_neg hlen, hsplit]
    simp only [hb, if_true]
    rfl
  refine ⟨hres, ?_⟩
  intro user
  rw [hres]
  exact Served.noConfusion

/-- An example: the host 192.168.0.1 lies in the blocked network
192.168.0.0/16 and is refused although the allow list holds "ALL" and the
address itself. -/
theorem blocked_has_priority_witness :
    WithIPFilter stubNet ["ALL", "192.168.0.1"] ["192.168.0.0/16"]
        { RemoteAddr := "192.168.0.1:4711", Header := fun _ => "" }
      = Served.encoded 403 "forbidden" :=
  (blocked_has_priority stubNet ["ALL", "192.168.0.1"] ["192.168.0.0/16"]
    { RemoteAddr := "192.168.0.1:4711", Header := fun _ => "" } "192.168.0.1" "192.168.0.1"
    "192.168.0.0/16" (by decide) (by decide) (by decide)
    (Or.inr ⟨by decide, "192.168.0.0/16", by decide, by decide⟩)).1

/-- C22, the code at the failing input: for a request whose remote address
splits into host and port but whose host `net.ParseIP` does not accept, as for
the link-local peer `[fe80::1%eth0]:4711`, whose host carries a zone,
`isIPBlocked` answers false for every block list, also for one that lists the
network `fe80::/10` of the peer, and with an empty allow list the handler of
`WithIPFilter` calls the next handler instead of answering 403. -/
theorem blocked_host_not_parsed_is_served {IP IPNet : Type} (net : Net IP IPNet)
    (blockedIPs : List String) (r : Request) (remoteAddr : String)
    (hsplit : net.SplitHostPort r.RemoteAddr = some remoteAddr)
    (hparse : net.ParseIP remoteAddr = none) :
    isIPBlocked net remoteAddr blockedIPs = false
    ∧ WithIPFilter net [] blockedIPs r = Served.next ""
    ∧ ∀ status error, WithIPFilter net [] blockedIPs r ≠ Served.encoded status error := by
  have hb : isIPBlocked net remoteAddr blockedIPs = false := by
    unfold isIPBlocked
    split_ifs
    · rfl
    · rw [hparse]
  have he : isIPAllowed net remoteAddr [] = true := by
    simp [isIPAllowed]
  have hres : WithIPFilter net [] blockedIPs r = Served.next "" := by
    unfold WithIPFilter
    by_cases hl : blockedIPs.length = 0
    · simp [hl]
    · simp [hl, hsplit, hb, he]
  refine ⟨hb, hres, ?_⟩
  intro status error
  rw [hres]
  exact Served.noConfusion

/-- The failing input of C22: a request from the link-local address
`fe80::1%eth0` with the block list `["fe80::/10"]` and an empty allow list
reaches the next handler. -/
theorem blocked_host_not_parsed_is_served_witness :
    WithIPFilter stubNet [] ["fe80::/10"]
        { RemoteAddr := "[fe80::1%eth0]:4711", Header := fun _ => "" }
      = Served.next "" :=
  (blocked_host_not_parsed_is_served stubNet ["fe80::/10"]
    { RemoteAddr := "[fe80::1%eth0]:4711", Header := fun _ => "" } "fe80::1%eth0"
    (by decide) (by decide)).2.1

/-- With the allow list `["ALL"]` a host that parses as an IP address passes
the allow list, as it does with the empty allow list. -/
theorem isIPAllowed_ALL_of_parsed {IP IPNet : Type} (net : Net IP IPNet) (remoteAddr : String)
    (parsedIP : IP) (hparse : net.ParseIP remoteAddr = some parsedIP) :
    isIPAllowed net remoteAddr ["ALL"] = true ∧ isIPAllowed net remoteAddr [] = true := by
  constructor
  · simp [isIPAllowed, hparse]
  · simp [isIPAllowed]

/-- On requests whose host parses as an IP address the allow lists `["ALL"]`
and `[]` give the same decision. -/
theorem WithIPFilter_ALL_eq_empty_of_parsed {IP IPNet : Type} (net : Net IP IPNet)
    (blockedIPs : List String) (r : Request) (remoteAddr : String) (parsedIP : IP)
    (hsplit : net.SplitHostPort r.RemoteAddr = some remoteAddr)
    (hparse : net.ParseIP remoteAddr = some parsedIP) :
    WithIPFilter net ["ALL"] blockedIPs r = WithIPFilter net [] blockedIPs r := by
  have ha := isIPAllowed_ALL_of_parsed net remoteAddr parsedIP hparse
  unfold WithIPFilter
  by_cases hb : blockedIPs.length = 0
  · have hnil : blockedIPs = [] := List.length_eq_zero.1 hb
    subst hnil
    simp [hsplit, ha.1, isIPBlocked]
  · simp [hb, hsplit, ha.1, ha.2]

/-- With no block list, a request whose remote address does not split is
answered 500 under the allow list `["ALL"]` and is handed to the next handler
under the empty allow list, where `WithIPFilter` returns `h` itself. -/
theorem WithIPFilter_ALL_unsplit {IP IPNet : Type} (net : Net IP IPNet) (r : Request)
    (hsplit : net.SplitHostPort r.RemoteAddr = none) :
    WithIPFilter net ["ALL"] [] r = Served.encoded 500 "invalid remote address"
    ∧ WithIPFilter net [] [] r = Served.next "" := by
  constructor
  · simp [WithIPFilter, hsplit, StatusInternalServerError]
  · simp [WithIPFilter]

/-- C23, the code on the failing inputs: for a request whose remote address
splits into host and port but whose host `net.ParseIP` does not accept, and
for every block list, the handler of `WithIPFilter(h, ["ALL"], blocked)`
answers 403 Forbidden while the handler of `WithIPFilter(h, [], blocked)` calls
the next handler. -/
theorem ALL_differs_from_empty_allow_list {IP IPNet : Type} (net : Net IP IPNet)
    (blockedIPs : List String) (r : Request) (remoteAddr : String)
    (hsplit : net.SplitHostPort r.RemoteAddr = some remoteAddr)
    (hparse : net.ParseIP remoteAddr = none) :
    WithIPFilter net ["ALL"] blockedIPs r = Served.encoded 403 "forbidden"
    ∧ WithIPFilter net [] blockedIPs r = Served.next "" := by
  have hb : isIPBlocked net remoteAddr blockedIPs = false := by
    unfold isIPBlocked
    split_ifs
    · rfl
    · rw [hparse]
  have ha : isIPAllowed net remoteAddr ["ALL"] = false := by
    simp [isIPAllowed, hparse]
  have he : isIPAllowed net remoteAddr [] = true := by
    simp [isIPAllowed]
  constructor
  · unfold WithIPFilter
    simp [hsplit, hb, ha, StatusForbidden, ErrForbidden]
  · unfold WithIPFilter
    by_cases hl : blockedIPs.length = 0
    · simp [hl]
    · simp [hl, hsplit, hb, he]

/-- The failing input of C23: a request from the link-local address
`fe80::1%eth0`, with no block list. -/
theorem ALL_differs_from_empty_allow_list_witness :
    WithIPFilter stubNet ["ALL"] [] { RemoteAddr := "[fe80::1%eth0]:4711", Header := fun _ => "" }
      = Served.encoded 403 "forbidden"
    ∧ WithIPFilter stubNet [] [] { RemoteAddr := "[fe80::1%eth0]:4711", Header := fun _ => "" }
      = Served.next "" :=
  ALL_differs_from_empty_allow_list stubNet []
    { RemoteAddr := "[fe80::1%eth0]:4711", Header := fun _ => "" } "fe80::1%eth0"
    (by decide) (by decide)

theorem splitChars_ne_nil (sep : Char) (l : List Char) : splitChars sep l ≠ [] := by
  cases l with
  | nil => simp [splitChars]
  | cons c cs =>
    unfold splitChars
    split_ifs
    · simp
    · cases splitChars sep cs <;> simp

theorem splitChars_single (sep : Char) (l b : List Char) (h : splitChars sep l = [b]) :
    l = b := by
  induction l generalizing b with
  | nil =>
    simp only [splitChars, List.cons.injEq, and_true] at h
    exact h
  | cons c cs ih =>
    unfold splitChars at h
    split_ifs at h with hc
    · simp only [List.cons.injEq] at h
      exact absurd h.2 (splitChars_ne_nil sep cs)
    · cases hs : splitChars sep cs with
      | nil => exact absurd hs (splitChars_ne_nil sep cs)
      | cons p ps =>
        rw [hs] at h
        simp only [List.cons.injEq] at h
        obtain ⟨h1, h2⟩ := h
        subst h2
        rw [ih p hs, h1]

theorem splitChars_pair (sep : Char) (l a b : List Char) (h : splitChars sep l = [a, b]) :
    l = a ++ sep :: b := by
  induction l generalizing a with
  | nil => simp [splitChars] at h
  | cons c cs ih =>
    unfold splitChars at h
    split_ifs at h with hc
    · simp only [List.cons.injEq] at h
      obtain ⟨h1, h2⟩ := h
      rw [← h1, hc, splitChars_single sep cs b h2]
      rfl
    · cases hs : splitChars sep cs with
      | nil => exact absurd hs (splitChars_ne_nil sep cs)
      | cons p ps =>
        rw [hs] at h
        simp only [List.cons.injEq] at h
        obtain ⟨h1, h2⟩ := h
        subst h2
        rw [ih p hs, ← h1]
        rfl

/-- A text that `strings.Split(s, " ")` cuts into exactly two pieces is the
first piece, one blank and the second piece. -/
theorem Split_pair (s p0 p1 : String) (h : Split s = [p0, p1]) : s = p0 ++ " " ++ p1 := by
  unfold Split at h
  cases hs : splitChars ' ' s.data with
  | nil => exact absurd hs (splitChars_ne_nil _ _)
  | cons a t =>
    cases t with
    | nil => rw [hs] at h; simp at h
    | cons b t2 =>
      cases t2 with
      | cons c t3 => rw [hs] at h; simp at h
      | nil =>
        rw [hs] at h
        simp only [List.map_cons, List.map_nil, List.cons.injEq, and_true] at h
        obtain ⟨h1, h2⟩ := h
        have hd := splitChars_pair ' ' s.data a b hs
        apply String.ext
        rw [String.data_append, String.data_append, hd, ← h1, ← h2]
        simp

/-- What `checkJwtToken` accepts: an Authorization header of the form
"Bearer <token>" whose token `ValidateToken` passes without error. -/
theorem checkJwtToken_some (parse : JwtUtil.Parse) (r : Request) (config : Config)
    (claims : JwtUtil.Claims) (h : checkJwtToken parse r config = some claims) :
    ∃ token, r.Header "Authorization" = "Bearer " ++ token
      ∧ (JwtUtil.ValidateToken parse token config.AppName "auth" config.JwtID
            config.JwtSecret).2 = none := by
  unfold checkJwtToken at h
  simp only at h
  split_ifs at h with he
  split at h
  · rename_i p0 p1 hsp
    split_ifs at h with hb
    split at h
    · rename_i c hv
      refine ⟨p1, ?_, ?_⟩
      · have := Split_pair _ p0 p1 hsp
        rw [this]
        have hb2 : p0 = "Bearer" := not_not.1 hb
        rw [hb2]
        apply String.ext
        simp [String.data_append]
      · rw [hv]
    · cases h
  · cases h

/-- C24: `WithAuth` calls the next handler only for an authorized request.
For every request and config, if the request has neither an X-Api-Key header
that is non-empty and equal to a non-empty `config.ApiKey`, nor (with
`JwtSecret` and `JwtID` both non-empty) an Authorization header of the exact
form "Bearer <token>" whose token validates, the response is 401 Unauthorized
and the next handler is not invoked. -/
theorem WithAuth_only_authorized (parse : JwtUtil.Parse) (config : Config) (r : Request)
    (hkey : ¬ (config.ApiKey ≠ "" ∧ r.Header "X-Api-Key" ≠ ""
        ∧ r.Header "X-Api-Key" = config.ApiKey))
    (hjwt : ¬ (config.JwtSecret ≠ "" ∧ config.JwtID ≠ ""
        ∧ ∃ token, r.Header "Authorization" = "Bearer " ++ token
            ∧ (JwtUtil.ValidateToken parse token config.AppName "auth" config.JwtID
                  config.JwtSecret).2 = none)) :
    WithAuth parse config r = Served.encoded 401 "not authorized"
    ∧ ∀ user, WithAuth parse config r ≠ Served.next user := by
  have hres : WithAuth parse config r = Served.encoded 401 "not authorized" := by
    unfold WithAuth
    have h1 : ¬ (config.ApiKey.length > 0 ∧ checkApiKey r config.ApiKey = true) := by
      rintro ⟨hl, hc⟩
      apply hkey
      unfold checkApiKey at hc
      simp only at hc
      split_ifs at hc with hk
      refine ⟨?_, hk.1, hk.2⟩
      intro he
      rw [he] at hl
      exact absurd hl (by decide)
    rw [if_neg h1]
    split_ifs with h2
    · cases hc : checkJwtToken parse r config with
      | none => rfl
      | some claims =>
        exfalso
        apply hjwt
        refine ⟨?_, ?_, checkJwtToken_some parse r config claims hc⟩
        · intro he
          rw [he] at h2
          exact absurd h2.1 (by decide)
        · intro he
          rw [he] at h2
          exact absurd h2.2 (by decide)
    · rfl
  refine ⟨hres, ?_⟩
  intro user
  rw [hres]
  exact Served.noConfusion

/-- Witness of C24: with an empty `config.ApiKey` a request without headers,
whose X-Api-Key therefore reads empty, is answered 401. -/
theorem WithAuth_only_authorized_witness :
    WithAuth
        (fun _ _ =>
          { err := none, Valid := true,
            claims := { User := "u", Issuer := "app", Subject := "auth", Audience := [],
                        ExpiresAt := none, NotBefore := none, IssuedAt := none, ID := "1" } })
        { ApiKey := "", JwtSecret := "s", JwtID := "1", AppName := "app" }
        { RemoteAddr := "192.168.0.1:4711", Header := fun _ => "" }
      = Served.encoded 401 "not authorized" :=
  (WithAuth_only_authorized
    (fun _ _ =>
      { err := none, Valid := true,
        claims := { User := "u", Issuer := "app", Subject := "auth", Audience := [],
                    ExpiresAt := none, NotBefore := none, IssuedAt := none, ID := "1" } })
    { ApiKey := "", JwtSecret := "s", JwtID := "1", AppName := "app" }
    { RemoteAddr := "192.168.0.1:4711", Header := fun _ => "" }
    (fun h => h.1 rfl)
    (fun h => by
      obtain ⟨_, _, token, ht, _⟩ := h
      have hd := congrArg String.data ht
      rw [String.data_append] at hd
      exact absurd hd (by simp))).1

/-- The fields `Status` and `Body` of a `logResponse` are not touched by the
calls of a handler. -/
theorem ServeHTTP_Status_Body (h : Handler) (lr : logResponse) (r : Request) :
    (ServeHTTP h lr r).Status = lr.Status ∧ (ServeHTTP h lr r).Body = lr.Body := by
  unfold ServeHTTP
  generalize h r = calls
  induction calls generalizing lr with
  | nil => exact ⟨rfl, rfl⟩
  | cons c cs ih =>
    rw [List.foldl_cons]
    cases c with
    | WriteHeader s => exact ih (lr.WriteHeader s)
    | Write b => exact ih (lr.Write b)

/-- C26, the code at the failing input: for every wrapped handler, whatever
status and body it writes, `WithLogging` logs the status 0 and an empty
response body; a handler that writes the status 200 and the body "ok" gets
them into the underlying writer, and 0 and the empty body are logged. -/
theorem WithLogging_logs_zero_status (h : Handler) (w : ResponseWriter) (r : Request) :
    (WithLogging h w r).1 = { status := 0, body := [] }
    ∧ WithLogging (fun _ => [Call.WriteHeader 200, Call.Write [111, 107]])
        { status := 0, body := [] } r
      = ({ status := 0, body := [] }, { status := 200, body := [111, 107] }) := by
  constructor
  · have hs := ServeHTTP_Status_Body h (newLogResponse w) r
    unfold WithLogging
    simp only [hs.1, hs.2]
    rfl
  · rfl

end Web

/-! ## Claims on the emulated GPIO port -/

namespace GpioEmu

/-- C25: emulated port state. A new port reads Low; for every `n` in
`{0, 1}`, `SetValue(n)` returns `nil` and a following `GetValue` returns `n`;
for every other `n`, `SetValue(n)` returns an error, leaves the port with its
stored level unchanged and starts no handler. -/
theorem SetValue_GetValue_state (gpio pulse now n : Int) (p : Port) :
    GetValue (NewPort gpio pulse) = (Low, none)
    ∧ (n = 0 ∨ n = 1 →
        (SetValue now n p).err = none ∧ GetValue (SetValue now n p).port = (n, none))
    ∧ (n ≠ 0 → n ≠ 1 →
        (SetValue now n p).err ≠ none ∧ (SetValue now n p).port = p
        ∧ GetValue (SetValue now n p).port = GetValue p
        ∧ (SetValue now n p).started = none) := by
  refine ⟨rfl, ?_, ?_⟩
  · intro h
    have hn : ¬ (n ≠ Low ∧ n ≠ High) := by
      simp only [Low, High]
      omega
    unfold SetValue
    rw [if_neg hn]
    cases hc : p.callback <;> simp [GetValue, hc]
  · intro h0 h1
    have hn : n ≠ Low ∧ n ≠ High := ⟨h0, h1⟩
    unfold SetValue
    rw [if_pos hn]
    simp

/-- A valid `SetValue(n)` on a watched port starts the handler once, with
`Edge = n`, whatever the level was before. -/
theorem SetValue_watched (now n : Int) (handler : Nat) (p : Port) (h : n = 0 ∨ n = 1)
    (hc : p.callback = some handler) :
    (SetValue now n p).started = some (handler, { Time := now, Edge := n }) := by
  have hn : ¬ (n ≠ Low ∧ n ≠ High) := by
    simp only [Low, High]
    omega
  unfold SetValue
  rw [if_neg hn]
  simp [hc]

/-- A `SetValue` on a port with no handler starts none; this is the state
after `StopWatching`. -/
theorem SetValue_after_StopWatching (now n : Int) (p : Port) :
    (SetValue now n (StopWatching p)).started = none := by
  unfold SetValue StopWatching
  split_ifs <;> rfl

/-- C28, the code at the failing input: on a watched port that `SetValue(1)`
has set to High, a second `SetValue(1)` starts the handler again with an event
of `Edge = RisingEdge`, although the level was High before and is High after;
in the same way a repeated `SetValue(0)` on a new port, which is Low, starts
the handler with `Edge = FallingEdge`. -/
theorem SetValue_same_level_delivers_event (gpio pulse t1 t2 : Int) (handler : Nat) :
    GetValue (SetValue t1 1 (WatchingEvents handler (NewPort gpio pulse))).port = (High, none)
    ∧ (SetValue t2 1 (SetValue t1 1 (WatchingEvents handler (NewPort gpio pulse))).port).started
        = some (handler, { Time := t2, Edge := RisingEdge })
    ∧ GetValue
        (SetValue t2 1 (SetValue t1 1 (WatchingEvents handler (NewPort gpio pulse))).port).port
        = (High, none)
    ∧ GetValue (WatchingEvents handler (NewPort gpio pulse)) = (Low, none)
    ∧ (SetValue t1 0 (WatchingEvents handler (NewPort gpio pulse))).started
        = some (handler, { Time := t1, Edge := FallingEdge }) := by
  refine ⟨rfl, rfl, rfl, rfl, rfl⟩

end GpioEmu

/-! ## Claims on the logger set-up -/

namespace Xlog

/-- For a destination that is none of the three keywords, `Init` hands the
lower-cased destination to `os.OpenFile`; it returns the error of that call
with no logger, and else a logger on the opened file. -/
theorem Init_opens_lowered (OpenFile : String → Except String File) (dest logLevel : String)
    (h1 : ToLower dest ≠ "stdout") (h2 : ToLower dest ≠ "stderr")
    (h3 : ToLower dest ≠ "null") :
    (∀ err, OpenFile (ToLower dest) = Except.error err →
        Init OpenFile dest logLevel = Except.error err)
    ∧ (∀ f, OpenFile (ToLower dest) = Except.ok f →
        ∃ l, Init OpenFile dest logLevel = Except.ok l ∧ l.writer = Writer.file f
          ∧ l.File = some f) := by
  constructor
  · intro err he
    simp only [Init, h1, h2, h3, if_false, he]
  · intro f hf
    simp only [Init, h1, h2, h3, if_false, hf]
    exact ⟨_, rfl, rfl, rfl⟩

/-- C27, the code at the failing input: where every file can be opened and an
open file is told by the name it was opened under, `Init("/tmp/App.log",
"info")` opens the file named "/tmp/app.log", which is not the path given,
and returns a logger that writes to that file. -/
theorem Init_opens_lower_cased_path :
    Init (fun name => Except.ok { name := name }) "/tmp/App.log" "info"
      = Except.ok { writer := Writer.file { name := "/tmp/app.log" }, AddSource := false,
                    Level := Level.LevelInfo, File := some { name := "/tmp/app.log" } }
    ∧ "/tmp/app.log" ≠ "/tmp/App.log" := by
  constructor
  · rfl
  · decide

end Xlog
